import Mathlib

/-!
# Group tree cache (`src/group.go`): shallow embedding and verification

The Go type `GroupsSingle` holds the current-state list `listBatch`, the
pending-write queue `createBatch`, a mutex and a database handle.  The
embedding threads that state explicitly:

* slices are `List`s, an index read is `l[i]?` and a failed bounds check is the
  fault `Fault.indexOutOfRange` (a Go run-time panic);
* `uuid.UUID` is a natural number, `uuid.Nil` is `0`; ids are only compared;
* `int32` is `Int` with the wrap-around addition `add32`;
* the mutex is the boolean field `mu`; `Lock` on a held mutex never returns
  (`Fault.deadlock`);
* the database is an oracle: the outcome of every storage call is an argument
  of the operation, and the calls issued are appended to the log `db`;
* the two recursions that the source does not bound take a `fuel` argument, the
  greatest recursion depth the stack allows; exhausting it is
  `Fault.stackOverflow`.
-/

namespace GroupCache

/-! ## Data model -/

/-- Identifier type `uuid.UUID`; only equality is ever used on it. -/
abbrev UUID := Nat

/-- The constant `uuid.Nil`, the all-zero identifier used as the "none" sentinel. -/
def uuidNil : UUID := 0

/-- Reduction of an integer to the `int32` range, two's complement. -/
def wrap32 (x : Int) : Int := (x + 2147483648) % 4294967296 - 2147483648

/-- Addition of Go's `int32`: it wraps around on overflow. -/
def add32 (a b : Int) : Int := wrap32 (a + b)

/-- Modelled from the spec: the declaration of `entity.Group` is not part of the
sources at hand; the fields are the ones of section 3 of the specification, under
the names `group.go` uses for them (`Id`, `Name`, `ParentId`, `DepthLevel` of type
`int32`, `Main`, `Active`, `OfficeGroup`, `Office`). -/
structure Group where
  Id : UUID
  Name : String
  ParentId : UUID
  DepthLevel : Int
  Main : Bool
  Active : Bool
  OfficeGroup : Bool
  Office : UUID
deriving DecidableEq, Repr

/-- The Go zero value `entity.Group{}`, returned as the "not found" sentinel. -/
def Group.zero : Group :=
  { Id := uuidNil, Name := "", ParentId := uuidNil, DepthLevel := 0,
    Main := false, Active := false, OfficeGroup := false, Office := uuidNil }

/-- Element type of the descendant enumeration (`type TreeBottomElement`). -/
structure TreeBottomElement where
  Id : UUID
deriving DecidableEq, Repr

/-- Element type of the ancestor path (`type Tree`). -/
structure Tree where
  Id : UUID
  Name : String
deriving DecidableEq, Repr

/-- A Go `error` value, identified with its message; `nil` is `none`. -/
abbrev GoError := String

/-- The storage calls `group.go` issues on `GroupsSingle.db`. -/
inductive DbCall where
  | create (batch : List Group)
  | findOrdered
  | optimize
  | deleteById (id : UUID)
  | deleteNonMain
deriving DecidableEq, Repr

/-- Ways in which a call fails to return to its caller. -/
inductive Fault where
  | deadlock
  | fatal
  | indexOutOfRange
  | stackOverflow
deriving DecidableEq, Repr

deriving instance DecidableEq for Except

/-- The receiver `GroupsSingle`: list, pending queue, mutex (`true` = held) and
the log of storage calls issued so far. -/
structure GroupsSingle where
  listBatch : List Group
  createBatch : List Group
  mu : Bool
  db : List DbCall
deriving DecidableEq, Repr

/-! ## Primitives -/

/-- `sync.Mutex.Lock`: blocks for ever when the mutex is already held. -/
def Lock (s : GroupsSingle) : Except Fault GroupsSingle :=
  if s.mu then .error .deadlock else .ok { s with mu := true }

/-- `sync.Mutex.Unlock`: a fatal run-time error when the mutex is not held. -/
def Unlock (s : GroupsSingle) : Except Fault GroupsSingle :=
  if s.mu then .ok { s with mu := false } else .error .fatal

/-- `slices.IndexFunc`: index of the first element satisfying `f`; the Go result
`-1` is `none`. -/
def IndexFunc {α : Type} (l : List α) (f : α → Bool) : Option Nat :=
  match l with
  | [] => none
  | a :: t => if f a then some 0 else (IndexFunc t f).map (· + 1)

/-- The slice expression `append(l[:idx], l[idx+1:]...)`. -/
def removeAt (l : List Group) (idx : Nat) : List Group :=
  l.take idx ++ l.drop (idx + 1)

/-! ## Operations of `group.go` -/

/-- `CreateFromBatch(optimize)`; `dbCreate` is the outcome of `db.Create` and
`dbFind` the outcome of the ordered `Find` of the failure path.  The result is
the returned `error` and the state at return. -/
def CreateFromBatch (optimize : Bool) (dbCreate : Option GoError)
    (dbFind : Except GoError (List Group)) (s : GroupsSingle) :
    Except Fault (Option GoError × GroupsSingle) := do
  let s ← Lock s
  if s.createBatch.length < 1 then
    return (none, s)
  let s := { s with db := s.db ++ [DbCall.create s.createBatch] }
  match dbCreate with
  | some err =>
    let s := { s with db := s.db ++ [DbCall.findOrdered] }
    match dbFind with
    | .error _ => .error .fatal
    | .ok groups => return (some err, { s with listBatch := groups, createBatch := [] })
  | none =>
    let s := if optimize then { s with db := s.db ++ [DbCall.optimize] } else s
    let s := { s with createBatch := [] }
    let s ← Unlock s
    return (none, s)

/-- `DeleteById(id)`; `dbDelete` is the outcome of the storage delete. -/
def DeleteById (id : UUID) (dbDelete : Option GoError) (s : GroupsSingle) :
    Except Fault (Option GoError × GroupsSingle) :=
  match IndexFunc s.listBatch (fun g => g.Id == id) with
  | none => return (some "удаляемая группа не найдена", s)
  | some idx => do
    let s ← Lock s
    let s := { s with db := s.db ++ [DbCall.deleteById id] }
    match dbDelete with
    | some err => return (some err, s)
    | none =>
      let s := { s with listBatch := removeAt s.listBatch idx }
      let s ← Unlock s
      return (none, s)

/-- One iteration of the removal loop of `ResetGroupsTable` (lines 130-132). -/
def resetStep (l : List Group) (idx : Nat) : Except Fault (List Group) :=
  match l[idx]? with
  | none => .error .indexOutOfRange
  | some g => if !g.Main then .ok (removeAt l idx) else .ok l

/-- `ResetGroupsTable()`; `dbDelete` is the outcome of the storage delete.  The
`range` clause fixes the number of iterations at the length the list has when
the loop starts; the body indexes the list as it is then. -/
def ResetGroupsTable (dbDelete : Option GoError) (s : GroupsSingle) :
    Except Fault (Option GoError × GroupsSingle) := do
  let s ← Lock s
  let s := { s with db := s.db ++ [DbCall.deleteNonMain] }
  match dbDelete with
  | some err => return (some err, s)
  | none =>
    let l ← (List.range s.listBatch.length).foldlM resetStep s.listBatch
    let s := { s with listBatch := l }
    let s ← Unlock s
    return (none, s)

/-- `GetBatchElementById(id)`. -/
def GetBatchElementById (s : GroupsSingle) (id : UUID) : Group :=
  match IndexFunc s.listBatch (fun g => g.Id == id) with
  | none => Group.zero
  | some idx => s.listBatch.getD idx Group.zero

/-- `GetBatchElementsByParentId(id)`. -/
def GetBatchElementsByParentId (s : GroupsSingle) (id : UUID) : List Group :=
  s.listBatch.filter (fun g => g.ParentId == id)

/-- `GetMainGroupUuid()`: the id of the first main group, or the error. -/
def GetMainGroupUuid (s : GroupsSingle) : Except GoError UUID :=
  match IndexFunc s.listBatch (fun g => g.Main) with
  | none => .error "нарушена структура групп, главная группа не найдена"
  | some idx => .ok (s.listBatch.getD idx Group.zero).Id

/-- The replace-or-append block that `UpdateBatch` runs on each of its two
slices (lines 188-193 and 195-200). -/
def upsert (l : List Group) (group : Group) : List Group :=
  match IndexFunc l (fun g => g.Id == group.Id) with
  | none => l ++ [group]
  | some idx => l.set idx group

/-- `UpdateBatch(group)`. -/
def UpdateBatch (group : Group) (s : GroupsSingle) : Except Fault GroupsSingle := do
  let s ← Lock s
  let s := { s with listBatch := upsert s.listBatch group }
  let s := { s with createBatch := upsert s.createBatch group }
  Unlock s

/-- The merge of lines 223-228 of `setGroupDepth`: the entry `g1` just written to
the list is appended to the queue, unless the queue has an entry of that id, whose
`DepthLevel` is then overwritten. -/
def mergeDepth (createBatch : List Group) (g1 : Group) (depth : Int) : List Group :=
  match IndexFunc createBatch (fun c => c.Id == g1.Id) with
  | none => createBatch ++ [g1]
  | some cidx => createBatch.modify (fun c => { c with DepthLevel := depth }) cidx

/-- The locked block of `setGroupDepth` (lines 219-230) for the entry `g` read at
index `idx`: store the depth in the list and merge the entry into the queue. -/
def writeDepth (s : GroupsSingle) (idx : Nat) (g : Group) (depth : Int) :
    Except Fault GroupsSingle := do
  let s ← Lock s
  let g1 := { g with DepthLevel := depth }
  let s := { s with listBatch := s.listBatch.set idx g1 }
  let s := { s with createBatch := mergeDepth s.createBatch g1 depth }
  Unlock s

/-- One iteration of the loop of `setGroupDepth` (lines 215-234) at index `idx`;
`recurse` stands for the recursive call of line 233.  The body only ever writes
the field `DepthLevel`, so the entry read at the top of the iteration keeps its
`Id` until that call. -/
def depthStep (recurse : UUID → Int → GroupsSingle → Except Fault GroupsSingle)
    (parent : UUID) (depth : Int) (s : GroupsSingle) (idx : Nat) : Except Fault GroupsSingle :=
  match s.listBatch[idx]? with
  | none => .error .indexOutOfRange
  | some g =>
    if g.ParentId = parent then do
      let s ← if g.DepthLevel ≠ depth then writeDepth s idx g depth else pure s
      recurse g.Id (add32 depth 1) s
    else pure s

/-- `setGroupDepth(parent, depth)`; the `range` clause fixes the indices visited
at the length the list has on entry. -/
def setGroupDepth : Nat → UUID → Int → GroupsSingle → Except Fault GroupsSingle
  | 0, _, _, _ => .error .stackOverflow
  | fuel + 1, parent, depth, s =>
    (List.range s.listBatch.length).foldlM (depthStep (setGroupDepth fuel) parent depth) s

/-- `RecalcGroupsDepth(rootGroupId)`. -/
def RecalcGroupsDepth (fuel : Nat) (rootGroupId : UUID) (s : GroupsSingle) :
    Except Fault GroupsSingle :=
  let rootGroup := GetBatchElementById s rootGroupId
  setGroupDepth fuel rootGroup.Id (add32 rootGroup.DepthLevel 1) s

/-- One iteration of the loops of `getTreeBottomElements` and
`compileTreeBottomElements` (lines 341-344 and 363-366): append the id of the
child, then enumerate below it; `recurse` stands for the call of
`compileTreeBottomElements`. -/
def bottomStep
    (recurse : List TreeBottomElement → UUID → Except Fault (List TreeBottomElement))
    (treeElements : List TreeBottomElement) (group : Group) :
    Except Fault (List TreeBottomElement) :=
  recurse (treeElements ++ [{ Id := group.Id }]) group.Id

/-- `compileTreeBottomElements(treeElements, groupId)`; the slice behind the
pointer is passed in and returned. -/
def compileTreeBottomElements :
    Nat → GroupsSingle → List TreeBottomElement → UUID → Except Fault (List TreeBottomElement)
  | 0, _, _, _ => .error .stackOverflow
  | fuel + 1, s, treeElements, groupId =>
    if groupId = uuidNil then .ok treeElements
    else
      let groups := GetBatchElementsByParentId s groupId
      if groups.length = 0 then .ok treeElements
      else groups.foldlM (bottomStep (compileTreeBottomElements fuel s)) treeElements

/-- `getTreeBottomElements(groupId)`. -/
def getTreeBottomElements (fuel : Nat) (s : GroupsSingle) (groupId : UUID) :
    Except Fault (List TreeBottomElement) :=
  let treeElements : List TreeBottomElement := []
  let groups := GetBatchElementsByParentId s groupId
  if groups.length = 0 then .ok treeElements
  else groups.foldlM (bottomStep (compileTreeBottomElements fuel s)) treeElements

/-- `CheckParentId(id, idToCheck, forRelink)`; the empty string accepts. -/
def CheckParentId (fuel : Nat) (s : GroupsSingle) (id idToCheck : UUID) (forRelink : Bool) :
    Except Fault String :=
  let pre : Except String String :=
    if forRelink then
      match GetMainGroupUuid s with
      | .error err => .error err
      | .ok mainGroupId =>
        let checkErr := "Ошибка переноса подгрупп, сети и устройств группы"
        if idToCheck = mainGroupId then
          .error (checkErr ++ " (перенос в главную группу невозможен)")
        else .ok checkErr
    else .ok "Ошибка изменения родительской группы"
  match pre with
  | .error msg => .ok msg
  | .ok checkErr =>
    if id = idToCheck then
      if forRelink then
        .ok (checkErr ++ " (перенос в удаляемую или деактивируемую группу невозможен)")
      else
        .ok (checkErr ++ " (изменяемая группа не может быть собственным родителем)")
    else
      match IndexFunc s.listBatch (fun g => g.Id == idToCheck && g.Active) with
      | none => .ok (checkErr ++ " (группа не существует или неактивна)")
      | some _ => do
        let treeBottomElements ← getTreeBottomElements fuel s id
        match IndexFunc treeBottomElements (fun g => g.Id == idToCheck) with
        | some _ =>
          if forRelink then
            .ok (checkErr ++ " (перенос в подгруппы удаляемой или деактивируемой группы невозможен)")
          else
            .ok (checkErr ++ " (подгруппа изменяемой группы не может быть её родителем)")
        | none => .ok ""


/-- `CompileTreeTop(tree, parentId)` (lines 310-329); the slice behind the pointer
is passed in and returned. -/
def CompileTreeTop : Nat → GroupsSingle → List Tree → UUID → Except Fault (List Tree)
  | 0, _, _, _ => .error .stackOverflow
  | fuel + 1, s, tree, parentId =>
    if parentId = uuidNil then .ok tree
    else
      let group := GetBatchElementById s parentId
      if group.Id = uuidNil then .ok tree
      else
        let newTreeEl : Tree := { Id := group.Id, Name := group.Name }
        CompileTreeTop fuel s ([newTreeEl] ++ tree) group.ParentId

/-- `GetTreeTop(groupId, deviceId, deviceName, deviceHost)` (lines 284-308). -/
def GetTreeTop (fuel : Nat) (s : GroupsSingle) (groupId deviceId : UUID)
    (deviceName deviceHost : String) : Except Fault (List Tree) :=
  let group := GetBatchElementById s groupId
  if group.Id = uuidNil then .ok []
  else
    let tree : List Tree :=
      [{ Id := groupId, Name := group.Name },
        { Id := deviceId, Name := deviceName ++ " (" ++ deviceHost ++ ")" }]
    CompileTreeTop fuel s tree group.ParentId
/-! ## Specification vocabulary -/

/-- The ids of a list of groups, in list order. -/
def ids (l : List Group) : List UUID := l.map (fun g => g.Id)

/-- The parent links of a list: the pairs `(Id, ParentId)`, in list order. -/
def edges (l : List Group) : List (UUID × UUID) := l.map (fun g => (g.Id, g.ParentId))

/-- The id `x` lies `k` parent links below the id `p`: following `ParentId` from
a group with id `x` through groups of the list reaches `p` after `k` steps.  In
the words of the claims, a group `g` is a child of `p` when `g.ParentId` is the
id of `p`. -/
def DescAt (l : List Group) : Nat → UUID → UUID → Prop
  | 0, x, p => x = p
  | k + 1, x, p => ∃ g ∈ l, g.Id = x ∧ DescAt l k g.ParentId p

/-- No group is its own ancestor: no id reaches itself by one or more parent links. -/
def Acyclic (l : List Group) : Prop := ∀ x k, ¬ DescAt l (k + 1) x x

/-- No id at or below `p` lies on a cycle. -/
def AcyclicBelow (l : List Group) (p : UUID) : Prop :=
  ∀ m x, DescAt l m x p → ∀ k, ¬ DescAt l (k + 1) x x

/-- No group of the list carries the sentinel `uuid.Nil` as its id. -/
def NoNilId (l : List Group) : Prop := ∀ g ∈ l, g.Id ≠ uuidNil

instance (l : List Group) : Decidable (NoNilId l) :=
  inferInstanceAs (Decidable (∀ g ∈ l, g.Id ≠ uuidNil))

/-- The depth invariant: a group whose parent is in the list lies one level
below it, in `int32` arithmetic. -/
def DepthInv (l : List Group) : Prop :=
  ∀ g ∈ l, ∀ p ∈ l, g.ParentId = p.Id → g.DepthLevel = add32 p.DepthLevel 1

instance (l : List Group) : Decidable (DepthInv l) :=
  inferInstanceAs
    (Decidable (∀ g ∈ l, ∀ p ∈ l, g.ParentId = p.Id → g.DepthLevel = add32 p.DepthLevel 1))

/-- The depth `k` levels below a group of depth `d`: `k` additions of one. -/
def depthAt (d : Int) : Nat → Int
  | 0 => d
  | k + 1 => add32 (depthAt d k) 1

/-- Condition (1) of `CheckParentId` for a relink: the list has a main group and
`t` is not the id of the first one, which is the one `GetMainGroupUuid` reports. -/
def NotMainTarget (l : List Group) (t : UUID) : Prop :=
  ∃ pre g post, l = pre ++ g :: post ∧ g.Main = true ∧ (∀ x ∈ pre, x.Main = false) ∧ t ≠ g.Id

/-- Condition (3) of `CheckParentId`: the list has an active group with id `t`. -/
def ActiveTarget (l : List Group) (t : UUID) : Prop :=
  ∃ g ∈ l, g.Id = t ∧ g.Active = true

/-- The predicate of C10: the ids of the pending queue are pairwise distinct and
the ids of the list are pairwise distinct. -/
def OneVersionPerId (s : GroupsSingle) : Prop :=
  (ids s.createBatch).Nodup ∧ (ids s.listBatch).Nodup

/-- Every entry of the pending queue is an entry of the list: the queue holds
the version the cache holds. -/
def Coherent (s : GroupsSingle) : Prop := ∀ c ∈ s.createBatch, c ∈ s.listBatch

/-- A call of one of the two operations that fill the pending queue. -/
inductive Call where
  | update (g : Group)
  | recalc (rootId : UUID)
deriving DecidableEq, Repr

/-- The calls of a list made one after another, each on the state the one before
has left. -/
def runCalls (fuel : Nat) : List Call → GroupsSingle → Except Fault GroupsSingle
  | [], s => .ok s
  | Call.update g :: cs, s => UpdateBatch g s >>= runCalls fuel cs
  | Call.recalc r :: cs, s => RecalcGroupsDepth fuel r s >>= runCalls fuel cs

/-- The id `x` is touched by a run of calls from `s`: a group with that id is
passed to `UpdateBatch`, or a `RecalcGroupsDepth` changes the entry with that id. -/
def Touched (fuel : Nat) : List Call → GroupsSingle → UUID → Prop
  | [], _, _ => False
  | Call.update g :: cs, s, x =>
    x = g.Id ∨ ∃ s1, UpdateBatch g s = .ok s1 ∧ Touched fuel cs s1 x
  | Call.recalc r :: cs, s, x =>
    ∃ s1, RecalcGroupsDepth fuel r s = .ok s1 ∧
      (GetBatchElementById s1 x ≠ GetBatchElementById s x ∨ Touched fuel cs s1 x)

/-- `UpdateBatch` applied to the groups of a list one after another, each call on
the state the one before has left. -/
def updateAll : List Group → GroupsSingle → Except Fault GroupsSingle
  | [], s => .ok s
  | g :: gs, s => UpdateBatch g s >>= updateAll gs

/-- The ancestors found in `l` from the parent id `pid` upwards, nearest first:
the chain is empty when `pid` is `uuid.Nil` or no group carries it; otherwise it
starts with the group of that id and goes on from that group's `ParentId`. -/
inductive AncestorChain (l : List Group) : UUID → List Group → Prop where
  | stop (pid : UUID) (h : pid = uuidNil ∨ ∀ g ∈ l, g.Id ≠ pid) : AncestorChain l pid []
  | step (pid : UUID) (a : Group) (rest : List Group) (hpid : pid ≠ uuidNil) (ha : a ∈ l)
      (hid : a.Id = pid) (hrest : AncestorChain l a.ParentId rest) :
      AncestorChain l pid (a :: rest)

/-- The element of the ancestor path for a group: its id and its name. -/
def treeOf (g : Group) : Tree := { Id := g.Id, Name := g.Name }

/-- Depth-first pre-order of the groups below `id`, to `n` levels: the children
of `id` in list order, each immediately followed by the enumeration of its own
subtree. -/
def preorder (l : List Group) : Nat → UUID → List UUID
  | 0, _ => []
  | n + 1, id =>
    (l.filter (fun g => g.ParentId == id)).flatMap (fun c => c.Id :: preorder l n c.Id)

/-! ## Relations between the states of a run -/

/-- What a run of `setGroupDepth(p, d)`, or a part of one, may do to a state
whose parent links are those of `l0`: mutex, storage log and length are as
before, and an entry is either untouched or, being `k + 1` links below `p`, has
received the depth `depthAt d k` and nothing else. -/
def DepthFrame (l0 : List Group) (p : UUID) (d : Int) (t t' : GroupsSingle) : Prop :=
  t'.mu = t.mu ∧ t'.db = t.db ∧ t'.listBatch.length = t.listBatch.length ∧
    ∀ (i : Nat) (g : Group), t.listBatch[i]? = some g →
      t'.listBatch[i]? = some g ∨
        ∃ k, DescAt l0 (k + 1) g.Id p ∧
          t'.listBatch[i]? = some { g with DepthLevel := depthAt d k }

/-- What a run of `setGroupDepth`, or a part of one, does to the pending queue:
the ids of the list stay, the queue keeps its ids, an entry of the list that has
changed has its id in the queue, and distinctness of ids and coherence persist. -/
def QueueFrame (t t' : GroupsSingle) : Prop :=
  ids t'.listBatch = ids t.listBatch ∧
    (∀ x ∈ ids t.createBatch, x ∈ ids t'.createBatch) ∧
    (∀ (i : Nat) (g : Group), t.listBatch[i]? = some g →
      t'.listBatch[i]? = some g ∨ g.Id ∈ ids t'.createBatch) ∧
    (OneVersionPerId t → OneVersionPerId t') ∧
    (OneVersionPerId t → Coherent t → Coherent t')

/-- Where the ids come from that a run of `setGroupDepth(p, d)`, or a part of one,
adds to the queue: from entries below `p` whose depth was not that of their level. -/
def QueueFresh (l0 : List Group) (p : UUID) (d : Int) (t t' : GroupsSingle) : Prop :=
  ∀ x ∈ ids t'.createBatch, x ∈ ids t.createBatch ∨
    ∃ (i : Nat) (g : Group) (k : Nat), t.listBatch[i]? = some g ∧ g.Id = x ∧
      DescAt l0 (k + 1) x p ∧ g.DepthLevel ≠ depthAt d k

/-- The entries of the pending queue of `t` are still at their index in `t'`,
with every field but `DepthLevel` as it was. -/
def QueueKeep (t t' : GroupsSingle) : Prop :=
  ∀ (i : Nat) (c : Group), t.createBatch[i]? = some c →
    ∃ dl, t'.createBatch[i]? = some { c with DepthLevel := dl }

/-- Relative to the state `t0` a run has started from: an entry of the queue of
`u` and an entry of the list of `u` with the same id either carry the same depth
or are both entries of `t0`. -/
def QueueSync (t0 u : GroupsSingle) : Prop :=
  ∀ c ∈ u.createBatch, ∀ g ∈ u.listBatch, c.Id = g.Id →
    c.DepthLevel = g.DepthLevel ∨ (c ∈ t0.createBatch ∧ g ∈ t0.listBatch)

/-! ## Concrete data for the worked cases -/

/-- An active, unnamed group with the given id, parent, depth and `Main` flag. -/
def sampleGroup (id parent : UUID) (depth : Int) (main : Bool) : Group :=
  { Id := id, Name := "", ParentId := parent, DepthLevel := depth, Main := main,
    Active := true, OfficeGroup := false, Office := uuidNil }

/-- A state with the given list, an empty pending queue, a free mutex and an
empty storage log. -/
def sampleState (l : List Group) : GroupsSingle :=
  { listBatch := l, createBatch := [], mu := false, db := [] }

/-- The list `[main, A, B]`: one main group followed by two adjacent non-main ones. -/
def mainAB : List Group :=
  [sampleGroup 1 0 0 true, sampleGroup 2 1 1 false, sampleGroup 3 1 1 false]

/-- The scenario of C4: `root` (depth 0) with child `A`, whose depth has been set
to 2, `B` (depth 2) below `A` and `C` (depth 3) below `B`. -/
def chainRABC : List Group :=
  [sampleGroup 1 0 0 true, sampleGroup 2 1 2 false, sampleGroup 3 2 2 false,
    sampleGroup 4 3 3 false]

/-- A chain that satisfies the depth invariant: `root` (depth 0), `A` (1), `B` (2),
`C` (3), each the child of the one before. -/
def chainDepths : List Group :=
  [sampleGroup 1 0 0 true, sampleGroup 2 1 1 false, sampleGroup 3 2 2 false,
    sampleGroup 4 3 3 false]

/-- A list in which one group carries the id `uuid.Nil`: `N` (id 2, depth 0) with
child `Z` (id `uuid.Nil`, depth 1), and `M` (id 1, depth 2) whose `ParentId` is
`uuid.Nil`, the id of `Z`. -/
def nilIdList : List Group :=
  [sampleGroup 1 0 2 false, sampleGroup 0 2 1 false, sampleGroup 2 5 0 false]


/-- The list `[A, main]`: a non-main group in front of the main one. -/
def nonMainFirst : List Group :=
  [sampleGroup 2 1 1 false, sampleGroup 1 0 0 true]

/-- A list with a cycle: the groups 1 and 2 are each the parent of the other, and
the main group 3 stands apart. -/
def cycleAB : List Group :=
  [sampleGroup 1 2 0 false, sampleGroup 2 1 0 false, sampleGroup 3 0 0 true]
/-! ## Lemmas on the primitives -/

theorem ok_bind {α β : Type} (a : α) (f : α → Except Fault β) :
    ((Except.ok a : Except Fault α) >>= f) = f a := rfl

theorem Lock_free (s : GroupsSingle) (h : s.mu = false) :
    Lock s = .ok { s with mu := true } := by
  simp [Lock, h]

theorem Unlock_held (s : GroupsSingle) (h : s.mu = true) :
    Unlock s = .ok { s with mu := false } := by
  simp [Unlock, h]

theorem IndexFunc_eq_none {α : Type} (l : List α) (f : α → Bool) :
    IndexFunc l f = none ↔ ∀ a ∈ l, f a = false := by
  induction l with
  | nil => simp [IndexFunc]
  | cons a t ih =>
    by_cases h : f a = true
    · simp [IndexFunc, h]
    · simp [IndexFunc, h, ih]

theorem IndexFunc_eq_some {α : Type} (l : List α) (f : α → Bool) (i : Nat)
    (h : IndexFunc l f = some i) :
    ∃ a, l[i]? = some a ∧ f a = true ∧ ∀ j, j < i → ∀ b, l[j]? = some b → f b = false := by
  induction l generalizing i with
  | nil => simp [IndexFunc] at h
  | cons a t ih =>
    by_cases hfa : f a = true
    · simp [IndexFunc, hfa] at h
      subst h
      exact ⟨a, by simp, hfa, by intro j hj; omega⟩
    · simp [IndexFunc, hfa] at h
      obtain ⟨i', hi', rfl⟩ := h
      obtain ⟨b, hb, hfb, hmin⟩ := ih i' hi'
      refine ⟨b, by simpa using hb, hfb, ?_⟩
      intro j hj c hc
      cases j with
      | zero => simp at hc; subst hc; simpa using hfa
      | succ j => exact hmin j (by omega) c (by simpa using hc)

theorem IndexFunc_isSome {α : Type} (l : List α) (f : α → Bool) :
    (∃ i, IndexFunc l f = some i) ↔ ∃ a ∈ l, f a = true := by
  constructor
  · rintro ⟨i, hi⟩
    obtain ⟨a, ha, hfa, -⟩ := IndexFunc_eq_some l f i hi
    exact ⟨a, List.getElem?_mem ha, hfa⟩
  · rintro ⟨a, ha, hfa⟩
    cases h : IndexFunc l f with
    | some i => exact ⟨i, rfl⟩
    | none =>
      have := (IndexFunc_eq_none l f).1 h a ha
      simp [hfa] at this

theorem upsert_nil (g : Group) : upsert [] g = [g] := by
  simp [upsert, IndexFunc]

theorem upsert_cons (a : Group) (t : List Group) (g : Group) :
    upsert (a :: t) g = if a.Id = g.Id then g :: t else a :: upsert t g := by
  by_cases h : a.Id = g.Id
  · simp [upsert, IndexFunc, h]
  · simp only [upsert, IndexFunc, h, if_false, beq_iff_eq]
    cases IndexFunc t (fun x => x.Id == g.Id) <;> simp

theorem removeAt_zero (a : Group) (t : List Group) : removeAt (a :: t) 0 = t := by
  simp [removeAt]

theorem removeAt_succ (a : Group) (t : List Group) (i : Nat) :
    removeAt (a :: t) (i + 1) = a :: removeAt t i := by
  simp [removeAt]

/-- Lookup in a list by id, as `GetBatchElementById` does it. -/
theorem GetBatchElementById_cons (a : Group) (t : List Group) (c : List Group) (m : Bool)
    (d : List DbCall) (id : UUID) :
    GetBatchElementById ⟨a :: t, c, m, d⟩ id =
      if a.Id = id then a else GetBatchElementById ⟨t, c, m, d⟩ id := by
  by_cases h : a.Id = id
  · simp [GetBatchElementById, IndexFunc, h]
  · simp only [GetBatchElementById, IndexFunc, h, if_false, beq_iff_eq]
    cases IndexFunc t (fun x => x.Id == id) <;> simp

theorem GetBatchElementById_upsert (l c : List Group) (m : Bool) (d : List DbCall) (g : Group) :
    GetBatchElementById ⟨upsert l g, c, m, d⟩ g.Id = g := by
  induction l with
  | nil => simp [upsert_nil, GetBatchElementById_cons]
  | cons a t ih =>
    rw [upsert_cons]
    by_cases h : a.Id = g.Id
    · simp [h, GetBatchElementById_cons]
    · simp [h, GetBatchElementById_cons, ih]

theorem UpdateBatch_free (g : Group) (s : GroupsSingle) (h : s.mu = false) :
    UpdateBatch g s =
      .ok ⟨upsert s.listBatch g, upsert s.createBatch g, false, s.db⟩ := by
  simp [UpdateBatch, Lock, Unlock, h, bind, Except.bind]

theorem IndexFunc_split (l : List Group) (f : Group → Bool) (idx : Nat)
    (h : IndexFunc l f = some idx) :
    ∃ pre g post, l = pre ++ g :: post ∧ f g = true ∧ (∀ x ∈ pre, f x = false) ∧
      pre.length = idx ∧ removeAt l idx = pre ++ post := by
  induction l generalizing idx with
  | nil => simp [IndexFunc] at h
  | cons a t ih =>
    by_cases hfa : f a = true
    · simp [IndexFunc, hfa] at h
      subst h
      exact ⟨[], a, t, rfl, hfa, by simp, rfl, removeAt_zero a t⟩
    · simp [IndexFunc, hfa] at h
      obtain ⟨i, hi, rfl⟩ := h
      obtain ⟨pre, g, post, hl, hg, hpre, hlen, hrem⟩ := ih i hi
      refine ⟨a :: pre, g, post, by simp [hl], hg, ?_, by simp [hlen], ?_⟩
      · intro x hx
        rcases List.mem_cons.1 hx with rfl | hx
        · simpa using hfa
        · exact hpre x hx
      · rw [removeAt_succ, hrem]; rfl

theorem GetBatchElementById_absent (s : GroupsSingle) (id : UUID)
    (h : ∀ g ∈ s.listBatch, g.Id ≠ id) : GetBatchElementById s id = Group.zero := by
  have : IndexFunc s.listBatch (fun g => g.Id == id) = none := by
    rw [IndexFunc_eq_none]
    intro a ha
    simpa using h a ha
  simp [GetBatchElementById, this]

theorem CreateFromBatch_empty (optimize : Bool) (dbCreate : Option GoError)
    (dbFind : Except GoError (List Group)) (s : GroupsSingle)
    (hq : s.createBatch = []) (hmu : s.mu = false) :
    CreateFromBatch optimize dbCreate dbFind s = .ok (none, { s with mu := true }) := by
  simp [CreateFromBatch, Lock, hmu, hq, bind, Except.bind, pure, Except.pure]

theorem getElem?_prefix_length {α : Type} (pre : List α) (g : α) (post : List α) :
    (pre ++ g :: post)[pre.length]? = some g := by
  induction pre with
  | nil => simp
  | cons a p ih => simpa using ih

theorem IndexFunc_prefix {α : Type} (pre : List α) (g : α) (post : List α) (f : α → Bool)
    (hg : f g = true) (hpre : ∀ x ∈ pre, f x = false) :
    IndexFunc (pre ++ g :: post) f = some pre.length := by
  induction pre with
  | nil => simp [IndexFunc, hg]
  | cons a p ih =>
    have ha : f a = false := hpre a (by simp)
    simp [IndexFunc, ha]
    exact ih (fun x hx => hpre x (List.mem_cons_of_mem _ hx))

theorem GetMainGroupUuid_cases (s : GroupsSingle) :
    (GetMainGroupUuid s = .error "нарушена структура групп, главная группа не найдена" ∧
        ∀ g ∈ s.listBatch, g.Main = false) ∨
      ∃ pre g post, s.listBatch = pre ++ g :: post ∧ g.Main = true ∧
        (∀ x ∈ pre, x.Main = false) ∧ GetMainGroupUuid s = .ok g.Id := by
  cases h : IndexFunc s.listBatch (fun g => g.Main) with
  | none =>
    left
    exact ⟨by simp [GetMainGroupUuid, h], (IndexFunc_eq_none _ _).1 h⟩
  | some idx =>
    right
    obtain ⟨pre, g, post, hl, hg, hpre, hlen, -⟩ := IndexFunc_split _ _ _ h
    refine ⟨pre, g, post, hl, hg, hpre, ?_⟩
    have hget : s.listBatch[idx]? = some g := by
      rw [hl, ← hlen]; exact getElem?_prefix_length pre g post
    simp only [GetMainGroupUuid, h, List.getD_eq_getElem?_getD, hget, Option.getD_some]

theorem NotMainTarget_iff (s : GroupsSingle) (t : UUID) :
    NotMainTarget s.listBatch t ↔ ∃ m, GetMainGroupUuid s = .ok m ∧ t ≠ m := by
  rcases GetMainGroupUuid_cases s with ⟨herr, hno⟩ | ⟨pre, g, post, hl, hg, hpre, hok⟩
  · constructor
    · rintro ⟨pre, g, post, hl, hg, -, -⟩
      have := hno g (by rw [hl]; simp)
      simp [hg] at this
    · rintro ⟨m, hm, -⟩
      rw [herr] at hm
      cases hm
  · constructor
    · rintro ⟨pre', g', post', hl', hg', hpre', hne⟩
      refine ⟨g.Id, hok, ?_⟩
      have hidx := IndexFunc_prefix pre g post (fun g => g.Main) hg hpre
      have hidx' := IndexFunc_prefix pre' g' post' (fun g => g.Main) hg' hpre'
      rw [← hl] at hidx
      rw [← hl'] at hidx'
      have hlen : pre.length = pre'.length := by
        rw [hidx] at hidx'; exact Option.some.inj hidx'
      have hgg : g = g' := by
        have h1 : s.listBatch[pre.length]? = some g := by
          rw [hl]; exact getElem?_prefix_length pre g post
        have h2 : s.listBatch[pre'.length]? = some g' := by
          rw [hl']; exact getElem?_prefix_length pre' g' post'
        rw [hlen, h2] at h1
        exact (Option.some.inj h1).symm
      rw [hgg]; exact hne
    · rintro ⟨m, hm, hne⟩
      rw [hok] at hm
      cases hm
      exact ⟨pre, g, post, hl, hg, hpre, hne⟩

theorem ActiveTarget_iff (l : List Group) (t : UUID) :
    ActiveTarget l t ↔ ∃ i, IndexFunc l (fun g => g.Id == t && g.Active) = some i := by
  rw [IndexFunc_isSome]
  simp [ActiveTarget]

theorem IndexFunc_tree_none (tb : List TreeBottomElement) (t : UUID) :
    IndexFunc tb (fun g => g.Id == t) = none ↔ ∀ e ∈ tb, e.Id ≠ t := by
  rw [IndexFunc_eq_none]
  simp
/-- The result of `CheckParentId` in terms of its four conditions. -/
theorem CheckParentId_eval (fuel : Nat) (s : GroupsSingle) (id t : UUID) (r : Bool) :
    (¬ ((r = true → NotMainTarget s.listBatch t) ∧ id ≠ t ∧ ActiveTarget s.listBatch t) →
        ∃ msg, CheckParentId fuel s id t r = .ok msg ∧ msg ≠ "") ∧
      (((r = true → NotMainTarget s.listBatch t) ∧ id ≠ t ∧ ActiveTarget s.listBatch t) →
        (∀ e, getTreeBottomElements fuel s id = .error e →
          CheckParentId fuel s id t r = .error e) ∧
        (∀ tb, getTreeBottomElements fuel s id = .ok tb → (∀ e ∈ tb, e.Id ≠ t) →
          CheckParentId fuel s id t r = .ok "") ∧
        (∀ tb, getTreeBottomElements fuel s id = .ok tb → ¬ (∀ e ∈ tb, e.Id ≠ t) →
          ∃ msg, CheckParentId fuel s id t r = .ok msg ∧ msg ≠ "")) := by
  have key : ∀ checkErr : String, ∀ rej : String, rej ≠ "" →
      (∀ e, getTreeBottomElements fuel s id = .error e →
          (do
            let treeBottomElements ← getTreeBottomElements fuel s id
            match IndexFunc treeBottomElements (fun g => g.Id == t) with
            | some _ => (Except.ok rej : Except Fault String)
            | none => .ok "") = .error e) ∧
        (∀ tb, getTreeBottomElements fuel s id = .ok tb → (∀ e ∈ tb, e.Id ≠ t) →
          (do
            let treeBottomElements ← getTreeBottomElements fuel s id
            match IndexFunc treeBottomElements (fun g => g.Id == t) with
            | some _ => (Except.ok rej : Except Fault String)
            | none => .ok "") = .ok "") ∧
        (∀ tb, getTreeBottomElements fuel s id = .ok tb → ¬ (∀ e ∈ tb, e.Id ≠ t) →
          ∃ msg, (do
            let treeBottomElements ← getTreeBottomElements fuel s id
            match IndexFunc treeBottomElements (fun g => g.Id == t) with
            | some _ => (Except.ok rej : Except Fault String)
            | none => .ok "") = .ok msg ∧ msg ≠ "") := by
    intro _ rej hrej
    refine ⟨?_, ?_, ?_⟩
    · intro e he; simp [he, bind, Except.bind]
    · intro tb htb hall
      have := (IndexFunc_tree_none tb t).2 hall
      simp [htb, bind, Except.bind, this]
    · intro tb htb hnall
      cases hix : IndexFunc tb (fun g => g.Id == t) with
      | none => exact absurd ((IndexFunc_tree_none tb t).1 hix) hnall
      | some j => exact ⟨rej, by simp [htb, bind, Except.bind, hix], hrej⟩
  by_cases hid : id = t
  · refine ⟨fun _ => ?_, fun h => absurd hid h.2.1⟩
    cases r with
    | false => simp [CheckParentId, hid]
    | true =>
      rcases GetMainGroupUuid_cases s with ⟨herr, -⟩ | ⟨pre, g, post, hl, hg, hpre, hok⟩
      · simp [CheckParentId, herr]
      · by_cases htm : t = g.Id
        · simp [CheckParentId, hok, htm]
        · simp [CheckParentId, hok, htm, hid]
  · cases hact : IndexFunc s.listBatch (fun g => g.Id == t && g.Active) with
    | none =>
      have hna : ¬ ActiveTarget s.listBatch t := by
        rw [ActiveTarget_iff]; simp [hact]
      refine ⟨fun _ => ?_, fun h => absurd h.2.2 hna⟩
      cases r with
      | false => simp [CheckParentId, hid, hact]
      | true =>
        rcases GetMainGroupUuid_cases s with ⟨herr, -⟩ | ⟨pre, g, post, hl, hg, hpre, hok⟩
        · simp [CheckParentId, herr]
        · by_cases htm : t = g.Id
          · simp [CheckParentId, hok, htm]
          · simp [CheckParentId, hok, htm, hid, hact]
    | some i =>
      have ha : ActiveTarget s.listBatch t := (ActiveTarget_iff _ _).2 ⟨i, hact⟩
      cases r with
      | false =>
        refine ⟨fun h => absurd ⟨by simp, hid, ha⟩ h, fun _ => ?_⟩
        have k := key "" "Ошибка изменения родительской группы (подгруппа изменяемой группы не может быть её родителем)" (by decide)
        simpa [CheckParentId, hid, hact] using k
      | true =>
        rcases GetMainGroupUuid_cases s with ⟨herr, hno⟩ | ⟨pre, g, post, hl, hg, hpre, hok⟩
        · have hnm : ¬ NotMainTarget s.listBatch t := by
            rw [NotMainTarget_iff]; simp [herr]
          refine ⟨fun _ => ?_, fun h => absurd (h.1 rfl) hnm⟩
          simp [CheckParentId, herr]
        · by_cases htm : t = g.Id
          · have hnm : ¬ NotMainTarget s.listBatch t := by
              rw [NotMainTarget_iff]; simp [hok, htm]
            refine ⟨fun _ => ?_, fun h => absurd (h.1 rfl) hnm⟩
            simp [CheckParentId, hok, htm]
          · have hnm : NotMainTarget s.listBatch t :=
              (NotMainTarget_iff s t).2 ⟨g.Id, hok, htm⟩
            refine ⟨fun h => absurd ⟨fun _ => hnm, hid, ha⟩ h, fun _ => ?_⟩
            have k := key "" "Ошибка переноса подгрупп, сети и устройств группы (перенос в подгруппы удаляемой или деактивируемой группы невозможен)" (by decide)
            simpa [CheckParentId, hid, hact, hok, htm] using k
/-- `CheckParentId` accepts exactly under its four conditions, and otherwise,
when it returns, gives a non-empty reason. -/
theorem CheckParentId_spec (fuel : Nat) (s : GroupsSingle) (id t : UUID) (r : Bool) :
    (CheckParentId fuel s id t r = .ok "" ↔
      (r = true → NotMainTarget s.listBatch t) ∧ id ≠ t ∧ ActiveTarget s.listBatch t ∧
        ∃ tb, getTreeBottomElements fuel s id = .ok tb ∧ ∀ e ∈ tb, e.Id ≠ t) ∧
    (¬ ((r = true → NotMainTarget s.listBatch t) ∧ id ≠ t ∧ ActiveTarget s.listBatch t) →
      ∃ msg, CheckParentId fuel s id t r = .ok msg ∧ msg ≠ "") ∧
    (∀ tb, getTreeBottomElements fuel s id = .ok tb →
      ¬ ((r = true → NotMainTarget s.listBatch t) ∧ id ≠ t ∧ ActiveTarget s.listBatch t ∧
          ∀ e ∈ tb, e.Id ≠ t) →
      ∃ msg, CheckParentId fuel s id t r = .ok msg ∧ msg ≠ "") := by
  obtain ⟨hrej, hacc⟩ := CheckParentId_eval fuel s id t r
  refine ⟨⟨fun h => ?_, fun h => ?_⟩, hrej, fun tb htb hn => ?_⟩
  · by_cases h3 : (r = true → NotMainTarget s.listBatch t) ∧ id ≠ t ∧
        ActiveTarget s.listBatch t
    · obtain ⟨herr, -, hbad⟩ := hacc h3
      refine ⟨h3.1, h3.2.1, h3.2.2, ?_⟩
      cases htb : getTreeBottomElements fuel s id with
      | error e => rw [herr e htb] at h; cases h
      | ok tb =>
        refine ⟨tb, rfl, ?_⟩
        by_contra hn
        obtain ⟨msg, hmsg, hne⟩ := hbad tb htb hn
        rw [hmsg] at h
        exact hne (Except.ok.inj h)
    · obtain ⟨msg, hmsg, hne⟩ := hrej h3
      rw [hmsg] at h
      exact absurd (Except.ok.inj h) hne
  · obtain ⟨h1, h2, h3, tb, htb, hfree⟩ := h
    exact (hacc ⟨h1, h2, h3⟩).2.1 tb htb hfree
  · by_cases h3 : (r = true → NotMainTarget s.listBatch t) ∧ id ≠ t ∧
        ActiveTarget s.listBatch t
    · exact (hacc h3).2.2 tb htb (fun hfree => hn ⟨h3.1, h3.2.1, h3.2.2, hfree⟩)
    · exact hrej h3

/-! ## The parent graph -/

theorem wrap32_add_wrap32 (x y : Int) : wrap32 (wrap32 x + y) = wrap32 (x + y) := by
  unfold wrap32; omega

theorem wrap32_of_range (x : Int) (h1 : -2147483648 ≤ x) (h2 : x < 2147483648) :
    wrap32 x = x := by
  unfold wrap32; omega

theorem depthAt_succ_left (d : Int) (k : Nat) : depthAt (add32 d 1) k = depthAt d (k + 1) := by
  induction k with
  | zero => rfl
  | succ k ih => simp only [depthAt] at ih ⊢; rw [ih]

theorem depthAt_wrap32 (x : Int) (k : Nat) : depthAt (wrap32 x) k = wrap32 (x + k) := by
  induction k with
  | zero => simp [depthAt]
  | succ k ih =>
    simp only [depthAt, ih, add32, wrap32_add_wrap32]
    congr 1
    push_cast
    ring

theorem depthAt_add32 (x : Int) (k : Nat) : depthAt (add32 x 1) k = wrap32 (x + (k + 1)) := by
  rw [add32, depthAt_wrap32]
  congr 1
  ring

theorem mem_edges {l : List Group} {x y : UUID} :
    (x, y) ∈ edges l ↔ ∃ g ∈ l, g.Id = x ∧ g.ParentId = y := by
  simp [edges]

theorem DescAt_succ_iff (l : List Group) (k : Nat) (x p : UUID) :
    DescAt l (k + 1) x p ↔ ∃ y, (x, y) ∈ edges l ∧ DescAt l k y p := by
  simp only [DescAt, mem_edges]
  constructor
  · rintro ⟨g, hg, hx, hd⟩
    exact ⟨g.ParentId, ⟨g, hg, hx, rfl⟩, hd⟩
  · rintro ⟨y, ⟨g, hg, hx, hy⟩, hd⟩
    exact ⟨g, hg, hx, by rw [hy]; exact hd⟩

theorem DescAt_congr {l l' : List Group} (h : edges l = edges l') (k : Nat) (x p : UUID) :
    DescAt l k x p ↔ DescAt l' k x p := by
  induction k generalizing x with
  | zero => simp [DescAt]
  | succ k ih =>
    rw [DescAt_succ_iff, DescAt_succ_iff, h]
    simp only [ih]

theorem Acyclic_congr {l l' : List Group} (h : edges l = edges l') :
    Acyclic l ↔ Acyclic l' := by
  simp only [Acyclic, DescAt_congr h]

theorem ids_eq_of_edges {l l' : List Group} (h : edges l = edges l') : ids l = ids l' := by
  have : (edges l).map Prod.fst = (edges l').map Prod.fst := by rw [h]
  simpa [edges, ids, List.map_map, Function.comp] using this

theorem DescAt_one {l : List Group} {x p : UUID} :
    DescAt l 1 x p ↔ ∃ g ∈ l, g.Id = x ∧ g.ParentId = p := by
  simp [DescAt]

theorem DescAt_add {l : List Group} {a b : Nat} {x y z : UUID}
    (h1 : DescAt l a x y) (h2 : DescAt l b y z) : DescAt l (a + b) x z := by
  induction a generalizing x with
  | zero => simp only [DescAt] at h1; subst h1; simpa using h2
  | succ a ih =>
    obtain ⟨g, hg, hx, hd⟩ := h1
    rw [Nat.succ_add]
    exact ⟨g, hg, hx, ih hd⟩

theorem DescAt_split {l : List Group} {a b : Nat} {x z : UUID}
    (h : DescAt l (a + b) x z) : ∃ y, DescAt l a x y ∧ DescAt l b y z := by
  induction a generalizing x with
  | zero => exact ⟨x, rfl, by simpa using h⟩
  | succ a ih =>
    rw [Nat.succ_add] at h
    obtain ⟨g, hg, hx, hd⟩ := h
    obtain ⟨y, hy1, hy2⟩ := ih hd
    exact ⟨y, ⟨g, hg, hx, hy1⟩, hy2⟩

/-- The last link of a path: a strict descendant of `p` descends from a child of `p`. -/
theorem DescAt_last {l : List Group} {k : Nat} {x p : UUID} (h : DescAt l (k + 1) x p) :
    ∃ c ∈ l, c.ParentId = p ∧ DescAt l k x c.Id := by
  obtain ⟨y, hy1, hy2⟩ := DescAt_split h
  obtain ⟨c, hc, hcid, hcp⟩ := DescAt_one.1 hy2
  exact ⟨c, hc, hcp, by rw [hcid]; exact hy1⟩

theorem eq_of_mem_of_id_eq {l : List Group} (hnd : (ids l).Nodup) {g g' : Group}
    (hg : g ∈ l) (hg' : g' ∈ l) (h : g.Id = g'.Id) : g = g' :=
  List.inj_on_of_nodup_map hnd hg hg' h

theorem DescAt_functional {l : List Group} (hnd : (ids l).Nodup) {k : Nat} {x y z : UUID}
    (h1 : DescAt l k x y) (h2 : DescAt l k x z) : y = z := by
  induction k generalizing x with
  | zero => simp only [DescAt] at h1 h2; rw [← h1, ← h2]
  | succ k ih =>
    obtain ⟨g, hg, hx, hd⟩ := h1
    obtain ⟨g', hg', hx', hd'⟩ := h2
    have : g = g' := eq_of_mem_of_id_eq hnd hg hg' (by rw [hx, hx'])
    subst this
    exact ih hd hd'

/-- Acyclicity from a rank that grows along every parent link, towards the children. -/
theorem Acyclic_of_rank {l : List Group} (r : UUID → Nat)
    (h : ∀ g ∈ l, r g.ParentId < r g.Id) : Acyclic l := by
  have aux : ∀ k x y, DescAt l k x y → r y + k ≤ r x := by
    intro k
    induction k with
    | zero => intro x y hxy; simp only [DescAt] at hxy; subst hxy; simp
    | succ k ih =>
      rintro x y ⟨g, hg, hx, hd⟩
      have h1 := ih _ _ hd
      have h2 := h g hg
      rw [hx] at h2
      omega
  intro x k hd
  have := aux _ _ _ hd
  omega
/-! ## `setGroupDepth`: what it may change -/

theorem setGroupDepth_succ (fuel : Nat) (p : UUID) (d : Int) (s : GroupsSingle) :
    setGroupDepth (fuel + 1) p d s =
      (List.range s.listBatch.length).foldlM (depthStep (setGroupDepth fuel) p d) s := rfl

theorem foldlM_ok_induction {σ ι : Type} (F : σ → ι → Except Fault σ) (P : σ → Prop)
    (hstep : ∀ a i b, P a → F a i = .ok b → P b) :
    ∀ (js : List ι) (a b : σ), P a → js.foldlM F a = .ok b → P b := by
  intro js
  induction js with
  | nil =>
    intro a b ha h
    simp only [List.foldlM_nil, pure, Except.pure] at h
    cases h
    exact ha
  | cons j js ih =>
    intro a b ha h
    rw [List.foldlM_cons] at h
    cases hj : F a j with
    | error e => rw [hj] at h; cases h
    | ok a' =>
      rw [hj] at h
      exact ih a' b (hstep a j a' ha hj) h

theorem DepthFrame.depth_refl (l0 : List Group) (p : UUID) (d : Int) (t : GroupsSingle) :
    DepthFrame l0 p d t t :=
  ⟨rfl, rfl, rfl, fun _ _ h => Or.inl h⟩

theorem DepthFrame.depth_trans {l0 : List Group} {p : UUID} {d : Int} {t t1 t2 : GroupsSingle}
    (h1 : DepthFrame l0 p d t t1) (h2 : DepthFrame l0 p d t1 t2) : DepthFrame l0 p d t t2 := by
  obtain ⟨hm1, hd1, hl1, hp1⟩ := h1
  obtain ⟨hm2, hd2, hl2, hp2⟩ := h2
  refine ⟨hm2.trans hm1, hd2.trans hd1, hl2.trans hl1, ?_⟩
  intro i g hg
  rcases hp1 i g hg with h | ⟨k, hk, h⟩
  · exact hp2 i g h
  · rcases hp2 i _ h with h' | ⟨k', hk', h'⟩
    · exact Or.inr ⟨k, hk, h'⟩
    · exact Or.inr ⟨k', hk', h'⟩

theorem DepthFrame.edges_eq {l0 : List Group} {p : UUID} {d : Int} {t t' : GroupsSingle}
    (h : DepthFrame l0 p d t t') : edges t'.listBatch = edges t.listBatch := by
  obtain ⟨-, -, hl, hp⟩ := h
  apply List.ext_getElem?
  intro i
  simp only [edges, List.getElem?_map]
  cases hi : t.listBatch[i]? with
  | none =>
    have : t'.listBatch[i]? = none := by
      rw [List.getElem?_eq_none_iff] at hi ⊢
      omega
    rw [this]
  | some g =>
    rcases hp i g hi with h | ⟨k, -, h⟩
    · rw [h]
    · rw [h]; rfl

/-- The changes a call on a child of `p` may make are changes a call on `p` may make. -/
theorem DepthFrame.lift {l0 : List Group} {p c : UUID} {d : Int} {t t' : GroupsSingle}
    (hc : DescAt l0 1 c p) (h : DepthFrame l0 c (add32 d 1) t t') : DepthFrame l0 p d t t' := by
  obtain ⟨hm, hd, hl, hp⟩ := h
  refine ⟨hm, hd, hl, ?_⟩
  intro i g hg
  rcases hp i g hg with h | ⟨k, hk, h⟩
  · exact Or.inl h
  · refine Or.inr ⟨k + 1, DescAt_add hk hc, ?_⟩
    rw [h, depthAt_succ_left]

theorem writeDepth_eq_ok {s s' : GroupsSingle} {idx : Nat} {g : Group} {d : Int}
    (h : writeDepth s idx g d = .ok s') :
    s.mu = false ∧ s'.mu = false ∧ s'.db = s.db ∧
      s'.listBatch = s.listBatch.set idx { g with DepthLevel := d } ∧
      s'.createBatch = mergeDepth s.createBatch { g with DepthLevel := d } d := by
  cases hmu : s.mu with
  | true => simp [writeDepth, Lock, hmu, bind, Except.bind] at h
  | false =>
    simp [writeDepth, Lock, hmu, bind, Except.bind, Unlock] at h
    subst h
    simp

theorem writeDepth_free (s : GroupsSingle) (idx : Nat) (g : Group) (d : Int)
    (hmu : s.mu = false) : ∃ s', writeDepth s idx g d = .ok s' := by
  simp [writeDepth, Lock, hmu, bind, Except.bind, Unlock]

theorem writeDepth_frame (l0 : List Group) {p : UUID} {s s' : GroupsSingle} {idx : Nat}
    {g : Group} {d : Int} (hg : s.listBatch[idx]? = some g) (hc : DescAt l0 1 g.Id p)
    (h : writeDepth s idx g d = .ok s') : DepthFrame l0 p d s s' := by
  obtain ⟨hmu, hmu', hdb, hl, -⟩ := writeDepth_eq_ok h
  refine ⟨by rw [hmu, hmu'], hdb, by rw [hl]; simp, ?_⟩
  intro i x hx
  rw [hl]
  by_cases hi : idx = i
  · subst hi
    rw [hg] at hx
    cases hx
    refine Or.inr ⟨0, hc, ?_⟩
    have hlt : idx < s.listBatch.length := by
      rcases List.getElem?_eq_some.1 hg with ⟨h, -⟩; exact h
    simp [List.getElem?_set, hlt, depthAt]
  · left
    rw [List.getElem?_set_ne hi]
    exact hx

theorem mem_edges_of_getElem? {l l0 : List Group} (he : edges l = edges l0) {i : Nat}
    {g : Group} (hg : l[i]? = some g) : DescAt l0 1 g.Id g.ParentId := by
  rw [DescAt_one, ← mem_edges, ← he, mem_edges]
  exact ⟨g, List.getElem?_mem hg, rfl, rfl⟩

theorem depthStep_frame {l0 : List Group}
    {recurse : UUID → Int → GroupsSingle → Except Fault GroupsSingle}
    (hrec : ∀ c d' u u', edges u.listBatch = edges l0 → recurse c d' u = .ok u' →
      DepthFrame l0 c d' u u')
    {p : UUID} {d : Int} {t t' : GroupsSingle} {j : Nat}
    (he : edges t.listBatch = edges l0) (h : depthStep recurse p d t j = .ok t') :
    DepthFrame l0 p d t t' := by
  unfold depthStep at h
  cases hg : t.listBatch[j]? with
  | none => rw [hg] at h; cases h
  | some g =>
    rw [hg] at h
    simp only at h
    by_cases hp : g.ParentId = p
    · simp only [hp, if_true] at h
      have hc : DescAt l0 1 g.Id p := by
        rw [← hp]; exact mem_edges_of_getElem? he hg
      by_cases hd : g.DepthLevel ≠ d
      · simp only [hd, if_true, ne_eq, not_false_eq_true] at h
        cases hw : writeDepth t j g d with
        | error e => rw [hw] at h; cases h
        | ok u =>
          rw [hw] at h
          have f1 := writeDepth_frame l0 hg hc hw
          have he' : edges u.listBatch = edges l0 := by rw [f1.edges_eq, he]
          exact f1.depth_trans (DepthFrame.lift hc (hrec _ _ _ _ he' h))
      · simp only [hd, if_false] at h
        exact DepthFrame.lift hc (hrec _ _ _ _ he h)
    · simp only [hp, if_false, pure, Except.pure] at h
      cases h
      exact DepthFrame.depth_refl _ _ _ _

theorem depthFold_frame {l0 : List Group}
    {recurse : UUID → Int → GroupsSingle → Except Fault GroupsSingle}
    (hrec : ∀ c d' u u', edges u.listBatch = edges l0 → recurse c d' u = .ok u' →
      DepthFrame l0 c d' u u')
    {p : UUID} {d : Int} (js : List Nat) {t t' : GroupsSingle}
    (he : edges t.listBatch = edges l0)
    (h : js.foldlM (depthStep recurse p d) t = .ok t') : DepthFrame l0 p d t t' := by
  refine foldlM_ok_induction (depthStep recurse p d) (fun u => DepthFrame l0 p d t u) ?_ js t t'
    (DepthFrame.depth_refl _ _ _ _) h
  intro a i b ha hab
  have hea : edges a.listBatch = edges l0 := by rw [ha.edges_eq, he]
  exact ha.depth_trans (depthStep_frame hrec hea hab)

/-- A run of `setGroupDepth(p, d)` that returns has only given descendants of `p`
the depth of their level. -/
theorem setGroupDepth_frame (l0 : List Group) :
    ∀ (fuel : Nat) (p : UUID) (d : Int) (t t' : GroupsSingle),
      edges t.listBatch = edges l0 → setGroupDepth fuel p d t = .ok t' →
      DepthFrame l0 p d t t' := by
  intro fuel
  induction fuel with
  | zero => intro p d t t' _ h; cases h
  | succ fuel ih =>
    intro p d t t' he h
    rw [setGroupDepth_succ] at h
    exact depthFold_frame (fun c d' u u' => ih c d' u u') _ he h

theorem DepthFrame.getElem?_back {l0 : List Group} {p : UUID} {d : Int} {t t' : GroupsSingle}
    (h : DepthFrame l0 p d t t') {i : Nat} {g' : Group} (hg' : t'.listBatch[i]? = some g') :
    ∃ g, t.listBatch[i]? = some g ∧ g.Id = g'.Id ∧ g.ParentId = g'.ParentId ∧
      (g' = g ∨ ∃ k, DescAt l0 (k + 1) g.Id p ∧ g'.DepthLevel = depthAt d k) := by
  obtain ⟨-, -, hl, hp⟩ := h
  cases hi : t.listBatch[i]? with
  | none =>
    have : t'.listBatch[i]? = none := by
      rw [List.getElem?_eq_none_iff] at hi ⊢
      omega
    rw [this] at hg'; cases hg'
  | some g =>
    refine ⟨g, rfl, ?_⟩
    rcases hp i g hi with h | ⟨k, hk, h⟩
    · rw [h] at hg'; cases hg'
      exact ⟨rfl, rfl, Or.inl rfl⟩
    · rw [h] at hg'; cases hg'
      exact ⟨rfl, rfl, Or.inr ⟨k, hk, rfl⟩⟩

theorem DepthFrame.getElem?_fwd {l0 : List Group} {p : UUID} {d : Int} {t t' : GroupsSingle}
    (h : DepthFrame l0 p d t t') {i : Nat} {g : Group} (hg : t.listBatch[i]? = some g) :
    ∃ g', t'.listBatch[i]? = some g' ∧ g'.Id = g.Id ∧ g'.ParentId = g.ParentId := by
  rcases h.2.2.2 i g hg with h | ⟨k, -, h⟩
  · exact ⟨g, h, rfl, rfl⟩
  · exact ⟨_, h, rfl, rfl⟩

theorem nodup_ids_of_edges {l l0 : List Group} (he : edges l = edges l0)
    (hnd : (ids l0).Nodup) : (ids l).Nodup := by
  rw [ids_eq_of_edges he]; exact hnd

/-! ## `setGroupDepth`: when it returns -/

theorem length_eq_of_edges {l l0 : List Group} (he : edges l = edges l0) :
    l.length = l0.length := by
  have : (edges l).length = (edges l0).length := by rw [he]
  simpa [edges] using this

theorem path_length_le {l0 : List Group} {path : List UUID} (hnd : path.Nodup)
    (hsub : ∀ a ∈ path, a ∈ ids l0) : path.length ≤ l0.length := by
  have h1 : path.length ≤ (ids l0).length := (List.subperm_of_subset hnd hsub).length_le
  simpa [ids] using h1

theorem depthStep_returns {l0 : List Group}
    {recurse : UUID → Int → GroupsSingle → Except Fault GroupsSingle}
    {p : UUID} {d : Int} {t : GroupsSingle} {j : Nat}
    (hrec : ∀ c ∈ l0, c.ParentId = p → ∀ d' u, edges u.listBatch = edges l0 → u.mu = false →
      ∃ u', recurse c.Id d' u = .ok u')
    (he : edges t.listBatch = edges l0) (hmu : t.mu = false) (hj : j < t.listBatch.length) :
    ∃ t', depthStep recurse p d t j = .ok t' := by
  unfold depthStep
  obtain ⟨g, hg⟩ : ∃ g, t.listBatch[j]? = some g := ⟨t.listBatch[j], by simp [hj]⟩
  rw [hg]
  simp only
  by_cases hp : g.ParentId = p
  · simp only [hp, if_true]
    have hc1 : DescAt l0 1 g.Id p := by rw [← hp]; exact mem_edges_of_getElem? he hg
    obtain ⟨c, hc, hcid, hcp⟩ := DescAt_one.1 hc1
    by_cases hd : g.DepthLevel ≠ d
    · simp only [hd, if_true, ne_eq, not_false_eq_true]
      obtain ⟨u, hw⟩ := writeDepth_free t j g d hmu
      rw [hw]
      have f1 := writeDepth_frame l0 hg hc1 hw
      have := hrec c hc hcp (add32 d 1) u (by rw [f1.edges_eq, he]) (by rw [f1.1, hmu])
      rw [hcid] at this
      exact this
    · simp only [hd, if_false]
      have := hrec c hc hcp (add32 d 1) t he hmu
      rw [hcid] at this
      exact this
  · simp only [hp, if_false]
    exact ⟨t, rfl⟩

theorem depthFold_returns {l0 : List Group}
    {recurse : UUID → Int → GroupsSingle → Except Fault GroupsSingle}
    {p : UUID} {d : Int}
    (hrecF : ∀ c d' u u', edges u.listBatch = edges l0 → recurse c d' u = .ok u' →
      DepthFrame l0 c d' u u')
    (hrec : ∀ c ∈ l0, c.ParentId = p → ∀ d' u, edges u.listBatch = edges l0 → u.mu = false →
      ∃ u', recurse c.Id d' u = .ok u') :
    ∀ (js : List Nat) (t : GroupsSingle), edges t.listBatch = edges l0 → t.mu = false →
      (∀ j ∈ js, j < l0.length) → ∃ t', js.foldlM (depthStep recurse p d) t = .ok t' := by
  intro js
  induction js with
  | nil => intro t _ _ _; exact ⟨t, rfl⟩
  | cons j js ih =>
    intro t he hmu hjs
    rw [List.foldlM_cons]
    have hj : j < t.listBatch.length := by
      rw [length_eq_of_edges he]; exact hjs j (by simp)
    obtain ⟨t1, h1⟩ := depthStep_returns (d := d) hrec he hmu hj
    rw [h1]
    have hF1 := depthStep_frame hrecF he h1
    exact ih t1 (by rw [hF1.edges_eq, he]) (by rw [hF1.1, hmu])
      (fun j' hj' => hjs j' (List.mem_cons_of_mem _ hj'))

/-- With no cycle and a free mutex, `setGroupDepth` returns as soon as the fuel
exceeds the number of groups not yet on the path from the root of the run. -/
theorem setGroupDepth_returns_path (l0 : List Group) (hac : Acyclic l0) :
    ∀ (fuel : Nat) (p : UUID) (d : Int) (t : GroupsSingle) (path : List UUID),
      edges t.listBatch = edges l0 → t.mu = false → path.Nodup →
      (∀ a ∈ path, a ∈ ids l0) → (∀ a ∈ path, ∃ k, DescAt l0 k p a) →
      l0.length < fuel + path.length → ∃ t', setGroupDepth fuel p d t = .ok t' := by
  intro fuel
  induction fuel with
  | zero =>
    intro p d t path _ _ hnd hsub _ hlen
    have := path_length_le hnd hsub
    omega
  | succ fuel ih =>
    intro p d t path he hmu hnd hsub hanc hlen
    rw [setGroupDepth_succ]
    refine depthFold_returns (setGroupDepth_frame l0 fuel) ?_ _ t he hmu ?_
    · intro c hc hcp d' u heu hmuu
      have hc1 : DescAt l0 1 c.Id p := DescAt_one.2 ⟨c, hc, rfl, hcp⟩
      refine ih c.Id d' u (c.Id :: path) heu hmuu ?_ ?_ ?_ ?_
      · refine List.nodup_cons.2 ⟨?_, hnd⟩
        intro hmem
        obtain ⟨k, hk⟩ := hanc _ hmem
        have := DescAt_add hc1 hk
        rw [Nat.add_comm] at this
        exact hac _ _ this
      · intro a ha
        rcases List.mem_cons.1 ha with rfl | ha
        · exact List.mem_map.2 ⟨c, hc, rfl⟩
        · exact hsub a ha
      · intro a ha
        rcases List.mem_cons.1 ha with rfl | ha
        · exact ⟨0, rfl⟩
        · obtain ⟨k, hk⟩ := hanc a ha
          exact ⟨1 + k, DescAt_add hc1 hk⟩
      · simp only [List.length_cons]; omega
    · intro j hj
      rw [← length_eq_of_edges he]
      exact List.mem_range.1 hj

/-- With no cycle and a free mutex, a recursion depth of one more than the number
of groups is enough for `setGroupDepth` to return. -/
theorem setGroupDepth_returns (l0 : List Group) (hac : Acyclic l0) (fuel : Nat) (p : UUID)
    (d : Int) (t : GroupsSingle) (he : edges t.listBatch = edges l0) (hmu : t.mu = false)
    (hfuel : l0.length < fuel) : ∃ t', setGroupDepth fuel p d t = .ok t' :=
  setGroupDepth_returns_path l0 hac fuel p d t [] he hmu List.nodup_nil
    (fun _ h => by cases h) (fun _ h => by cases h) (by simpa using hfuel)

theorem foldlM_ok_mem {σ ι : Type} (F : σ → ι → Except Fault σ) (P : σ → Prop)
    (hstep : ∀ a i b, P a → F a i = .ok b → P b) :
    ∀ (js : List ι) (a b : σ), P a → js.foldlM F a = .ok b →
      ∀ j ∈ js, ∃ a' b', P a' ∧ F a' j = .ok b' := by
  intro js
  induction js with
  | nil => intro a b _ _ j hj; cases hj
  | cons j0 js ih =>
    intro a b ha h j hj
    rw [List.foldlM_cons] at h
    cases h1 : F a j0 with
    | error e => rw [h1] at h; cases h
    | ok a1 =>
      rw [h1] at h
      rcases List.mem_cons.1 hj with rfl | hj
      · exact ⟨a, a1, ha, h1⟩
      · exact ih a1 b (hstep a j0 a1 ha h1) h j hj

/-- A run of `setGroupDepth(p, d)` that returns has run, and seen return, the
recursive call on every child of `p`. -/
theorem setGroupDepth_child_returns (l0 : List Group) {fuel : Nat} {p : UUID} {d : Int}
    {t t' : GroupsSingle} (he : edges t.listBatch = edges l0)
    (h : setGroupDepth (fuel + 1) p d t = .ok t') {c0 : Group} (hc0 : c0 ∈ l0)
    (hc0p : c0.ParentId = p) :
    ∃ u u', edges u.listBatch = edges l0 ∧
      setGroupDepth fuel c0.Id (add32 d 1) u = .ok u' := by
  rw [setGroupDepth_succ] at h
  have hmem : (c0.Id, p) ∈ edges t.listBatch := by
    rw [he, mem_edges]; exact ⟨c0, hc0, rfl, hc0p⟩
  obtain ⟨c, hc, hcid, hcp⟩ := mem_edges.1 hmem
  obtain ⟨j, hj⟩ := List.mem_iff_getElem?.1 hc
  have hjlt : j < t.listBatch.length := by
    rcases List.getElem?_eq_some.1 hj with ⟨h, -⟩; exact h
  obtain ⟨a, b, ⟨hFa⟩, hab⟩ := foldlM_ok_mem (depthStep (setGroupDepth fuel) p d)
    (fun u => Nonempty (DepthFrame l0 p d t u))
    (fun a i b ha hab => by
      obtain ⟨ha⟩ := ha
      have hea : edges a.listBatch = edges l0 := by rw [ha.edges_eq, he]
      exact ⟨ha.depth_trans (depthStep_frame (setGroupDepth_frame l0 fuel) hea hab)⟩)
    _ t t' ⟨DepthFrame.depth_refl _ _ _ _⟩ h j (List.mem_range.2 hjlt)
  have hea : edges a.listBatch = edges l0 := by rw [hFa.edges_eq, he]
  obtain ⟨ca, hca, hcaid, hcap⟩ := hFa.getElem?_fwd hj
  unfold depthStep at hab
  rw [hca] at hab
  simp only [hcap, hcp, if_true] at hab
  have hca1 : DescAt l0 1 ca.Id p := by
    rw [hcaid, hcid]; exact DescAt_one.2 ⟨c0, hc0, rfl, hc0p⟩
  rw [hcaid, hcid] at hab
  by_cases hd : ca.DepthLevel ≠ d
  · simp only [hd, if_true, ne_eq, not_false_eq_true] at hab
    cases hw : writeDepth a j ca d with
    | error e => rw [hw] at hab; cases hab
    | ok u =>
      rw [hw] at hab
      have f1 := writeDepth_frame l0 hca hca1 hw
      exact ⟨u, b, by rw [f1.edges_eq, hea], hab⟩
  · simp only [hd, if_false] at hab
    exact ⟨a, b, hea, hab⟩

/-- On a cycle the recursion of `setGroupDepth` never returns, whatever the fuel. -/
theorem setGroupDepth_cycle (l0 : List Group) :
    ∀ (fuel : Nat) (p : UUID) (d : Int) (t t' : GroupsSingle),
      edges t.listBatch = edges l0 → (∃ k, DescAt l0 (k + 1) p p) →
      setGroupDepth fuel p d t ≠ .ok t' := by
  intro fuel
  induction fuel with
  | zero => intro p d t t' _ _ h; cases h
  | succ fuel ih =>
    intro p d t t' he hcyc h
    obtain ⟨k, hk⟩ := hcyc
    obtain ⟨c0, hc0, hc0p, hk0⟩ := DescAt_last hk
    have hc1 : DescAt l0 1 c0.Id p := DescAt_one.2 ⟨c0, hc0, rfl, hc0p⟩
    have hcyc' : DescAt l0 (k + 1) c0.Id c0.Id := by
      have := DescAt_add hc1 hk0
      rw [Nat.add_comm] at this
      exact this
    obtain ⟨u, u', heu, hu⟩ := setGroupDepth_child_returns l0 he h hc0 hc0p
    exact ih c0.Id _ u u' heu ⟨k, hcyc'⟩ hu

/-- A run of `setGroupDepth(p, d)` that returns shows that no id at or below `p`
lies on a cycle. -/
theorem setGroupDepth_acyclicBelow (l0 : List Group) :
    ∀ (m fuel : Nat) (p : UUID) (d : Int) (t t' : GroupsSingle),
      edges t.listBatch = edges l0 → setGroupDepth fuel p d t = .ok t' →
      ∀ x, DescAt l0 m x p → ∀ k, ¬ DescAt l0 (k + 1) x x := by
  intro m
  induction m with
  | zero =>
    intro fuel p d t t' he h x hx k hk
    simp only [DescAt] at hx
    subst hx
    exact setGroupDepth_cycle l0 fuel x d t t' he ⟨k, hk⟩ h
  | succ m ih =>
    intro fuel p d t t' he h x hx k hk
    cases fuel with
    | zero => cases h
    | succ fuel =>
      obtain ⟨c0, hc0, hc0p, hx0⟩ := DescAt_last hx
      obtain ⟨u, u', heu, hu⟩ := setGroupDepth_child_returns l0 he h hc0 hc0p
      exact ih fuel c0.Id _ u u' heu hu x hx0 k hk

theorem Acyclic.below {l : List Group} (h : Acyclic l) (p : UUID) : AcyclicBelow l p :=
  fun _ x _ k => h x k

theorem AcyclicBelow.child {l : List Group} {p c : UUID} (h : AcyclicBelow l p)
    (hc : DescAt l 1 c p) : AcyclicBelow l c := by
  intro m x hx k
  have := DescAt_add hx hc
  exact h _ x this k

/-- With distinct ids and no cycle through `p`, the distance of an id to `p` is unique. -/
theorem DescAt_distance_unique_below {l : List Group} (hnd : (ids l).Nodup) {p : UUID}
    (hac : AcyclicBelow l p) {a b : Nat} {x : UUID} (h1 : DescAt l a x p)
    (h2 : DescAt l b x p) : a = b := by
  have aux : ∀ a b : Nat, a < b → DescAt l a x p → DescAt l b x p → False := by
    intro a b hab h1 h2
    obtain ⟨m, rfl⟩ : ∃ m, b = a + (m + 1) := ⟨b - a - 1, by omega⟩
    obtain ⟨y, hy1, hy2⟩ := DescAt_split h2
    have : y = p := DescAt_functional hnd hy1 h1
    subst this
    exact hac 0 y rfl m hy2
  rcases Nat.lt_trichotomy a b with h | h | h
  · exact (aux a b h h1 h2).elim
  · exact h
  · exact (aux b a h h2 h1).elim
/-! ## `setGroupDepth`: what it does change -/

/-- What the recursive call has to deliver for the loop to be complete. -/
theorem depthStep_complete {l0 : List Group} (hnd : (ids l0).Nodup)
    {recurse : UUID → Int → GroupsSingle → Except Fault GroupsSingle}
    (hrecF : ∀ c d' u u', edges u.listBatch = edges l0 → recurse c d' u = .ok u' →
      DepthFrame l0 c d' u u')
    (hrecC : ∀ c d' u u', edges u.listBatch = edges l0 → recurse c d' u = .ok u' →
      ∀ (i : Nat) (g' : Group) (k : Nat), u'.listBatch[i]? = some g' →
        DescAt l0 (k + 1) g'.Id c → g'.DepthLevel = depthAt d' k)
    {p : UUID} {d : Int} (hac : AcyclicBelow l0 p) {t t' : GroupsSingle} {j : Nat} {c : Group}
    (he : edges t.listBatch = edges l0) (h : depthStep recurse p d t j = .ok t')
    (hc : t.listBatch[j]? = some c) (hcp : c.ParentId = p) :
    ∀ (i : Nat) (g' : Group) (k : Nat), t'.listBatch[i]? = some g' →
      DescAt l0 k g'.Id c.Id → g'.DepthLevel = depthAt d k := by
  have hc1 : DescAt l0 1 c.Id p := by rw [← hcp]; exact mem_edges_of_getElem? he hc
  -- the state `u` in which the recursive call starts holds depth `d` at index `j`
  have hu : ∃ u, edges u.listBatch = edges l0 ∧ recurse c.Id (add32 d 1) u = .ok t' ∧
      ∃ cu, u.listBatch[j]? = some cu ∧ cu.Id = c.Id ∧ cu.DepthLevel = d := by
    unfold depthStep at h
    rw [hc] at h
    simp only [hcp, if_true] at h
    by_cases hd : c.DepthLevel ≠ d
    · simp only [hd, if_true, ne_eq, not_false_eq_true] at h
      cases hw : writeDepth t j c d with
      | error e => rw [hw] at h; cases h
      | ok u =>
        rw [hw] at h
        have f1 := writeDepth_frame l0 hc hc1 hw
        refine ⟨u, by rw [f1.edges_eq, he], h, { c with DepthLevel := d }, ?_, rfl, rfl⟩
        rw [(writeDepth_eq_ok hw).2.2.2.1]
        have hlt : j < t.listBatch.length := by
          rcases List.getElem?_eq_some.1 hc with ⟨h, -⟩; exact h
        simp [List.getElem?_set, hlt]
    · simp only [hd, if_false] at h
      exact ⟨t, he, h, c, hc, rfl, by simpa using hd⟩
  obtain ⟨u, heu, hrun, cu, hcu, hcuid, hcud⟩ := hu
  have hF := hrecF _ _ _ _ heu hrun
  have het' : edges t'.listBatch = edges l0 := by rw [hF.edges_eq, heu]
  have hnd' : (ids t'.listBatch).Nodup := nodup_ids_of_edges het' hnd
  intro i g' k hg' hk
  cases k with
  | zero =>
    simp only [DescAt] at hk
    -- `g'` is the entry at index `j`, which the recursive call cannot have touched
    rcases hF.2.2.2 j cu hcu with hj | ⟨k', hk', -⟩
    · have : g' = cu := eq_of_mem_of_id_eq hnd' (List.getElem?_mem hg')
        (List.getElem?_mem hj) (by rw [hk, hcuid])
      rw [this, hcud]; rfl
    · rw [hcuid] at hk'
      exact absurd hk' (hac 1 c.Id hc1 _)
  | succ k =>
    rw [hrecC _ _ _ _ heu hrun i g' k hg' hk, depthAt_succ_left]

theorem depthFold_complete {l0 : List Group} (hnd : (ids l0).Nodup)
    {recurse : UUID → Int → GroupsSingle → Except Fault GroupsSingle}
    (hrecF : ∀ c d' u u', edges u.listBatch = edges l0 → recurse c d' u = .ok u' →
      DepthFrame l0 c d' u u')
    (hrecC : ∀ c d' u u', edges u.listBatch = edges l0 → recurse c d' u = .ok u' →
      ∀ (i : Nat) (g' : Group) (k : Nat), u'.listBatch[i]? = some g' →
        DescAt l0 (k + 1) g'.Id c → g'.DepthLevel = depthAt d' k)
    {p : UUID} {d : Int} (hac : AcyclicBelow l0 p) :
    ∀ (js : List Nat) (t t' : GroupsSingle), edges t.listBatch = edges l0 →
      js.foldlM (depthStep recurse p d) t = .ok t' →
      ∀ j ∈ js, ∀ c : Group, t.listBatch[j]? = some c → c.ParentId = p →
      ∀ (i : Nat) (g' : Group) (k : Nat), t'.listBatch[i]? = some g' →
        DescAt l0 k g'.Id c.Id → g'.DepthLevel = depthAt d k := by
  intro js
  induction js with
  | nil => intro t t' _ _ j hj; cases hj
  | cons j0 js ih =>
    intro t t' he h j hj c hc hcp i g' k hg' hk
    rw [List.foldlM_cons] at h
    cases h1 : depthStep recurse p d t j0 with
    | error e => rw [h1] at h; cases h
    | ok t1 =>
      rw [h1] at h
      have hF1 := depthStep_frame hrecF he h1
      have he1 : edges t1.listBatch = edges l0 := by rw [hF1.edges_eq, he]
      have hF2 := depthFold_frame hrecF js he1 h
      by_cases hmem : j ∈ js
      · obtain ⟨c1, hc1, hc1id, hc1p⟩ := hF1.getElem?_fwd hc
        have := ih t1 t' he1 h j hmem c1 hc1 (by rw [hc1p, hcp]) i g' k hg'
          (by rw [hc1id]; exact hk)
        exact this
      · have hjj : j = j0 := by
          rcases List.mem_cons.1 hj with h | h
          · exact h
          · exact absurd h hmem
        subst hjj
        obtain ⟨g1, hg1, hg1id, -, hcase⟩ := hF2.getElem?_back hg'
        rcases hcase with heq | ⟨k', hk', hdep⟩
        · rw [heq]
          exact depthStep_complete hnd hrecF hrecC hac he h1 hc hcp i g1 k hg1
            (by rw [hg1id]; exact hk)
        · have hc1 : DescAt l0 1 c.Id p := by rw [← hcp]; exact mem_edges_of_getElem? he hc
          have hk2 : DescAt l0 (k + 1) g1.Id p := by
            rw [hg1id]; exact DescAt_add hk hc1
          have : k' + 1 = k + 1 := DescAt_distance_unique_below hnd hac hk' hk2
          have hkk : k' = k := by omega
          rw [hdep, hkk]

/-- A run of `setGroupDepth(p, d)` that returns leaves every group `k + 1` links
below `p` at depth `depthAt d k`, when ids are distinct. -/
theorem setGroupDepth_complete (l0 : List Group) (hnd : (ids l0).Nodup) :
    ∀ (fuel : Nat) (p : UUID) (d : Int) (t t' : GroupsSingle),
      edges t.listBatch = edges l0 → setGroupDepth fuel p d t = .ok t' →
      ∀ (i : Nat) (g' : Group) (k : Nat), t'.listBatch[i]? = some g' →
        DescAt l0 (k + 1) g'.Id p → g'.DepthLevel = depthAt d k := by
  intro fuel
  induction fuel with
  | zero => intro p d t t' _ h; cases h
  | succ fuel ih =>
    intro p d t t' he h i g' k hg' hk
    have hac : AcyclicBelow l0 p := fun m x hx k =>
      setGroupDepth_acyclicBelow l0 m (fuel + 1) p d t t' he h x hx k
    rw [setGroupDepth_succ] at h
    obtain ⟨c0, hc0, hc0p, hk0⟩ := DescAt_last hk
    have hmem : (c0.Id, p) ∈ edges t.listBatch := by
      rw [he, mem_edges]; exact ⟨c0, hc0, rfl, hc0p⟩
    obtain ⟨c, hc, hcid, hcp⟩ := mem_edges.1 hmem
    obtain ⟨j, hj⟩ := List.mem_iff_getElem?.1 hc
    have hjlt : j < t.listBatch.length := by
      rcases List.getElem?_eq_some.1 hj with ⟨h, -⟩; exact h
    exact depthFold_complete hnd (setGroupDepth_frame l0 fuel) (ih) hac _ t t' he h j
      (List.mem_range.2 hjlt) c hj hcp i g' k hg' (by rw [hcid]; exact hk0)
theorem GetBatchElementById_of_mem (s : GroupsSingle) (hnd : (ids s.listBatch).Nodup)
    {g : Group} (hg : g ∈ s.listBatch) : GetBatchElementById s g.Id = g := by
  obtain ⟨l, c, m, d⟩ := s
  simp only at hnd hg
  induction l with
  | nil => cases hg
  | cons a t ih =>
    rw [GetBatchElementById_cons]
    by_cases h : a.Id = g.Id
    · simp only [h, if_true]
      exact eq_of_mem_of_id_eq hnd (by simp) hg h
    · simp only [h, if_false]
      rcases List.mem_cons.1 hg with rfl | hg
      · exact absurd rfl h
      · exact ih (by simp [ids] at hnd ⊢; exact hnd.2) hg

theorem GetBatchElementById_mem (s : GroupsSingle) {id : UUID} (h : id ∈ ids s.listBatch) :
    GetBatchElementById s id ∈ s.listBatch ∧ (GetBatchElementById s id).Id = id := by
  obtain ⟨l, c, m, d⟩ := s
  simp only at h
  induction l with
  | nil => simp [ids] at h
  | cons a t ih =>
    rw [GetBatchElementById_cons]
    by_cases ha : a.Id = id
    · simp [ha]
    · simp only [ha, if_false]
      have : id ∈ ids t := by
        simp only [ids, List.map_cons, List.mem_cons] at h
        rcases h with h | h
        · exact absurd h.symm ha
        · exact h
      exact ⟨List.mem_cons_of_mem _ (ih this).1, (ih this).2⟩

/-- An entry that is not strictly below `p` survives a run of `setGroupDepth(p, d)`. -/
theorem DepthFrame.mem_of_not_desc {l0 : List Group} {p : UUID} {d : Int}
    {t t' : GroupsSingle} (h : DepthFrame l0 p d t t') {g : Group} (hg : g ∈ t.listBatch)
    (hn : ∀ k, ¬ DescAt l0 (k + 1) g.Id p) : g ∈ t'.listBatch := by
  obtain ⟨i, hi⟩ := List.mem_iff_getElem?.1 hg
  rcases h.2.2.2 i g hi with h' | ⟨k, hk, -⟩
  · exact List.getElem?_mem h'
  · exact absurd hk (hn k)

theorem DepthFrame.mem_back {l0 : List Group} {p : UUID} {d : Int}
    {t t' : GroupsSingle} (h : DepthFrame l0 p d t t') {g' : Group} (hg' : g' ∈ t'.listBatch) :
    ∃ g ∈ t.listBatch, g.Id = g'.Id ∧ g.ParentId = g'.ParentId ∧
      (g' = g ∨ ∃ k, DescAt l0 (k + 1) g.Id p ∧ g'.DepthLevel = depthAt d k) := by
  obtain ⟨i, hi⟩ := List.mem_iff_getElem?.1 hg'
  obtain ⟨g, hg, h1, h2, h3⟩ := h.getElem?_back hi
  exact ⟨g, List.getElem?_mem hg, h1, h2, h3⟩
/-! ## `getTreeBottomElements`: every strict descendant is enumerated -/

theorem compileTreeBottomElements_succ (fuel : Nat) (s : GroupsSingle)
    (acc : List TreeBottomElement) (id : UUID) :
    compileTreeBottomElements (fuel + 1) s acc id =
      if id = uuidNil then .ok acc
      else if (GetBatchElementsByParentId s id).length = 0 then .ok acc
      else (GetBatchElementsByParentId s id).foldlM
        (bottomStep (compileTreeBottomElements fuel s)) acc := rfl

theorem mem_GetBatchElementsByParentId {s : GroupsSingle} {id : UUID} {g : Group} :
    g ∈ GetBatchElementsByParentId s id ↔ g ∈ s.listBatch ∧ g.ParentId = id := by
  simp [GetBatchElementsByParentId]

theorem bottomFold_complete {l : List Group} (hnn : NoNilId l)
    {recurse : List TreeBottomElement → UUID → Except Fault (List TreeBottomElement)}
    (hrec : ∀ acc id acc', id ≠ uuidNil → recurse acc id = .ok acc' →
      (∀ e ∈ acc, e ∈ acc') ∧
        ∀ x k, DescAt l (k + 1) x id → (⟨x⟩ : TreeBottomElement) ∈ acc') :
    ∀ (gs : List Group) (acc acc' : List TreeBottomElement), (∀ g ∈ gs, g ∈ l) →
      gs.foldlM (bottomStep recurse) acc = .ok acc' →
      (∀ e ∈ acc, e ∈ acc') ∧
        ∀ c ∈ gs, ∀ x k, DescAt l k x c.Id → (⟨x⟩ : TreeBottomElement) ∈ acc' := by
  intro gs
  induction gs with
  | nil =>
    intro acc acc' _ h
    simp only [List.foldlM_nil, pure, Except.pure] at h
    cases h
    exact ⟨fun _ h => h, fun c hc => by cases hc⟩
  | cons g gs ih =>
    intro acc acc' hsub h
    rw [List.foldlM_cons] at h
    cases h1 : bottomStep recurse acc g with
    | error e => rw [h1] at h; cases h
    | ok acc1 =>
      rw [h1] at h
      obtain ⟨hmono2, hrest⟩ := ih acc1 acc' (fun x hx => hsub x (List.mem_cons_of_mem _ hx)) h
      obtain ⟨hmono1, hsubtree⟩ := hrec _ _ _ (hnn g (hsub g (by simp))) h1
      refine ⟨fun e he => hmono2 e (hmono1 e (by simp [he])), ?_⟩
      intro c hc x k hk
      rcases List.mem_cons.1 hc with rfl | hc
      · cases k with
        | zero =>
          simp only [DescAt] at hk
          subst hk
          exact hmono2 _ (hmono1 _ (by simp))
        | succ k => exact hmono2 _ (hsubtree x k hk)
      · exact hrest c hc x k hk

theorem compileTreeBottomElements_complete (s : GroupsSingle) (hnn : NoNilId s.listBatch) :
    ∀ (fuel : Nat) (acc : List TreeBottomElement) (id : UUID) (acc' : List TreeBottomElement),
      id ≠ uuidNil → compileTreeBottomElements fuel s acc id = .ok acc' →
      (∀ e ∈ acc, e ∈ acc') ∧
        ∀ x k, DescAt s.listBatch (k + 1) x id → (⟨x⟩ : TreeBottomElement) ∈ acc' := by
  intro fuel
  induction fuel with
  | zero => intro acc id acc' _ h; cases h
  | succ fuel ih =>
    intro acc id acc' hid h
    rw [compileTreeBottomElements_succ] at h
    simp only [hid, if_false] at h
    by_cases hlen : (GetBatchElementsByParentId s id).length = 0
    · simp only [hlen, if_true] at h
      cases h
      refine ⟨fun _ h => h, ?_⟩
      intro x k hk
      obtain ⟨c, hc, hcp, -⟩ := DescAt_last hk
      have : c ∈ GetBatchElementsByParentId s id := mem_GetBatchElementsByParentId.2 ⟨hc, hcp⟩
      rw [List.length_eq_zero] at hlen
      rw [hlen] at this
      cases this
    · simp only [hlen, if_false] at h
      obtain ⟨hmono, hall⟩ := bottomFold_complete hnn (ih) _ acc acc'
        (fun g hg => (mem_GetBatchElementsByParentId.1 hg).1) h
      refine ⟨hmono, ?_⟩
      intro x k hk
      obtain ⟨c, hc, hcp, hkc⟩ := DescAt_last hk
      exact hall c (mem_GetBatchElementsByParentId.2 ⟨hc, hcp⟩) x k hkc

/-- When no group has the id `uuid.Nil`, a returning `getTreeBottomElements(id)`
holds the id of every group one or more parent links below `id`. -/
theorem getTreeBottomElements_complete (s : GroupsSingle) (hnn : NoNilId s.listBatch)
    (fuel : Nat) (id : UUID) (tb : List TreeBottomElement)
    (h : getTreeBottomElements fuel s id = .ok tb) :
    ∀ x k, DescAt s.listBatch (k + 1) x id → (⟨x⟩ : TreeBottomElement) ∈ tb := by
  unfold getTreeBottomElements at h
  simp only at h
  intro x k hk
  obtain ⟨c, hc, hcp, hkc⟩ := DescAt_last hk
  have hcm : c ∈ GetBatchElementsByParentId s id := mem_GetBatchElementsByParentId.2 ⟨hc, hcp⟩
  by_cases hlen : (GetBatchElementsByParentId s id).length = 0
  · rw [List.length_eq_zero] at hlen
    rw [hlen] at hcm
    cases hcm
  · simp only [hlen, if_false] at h
    exact (bottomFold_complete hnn (compileTreeBottomElements_complete s hnn fuel) _ [] tb
      (fun g hg => (mem_GetBatchElementsByParentId.1 hg).1) h).2 c hcm x k hkc
theorem bottomFold_returns {l : List Group}
    {recurse : List TreeBottomElement → UUID → Except Fault (List TreeBottomElement)}
    (hrec : ∀ g ∈ l, ∀ acc, ∃ acc', recurse acc g.Id = .ok acc') :
    ∀ (gs : List Group) (acc : List TreeBottomElement), (∀ g ∈ gs, g ∈ l) →
      ∃ acc', gs.foldlM (bottomStep recurse) acc = .ok acc' := by
  intro gs
  induction gs with
  | nil => intro acc _; exact ⟨acc, rfl⟩
  | cons g gs ih =>
    intro acc hsub
    rw [List.foldlM_cons]
    obtain ⟨acc1, h1⟩ := hrec g (hsub g (by simp)) (acc ++ [{ Id := g.Id }])
    have : bottomStep recurse acc g = .ok acc1 := h1
    rw [this]
    exact ih acc1 (fun x hx => hsub x (List.mem_cons_of_mem _ hx))

theorem compileTreeBottomElements_returns_path (s : GroupsSingle) (hac : Acyclic s.listBatch) :
    ∀ (fuel : Nat) (acc : List TreeBottomElement) (id : UUID) (path : List UUID),
      path.Nodup → (∀ a ∈ path, a ∈ ids s.listBatch) →
      (∀ a ∈ path, ∃ k, DescAt s.listBatch k id a) →
      s.listBatch.length < fuel + path.length →
      ∃ acc', compileTreeBottomElements fuel s acc id = .ok acc' := by
  intro fuel
  induction fuel with
  | zero =>
    intro acc id path hnd hsub _ hlen
    have := path_length_le hnd hsub
    omega
  | succ fuel ih =>
    intro acc id path hnd hsub hanc hlen
    rw [compileTreeBottomElements_succ]
    by_cases hid : id = uuidNil
    · exact ⟨acc, by simp [hid]⟩
    · simp only [hid, if_false]
      by_cases hl : (GetBatchElementsByParentId s id).length = 0
      · exact ⟨acc, by simp [hl]⟩
      · simp only [hl, if_false]
        have hrec : ∀ g ∈ GetBatchElementsByParentId s id, ∀ acc,
            ∃ acc', compileTreeBottomElements fuel s acc g.Id = .ok acc' := by
          intro g hg acc
          obtain ⟨hgl, hgp⟩ := mem_GetBatchElementsByParentId.1 hg
          have hc1 : DescAt s.listBatch 1 g.Id id := DescAt_one.2 ⟨g, hgl, rfl, hgp⟩
          refine ih acc g.Id (g.Id :: path) ?_ ?_ ?_ ?_
          · refine List.nodup_cons.2 ⟨?_, hnd⟩
            intro hmem
            obtain ⟨k, hk⟩ := hanc _ hmem
            have := DescAt_add hc1 hk
            rw [Nat.add_comm] at this
            exact hac _ _ this
          · intro a ha
            rcases List.mem_cons.1 ha with rfl | ha
            · exact List.mem_map.2 ⟨g, hgl, rfl⟩
            · exact hsub a ha
          · intro a ha
            rcases List.mem_cons.1 ha with rfl | ha
            · exact ⟨0, rfl⟩
            · obtain ⟨k, hk⟩ := hanc a ha
              exact ⟨1 + k, DescAt_add hc1 hk⟩
          · simp only [List.length_cons]; omega
        exact bottomFold_returns hrec _ acc (fun g hg => hg)

/-- With no cycle, a recursion depth of the number of groups is enough for
`getTreeBottomElements` to return. -/
theorem getTreeBottomElements_returns (s : GroupsSingle) (hac : Acyclic s.listBatch)
    (fuel : Nat) (hfuel : s.listBatch.length ≤ fuel) (id : UUID) :
    ∃ tb, getTreeBottomElements fuel s id = .ok tb := by
  unfold getTreeBottomElements
  simp only
  by_cases hl : (GetBatchElementsByParentId s id).length = 0
  · exact ⟨[], by simp [hl]⟩
  · simp only [hl, if_false]
    refine bottomFold_returns (l := GetBatchElementsByParentId s id) ?_ _ []
      (fun g hg => hg)
    intro g hg acc
    obtain ⟨hgl, -⟩ := mem_GetBatchElementsByParentId.1 hg
    refine compileTreeBottomElements_returns_path s hac fuel acc g.Id [g.Id] (by simp) ?_ ?_ ?_
    · intro a ha
      rw [List.mem_singleton] at ha
      rw [ha]
      exact List.mem_map.2 ⟨g, hgl, rfl⟩
    · intro a ha
      rw [List.mem_singleton] at ha
      exact ⟨0, ha.symm⟩
    · simp only [List.length_singleton]; omega

/-- With no cycle and enough recursion depth, `CheckParentId` returns. -/
theorem CheckParentId_returns (fuel : Nat) (s : GroupsSingle) (id t : UUID) (r : Bool)
    (hac : Acyclic s.listBatch) (hfuel : s.listBatch.length ≤ fuel) :
    ∃ msg, CheckParentId fuel s id t r = .ok msg := by
  obtain ⟨hrej, hacc⟩ := CheckParentId_eval fuel s id t r
  by_cases h3 : (r = true → NotMainTarget s.listBatch t) ∧ id ≠ t ∧ ActiveTarget s.listBatch t
  · obtain ⟨tb, htb⟩ := getTreeBottomElements_returns s hac fuel hfuel id
    by_cases hfree : ∀ e ∈ tb, e.Id ≠ t
    · exact ⟨"", (hacc h3).2.1 tb htb hfree⟩
    · obtain ⟨msg, hmsg, -⟩ := (hacc h3).2.2 tb htb hfree
      exact ⟨msg, hmsg⟩
  · obtain ⟨msg, hmsg, -⟩ := hrej h3
    exact ⟨msg, hmsg⟩
/-! ## Reparenting -/

theorem mem_upsert_iff {l : List Group} (hnd : (ids l).Nodup) (g x : Group) :
    x ∈ upsert l g ↔ x = g ∨ (x ∈ l ∧ x.Id ≠ g.Id) := by
  induction l with
  | nil => simp [upsert_nil]
  | cons a t ih =>
    have hnd' : (ids t).Nodup := by simp [ids] at hnd ⊢; exact hnd.2
    have hat : ∀ y ∈ t, y.Id ≠ a.Id := by
      intro y hy h
      simp only [ids, List.map_cons, List.nodup_cons, List.mem_map] at hnd
      exact hnd.1 ⟨y, hy, h⟩
    rw [upsert_cons]
    by_cases h : a.Id = g.Id
    · simp only [h, if_true, List.mem_cons]
      constructor
      · rintro (hx | hx)
        · exact Or.inl hx
        · exact Or.inr ⟨Or.inr hx, by rw [← h]; exact hat x hx⟩
      · rintro (hx | ⟨hx | hx, hne⟩)
        · exact Or.inl hx
        · rw [hx, h] at hne; exact absurd rfl hne
        · exact Or.inr hx
    · simp only [h, if_false, List.mem_cons, ih hnd']
      constructor
      · rintro (hx | hx | ⟨hx, hne⟩)
        · exact Or.inr ⟨Or.inl hx, by rw [hx]; exact h⟩
        · exact Or.inl hx
        · exact Or.inr ⟨Or.inr hx, hne⟩
      · rintro (hx | ⟨hx | hx, hne⟩)
        · exact Or.inr (Or.inl hx)
        · exact Or.inl hx
        · exact Or.inr (Or.inr ⟨hx, hne⟩)

theorem ids_upsert (l : List Group) (g : Group) :
    ids (upsert l g) = if g.Id ∈ ids l then ids l else ids l ++ [g.Id] := by
  induction l with
  | nil => simp [upsert_nil, ids]
  | cons a t ih =>
    rw [upsert_cons]
    by_cases h : a.Id = g.Id
    · simp [h, ids]
    · have h' : ¬ g.Id = a.Id := fun e => h e.symm
      simp only [h, if_false, ids, List.map_cons, List.mem_cons, h', false_or] at ih ⊢
      rw [ih]
      split <;> simp

theorem nodup_ids_upsert {l : List Group} (hnd : (ids l).Nodup) (g : Group) :
    (ids (upsert l g)).Nodup := by
  rw [ids_upsert]
  split
  · exact hnd
  · rename_i h
    rw [List.nodup_append]
    refine ⟨hnd, by simp, ?_⟩
    intro a ha hb
    simp only [List.mem_singleton] at hb
    subst hb
    exact h ha

theorem length_upsert_of_mem {l : List Group} {g : Group} (h : g.Id ∈ ids l) :
    (upsert l g).length = l.length := by
  have := congrArg List.length (ids_upsert l g)
  rw [if_pos h] at this
  simpa [ids] using this

/-- Replacing the entry of `n` by one with parent `t` creates no cycle when `t`
is neither `n` nor below `n`. -/
theorem reparent_acyclic {l l1 : List Group} (hac : Acyclic l) {n n1 : Group} {t : UUID}
    (hmem : ∀ x, x ∈ l1 ↔ x = n1 ∨ (x ∈ l ∧ x.Id ≠ n.Id))
    (hid : n1.Id = n.Id) (hpar : n1.ParentId = t) (hne : t ≠ n.Id)
    (hnd : ∀ k, ¬ DescAt l (k + 1) t n.Id) : Acyclic l1 := by
  -- a path to `n` in the new list ends with a path to `n` in the old one
  have firstHit : ∀ k x, DescAt l1 k x n.Id → ∃ k', k' ≤ k ∧ DescAt l k' x n.Id := by
    intro k
    induction k with
    | zero => intro x h; exact ⟨0, le_refl _, h⟩
    | succ k ih =>
      rintro x ⟨g, hg, hgx, hd⟩
      by_cases hx : x = n.Id
      · exact ⟨0, Nat.zero_le _, hx⟩
      · rcases (hmem g).1 hg with rfl | ⟨hgl, -⟩
        · rw [hid] at hgx; exact absurd hgx.symm hx
        · obtain ⟨k', hk', hd'⟩ := ih _ hd
          exact ⟨k' + 1, by omega, g, hgl, hgx, hd'⟩
  -- a path in the new list is a path of the old one or runs through `n`
  have split : ∀ k x y, DescAt l1 k x y →
      DescAt l k x y ∨ ∃ a b, a + b = k ∧ DescAt l1 a x n.Id ∧ DescAt l1 b n.Id y := by
    intro k
    induction k with
    | zero => intro x y h; exact Or.inl h
    | succ k ih =>
      rintro x y ⟨g, hg, hgx, hd⟩
      rcases (hmem g).1 hg with rfl | ⟨hgl, hgn⟩
      · refine Or.inr ⟨0, k + 1, by omega, ?_, ?_⟩
        · simp only [DescAt]; rw [← hgx, hid]
        · rw [← hid, hgx]; exact ⟨g, hg, hgx, hd⟩
      · rcases ih _ _ hd with h | ⟨a, b, hab, ha, hb⟩
        · exact Or.inl ⟨g, hgl, hgx, h⟩
        · exact Or.inr ⟨a + 1, b, by omega, ⟨g, hg, hgx, ha⟩, hb⟩
  -- no cycle through `n`
  have atN : ∀ k, ¬ DescAt l1 (k + 1) n.Id n.Id := by
    rintro k ⟨g, hg, hgx, hd⟩
    rcases (hmem g).1 hg with rfl | ⟨-, hgn⟩
    · rw [hpar] at hd
      obtain ⟨k', -, hd'⟩ := firstHit _ _ hd
      cases k' with
      | zero => exact hne hd'
      | succ k' => exact hnd k' hd'
    · exact hgn hgx
  intro x k hcyc
  rcases split _ _ _ hcyc with h | ⟨a, b, hab, ha, hb⟩
  · exact hac x k h
  · have := DescAt_add hb ha
    rw [Nat.add_comm, hab] at this
    exact atN k this
/-- What an accepting `CheckParentId(id, t, false)` establishes when no group has
the id `uuid.Nil`: `t` is not `id`, is the id of an active group and is not below
`id`. -/
theorem CheckParentId_accept_sound (fuel : Nat) (s : GroupsSingle) (id t : UUID)
    (hnn : NoNilId s.listBatch) (h : CheckParentId fuel s id t false = .ok "") :
    id ≠ t ∧ ActiveTarget s.listBatch t ∧ ∀ k, ¬ DescAt s.listBatch (k + 1) t id := by
  obtain ⟨-, hne, hact, tb, htb, hfree⟩ := (CheckParentId_spec fuel s id t false).1.1 h
  refine ⟨hne, hact, ?_⟩
  intro k hk
  exact hfree _ (getTreeBottomElements_complete s hnn fuel id tb htb t k hk) rfl

/-- The list after a validated reparent of `n` under `t` has distinct ids and no cycle. -/
theorem upsert_reparent_acyclic {l : List Group} (hnd : (ids l).Nodup) (hac : Acyclic l)
    {n n1 : Group} {t : UUID} (hid : n1.Id = n.Id) (hpar : n1.ParentId = t)
    (hne : n.Id ≠ t) (hdesc : ∀ k, ¬ DescAt l (k + 1) t n.Id) :
    Acyclic (upsert l n1) := by
  refine reparent_acyclic hac (n := n) (fun x => ?_) hid hpar (fun e => hne e.symm) hdesc
  rw [mem_upsert_iff hnd, hid]
/-! ## The pending queue under `setGroupDepth` -/

theorem mergeDepth_nil (g1 : Group) (d : Int) : mergeDepth [] g1 d = [g1] := by
  simp [mergeDepth, IndexFunc]

theorem mergeDepth_cons (a : Group) (t : List Group) (g1 : Group) (d : Int) :
    mergeDepth (a :: t) g1 d =
      if a.Id = g1.Id then { a with DepthLevel := d } :: t else a :: mergeDepth t g1 d := by
  by_cases h : a.Id = g1.Id
  · simp [mergeDepth, IndexFunc, h]
  · simp only [mergeDepth, IndexFunc, h, if_false, beq_iff_eq]
    cases IndexFunc t (fun c => c.Id == g1.Id) <;> simp

theorem ids_mergeDepth (cb : List Group) (g1 : Group) (d : Int) :
    ids (mergeDepth cb g1 d) = if g1.Id ∈ ids cb then ids cb else ids cb ++ [g1.Id] := by
  induction cb with
  | nil => simp [mergeDepth_nil, ids]
  | cons a t ih =>
    rw [mergeDepth_cons]
    by_cases h : a.Id = g1.Id
    · simp [h, ids]
    · have h' : ¬ g1.Id = a.Id := fun e => h e.symm
      simp only [h, if_false, ids, List.map_cons, List.mem_cons, h', false_or] at ih ⊢
      rw [ih]
      split <;> simp

theorem nodup_ids_mergeDepth {cb : List Group} (hnd : (ids cb).Nodup) (g1 : Group) (d : Int) :
    (ids (mergeDepth cb g1 d)).Nodup := by
  rw [ids_mergeDepth]
  split
  · exact hnd
  · rename_i h
    rw [List.nodup_append]
    refine ⟨hnd, by simp, ?_⟩
    intro a ha hb
    simp only [List.mem_singleton] at hb
    subst hb
    exact h ha

theorem id_mem_ids_mergeDepth (cb : List Group) (g1 : Group) (d : Int) :
    g1.Id ∈ ids (mergeDepth cb g1 d) := by
  rw [ids_mergeDepth]
  split
  · assumption
  · simp

theorem ids_subset_mergeDepth (cb : List Group) (g1 : Group) (d : Int) :
    ∀ x ∈ ids cb, x ∈ ids (mergeDepth cb g1 d) := by
  intro x hx
  rw [ids_mergeDepth]
  split
  · exact hx
  · exact List.mem_append_left _ hx

theorem mem_mergeDepth {cb : List Group} (hnd : (ids cb).Nodup) (g1 : Group) (d : Int)
    {x : Group} (hx : x ∈ mergeDepth cb g1 d) :
    (x ∈ cb ∧ x.Id ≠ g1.Id) ∨ (∃ c ∈ cb, c.Id = g1.Id ∧ x = { c with DepthLevel := d }) ∨
      x = g1 := by
  induction cb with
  | nil =>
    rw [mergeDepth_nil] at hx
    exact Or.inr (Or.inr (by simpa using hx))
  | cons a t ih =>
    have hnd' : (ids t).Nodup := by simp [ids] at hnd ⊢; exact hnd.2
    have hat : ∀ y ∈ t, y.Id ≠ a.Id := by
      intro y hy h
      simp only [ids, List.map_cons, List.nodup_cons, List.mem_map] at hnd
      exact hnd.1 ⟨y, hy, h⟩
    rw [mergeDepth_cons] at hx
    by_cases h : a.Id = g1.Id
    · rw [if_pos h, List.mem_cons] at hx
      rcases hx with hx | hx
      · exact Or.inr (Or.inl ⟨a, by simp, h, hx⟩)
      · exact Or.inl ⟨List.mem_cons_of_mem _ hx, by rw [← h]; exact hat x hx⟩
    · rw [if_neg h, List.mem_cons] at hx
      rcases hx with hx | hx
      · exact Or.inl ⟨by simp [hx], by rw [hx]; exact h⟩
      · rcases ih hnd' hx with ⟨h1, h2⟩ | ⟨c, hc, h1, h2⟩ | h1
        · exact Or.inl ⟨List.mem_cons_of_mem _ h1, h2⟩
        · exact Or.inr (Or.inl ⟨c, List.mem_cons_of_mem _ hc, h1, h2⟩)
        · exact Or.inr (Or.inr h1)

theorem set_getElem?_self {α : Type} {l : List α} {i : Nat} {a : α} (h : l[i]? = some a) :
    l.set i a = l := by
  apply List.ext_getElem?
  intro j
  by_cases hij : i = j
  · subst hij
    have hlt : i < l.length := by
      rcases List.getElem?_eq_some.1 h with ⟨h, -⟩; exact h
    rw [List.getElem?_set_self hlt, h]
  · rw [List.getElem?_set_ne hij]

theorem QueueFrame.queue_refl (t : GroupsSingle) : QueueFrame t t :=
  ⟨rfl, fun _ h => h, fun _ _ h => Or.inl h, fun h => h, fun _ h => h⟩

theorem QueueFrame.queue_trans {t t1 t2 : GroupsSingle} (h1 : QueueFrame t t1)
    (h2 : QueueFrame t1 t2) : QueueFrame t t2 := by
  obtain ⟨a1, b1, c1, d1, e1⟩ := h1
  obtain ⟨a2, b2, c2, d2, e2⟩ := h2
  refine ⟨a2.trans a1, fun x hx => b2 x (b1 x hx), ?_, fun h => d2 (d1 h),
    fun h hc => e2 (d1 h) (e1 h hc)⟩
  intro i g hg
  rcases c1 i g hg with h | h
  · exact c2 i g h
  · exact Or.inr (b2 _ h)

theorem writeDepth_queue {s s' : GroupsSingle} {idx : Nat} {g : Group} {d : Int}
    (hg : s.listBatch[idx]? = some g) (h : writeDepth s idx g d = .ok s') :
    QueueFrame s s' := by
  obtain ⟨-, -, -, hl, hcb⟩ := writeDepth_eq_ok h
  have hlt : idx < s.listBatch.length := by
    rcases List.getElem?_eq_some.1 hg with ⟨h, -⟩; exact h
  have hids : ids s'.listBatch = ids s.listBatch := by
    rw [hl]
    simp only [ids, List.map_set]
    exact set_getElem?_self (by simp [hg])
  have hone : OneVersionPerId s → OneVersionPerId s' := by
    rintro ⟨h1, h2⟩
    exact ⟨by rw [hcb]; exact nodup_ids_mergeDepth h1 _ _, by rw [hids]; exact h2⟩
  refine ⟨hids, ?_, ?_, hone, ?_⟩
  · intro x hx
    rw [hcb]; exact ids_subset_mergeDepth _ _ _ x hx
  · intro i x hx
    by_cases hi : idx = i
    · subst hi
      rw [hg] at hx
      cases hx
      right
      rw [hcb]
      exact id_mem_ids_mergeDepth s.createBatch { g with DepthLevel := d } d
    · left
      rw [hl, List.getElem?_set_ne hi]
      exact hx
  · rintro ⟨hq, hlst⟩ hcoh c hc
    have hself : ({ g with DepthLevel := d } : Group) ∈ s'.listBatch := by
      rw [hl]
      exact List.getElem?_mem (List.getElem?_set_self hlt)
    have hkeep : ∀ y ∈ s.listBatch, y.Id ≠ g.Id → y ∈ s'.listBatch := by
      intro y hy hne
      obtain ⟨i, hi⟩ := List.mem_iff_getElem?.1 hy
      have : idx ≠ i := by
        intro e
        subst e
        rw [hg] at hi
        cases hi
        exact hne rfl
      rw [hl]
      exact List.getElem?_mem (by rw [List.getElem?_set_ne this]; exact hi)
    rw [hcb] at hc
    rcases mem_mergeDepth hq _ _ hc with ⟨h1, h2⟩ | ⟨c0, hc0, h1, h2⟩ | h1
    · exact hkeep c (hcoh c h1) h2
    · have : c0 = g := eq_of_mem_of_id_eq hlst (hcoh c0 hc0) (List.getElem?_mem hg) h1
      rw [h2, this]
      exact hself
    · rw [h1]; exact hself

theorem depthStep_queue
    {recurse : UUID → Int → GroupsSingle → Except Fault GroupsSingle}
    (hrec : ∀ c d' u u', recurse c d' u = .ok u' → QueueFrame u u')
    {p : UUID} {d : Int} {t t' : GroupsSingle} {j : Nat}
    (h : depthStep recurse p d t j = .ok t') : QueueFrame t t' := by
  unfold depthStep at h
  cases hg : t.listBatch[j]? with
  | none => rw [hg] at h; cases h
  | some g =>
    rw [hg] at h
    simp only at h
    by_cases hp : g.ParentId = p
    · simp only [hp, if_true] at h
      by_cases hd : g.DepthLevel ≠ d
      · simp only [hd, if_true, ne_eq, not_false_eq_true] at h
        cases hw : writeDepth t j g d with
        | error e => rw [hw] at h; cases h
        | ok u =>
          rw [hw] at h
          exact (writeDepth_queue hg hw).queue_trans (hrec _ _ _ _ h)
      · simp only [hd, if_false] at h
        exact hrec _ _ _ _ h
    · simp only [hp, if_false, pure, Except.pure] at h
      cases h
      exact QueueFrame.queue_refl _

/-- A run of `setGroupDepth` that returns keeps the pending queue in step with the list. -/
theorem setGroupDepth_queue :
    ∀ (fuel : Nat) (p : UUID) (d : Int) (t t' : GroupsSingle),
      setGroupDepth fuel p d t = .ok t' → QueueFrame t t' := by
  intro fuel
  induction fuel with
  | zero => intro p d t t' h; cases h
  | succ fuel ih =>
    intro p d t t' h
    rw [setGroupDepth_succ] at h
    exact foldlM_ok_induction (depthStep (setGroupDepth fuel) p d) (fun u => QueueFrame t u)
      (fun a i b ha hab => ha.queue_trans (depthStep_queue (fun c d' u u' => ih c d' u u') hab))
      _ t t' (QueueFrame.queue_refl _) h

theorem RecalcGroupsDepth_queue {fuel : Nat} {r : UUID} {s s' : GroupsSingle}
    (h : RecalcGroupsDepth fuel r s = .ok s') : QueueFrame s s' :=
  setGroupDepth_queue fuel _ _ s s' h
/-! ## The ids `setGroupDepth` adds to the pending queue -/

theorem QueueFresh.fresh_refl (l0 : List Group) (p : UUID) (d : Int) (t : GroupsSingle) :
    QueueFresh l0 p d t t := fun _ h => Or.inl h

theorem QueueFresh.fresh_trans {l0 : List Group} (hnd : (ids l0).Nodup) {p : UUID} {d : Int}
    (hac : AcyclicBelow l0 p) {t t1 t2 : GroupsSingle} (hF : DepthFrame l0 p d t t1)
    (h1 : QueueFresh l0 p d t t1) (h2 : QueueFresh l0 p d t1 t2) :
    QueueFresh l0 p d t t2 := by
  intro x hx
  rcases h2 x hx with h | ⟨i, g1, k, hg1, hg1x, hk, hne⟩
  · exact h1 x h
  · obtain ⟨g, hg, hgid, -, hcase⟩ := hF.getElem?_back hg1
    rcases hcase with heq | ⟨k', hk', hdep⟩
    · exact Or.inr ⟨i, g, k, hg, by rw [hgid, hg1x], hk, by rw [← heq]; exact hne⟩
    · exfalso
      rw [hgid, hg1x] at hk'
      have : k' + 1 = k + 1 := DescAt_distance_unique_below hnd hac hk' hk
      have hkk : k' = k := by omega
      rw [hkk] at hdep
      exact hne hdep

theorem QueueFresh.fresh_lift {l0 : List Group} {p c : UUID} {d : Int} {t t' : GroupsSingle}
    (hc : DescAt l0 1 c p) (h : QueueFresh l0 c (add32 d 1) t t') : QueueFresh l0 p d t t' := by
  intro x hx
  rcases h x hx with h | ⟨i, g, k, hg, hgx, hk, hne⟩
  · exact Or.inl h
  · exact Or.inr ⟨i, g, k + 1, hg, hgx, DescAt_add hk hc, by rw [← depthAt_succ_left]; exact hne⟩

theorem writeDepth_fresh (l0 : List Group) {p : UUID} {s s' : GroupsSingle} {idx : Nat}
    {g : Group} {d : Int} (hg : s.listBatch[idx]? = some g) (hc : DescAt l0 1 g.Id p)
    (hne : g.DepthLevel ≠ d) (h : writeDepth s idx g d = .ok s') : QueueFresh l0 p d s s' := by
  obtain ⟨-, -, -, -, hcb⟩ := writeDepth_eq_ok h
  intro x hx
  rw [hcb, ids_mergeDepth] at hx
  split at hx
  · exact Or.inl hx
  · rcases List.mem_append.1 hx with hx | hx
    · exact Or.inl hx
    · rw [List.mem_singleton] at hx
      exact Or.inr ⟨idx, g, 0, hg, hx.symm, by rw [hx]; exact hc, hne⟩

theorem depthStep_fresh {l0 : List Group} (hnd : (ids l0).Nodup)
    {recurse : UUID → Int → GroupsSingle → Except Fault GroupsSingle}
    (hrecQ : ∀ c d' u u', edges u.listBatch = edges l0 → recurse c d' u = .ok u' →
      QueueFresh l0 c d' u u')
    {p : UUID} {d : Int} (hac : AcyclicBelow l0 p) {t t' : GroupsSingle} {j : Nat}
    (he : edges t.listBatch = edges l0) (h : depthStep recurse p d t j = .ok t') :
    QueueFresh l0 p d t t' := by
  unfold depthStep at h
  cases hg : t.listBatch[j]? with
  | none => rw [hg] at h; cases h
  | some g =>
    rw [hg] at h
    simp only at h
    by_cases hp : g.ParentId = p
    · simp only [hp, if_true] at h
      have hc : DescAt l0 1 g.Id p := by
        rw [← hp]; exact mem_edges_of_getElem? he hg
      by_cases hd : g.DepthLevel ≠ d
      · simp only [hd, if_true, ne_eq, not_false_eq_true] at h
        cases hw : writeDepth t j g d with
        | error e => rw [hw] at h; cases h
        | ok u =>
          rw [hw] at h
          have f1 := writeDepth_frame l0 hg hc hw
          have he' : edges u.listBatch = edges l0 := by rw [f1.edges_eq, he]
          exact QueueFresh.fresh_trans hnd hac f1 (writeDepth_fresh l0 hg hc hd hw)
            (QueueFresh.fresh_lift hc (hrecQ _ _ _ _ he' h))
      · simp only [hd, if_false] at h
        exact QueueFresh.fresh_lift hc (hrecQ _ _ _ _ he h)
    · simp only [hp, if_false, pure, Except.pure] at h
      cases h
      exact QueueFresh.fresh_refl _ _ _ _

/-- A run of `setGroupDepth(p, d)` that returns has added to the queue only ids of
entries below `p` whose depth was not that of their level. -/
theorem setGroupDepth_fresh (l0 : List Group) (hnd : (ids l0).Nodup) :
    ∀ (fuel : Nat) (p : UUID) (d : Int) (t t' : GroupsSingle),
      edges t.listBatch = edges l0 → setGroupDepth fuel p d t = .ok t' →
      QueueFresh l0 p d t t' := by
  intro fuel
  induction fuel with
  | zero => intro p d t t' _ h; cases h
  | succ fuel ih =>
    intro p d t t' he h
    have hac : AcyclicBelow l0 p := fun m x hx k =>
      setGroupDepth_acyclicBelow l0 m (fuel + 1) p d t t' he h x hx k
    rw [setGroupDepth_succ] at h
    have := foldlM_ok_induction (depthStep (setGroupDepth fuel) p d)
      (fun u => DepthFrame l0 p d t u ∧ QueueFresh l0 p d t u)
      (fun a i b ha hab => by
        have hea : edges a.listBatch = edges l0 := by rw [ha.1.edges_eq, he]
        exact ⟨ha.1.depth_trans (depthStep_frame (setGroupDepth_frame l0 fuel) hea hab),
          QueueFresh.fresh_trans hnd hac ha.1 ha.2
            (depthStep_fresh hnd ih hac hea hab)⟩)
      _ t t' ⟨DepthFrame.depth_refl _ _ _ _, QueueFresh.fresh_refl _ _ _ _⟩ h
    exact this.2

/-- An id that a returning run of `setGroupDepth` has added to the queue is the id
of an entry of the list that the run has changed. -/
theorem setGroupDepth_new_changed {fuel : Nat} {p : UUID} {d : Int} {t t' : GroupsSingle}
    (hnd : (ids t.listBatch).Nodup) (h : setGroupDepth fuel p d t = .ok t') :
    ∀ x ∈ ids t'.createBatch,
      x ∈ ids t.createBatch ∨ GetBatchElementById t' x ≠ GetBatchElementById t x := by
  intro x hx
  rcases setGroupDepth_fresh t.listBatch hnd fuel p d t t' rfl h x hx with h1 |
    ⟨i, g, k, hg, hgx, hk, hne⟩
  · exact Or.inl h1
  · right
    have hF := setGroupDepth_frame t.listBatch fuel p d t t' rfl h
    have hC := setGroupDepth_complete t.listBatch hnd fuel p d t t' rfl h
    obtain ⟨g', hg', hg'id, -⟩ := hF.getElem?_fwd hg
    have hnd' : (ids t'.listBatch).Nodup := nodup_ids_of_edges hF.edges_eq hnd
    have h1 : GetBatchElementById t x = g := by
      rw [← hgx]; exact GetBatchElementById_of_mem t hnd (List.getElem?_mem hg)
    have h2 : GetBatchElementById t' x = g' := by
      rw [← hgx, ← hg'id]; exact GetBatchElementById_of_mem t' hnd' (List.getElem?_mem hg')
    rw [h1, h2]
    intro heq
    have := hC i g' k hg' (by rw [hg'id, hgx]; exact hk)
    rw [heq] at this
    exact hne this
/-! ## Runs of `UpdateBatch` and `RecalcGroupsDepth` -/

theorem GetBatchElementById_congr (s s' : GroupsSingle) (h : s.listBatch = s'.listBatch)
    (x : UUID) : GetBatchElementById s x = GetBatchElementById s' x := by
  simp only [GetBatchElementById, h]

theorem GetBatchElementById_upsert_ne (l c : List Group) (m : Bool) (d : List DbCall)
    (g : Group) {x : UUID} (hx : x ≠ g.Id) :
    GetBatchElementById ⟨upsert l g, c, m, d⟩ x = GetBatchElementById ⟨l, c, m, d⟩ x := by
  have hgx : ¬ g.Id = x := fun e => hx e.symm
  induction l with
  | nil =>
    rw [upsert_nil, GetBatchElementById_cons, if_neg hgx]
  | cons a t ih =>
    rw [upsert_cons]
    by_cases h : a.Id = g.Id
    · have hax : ¬ a.Id = x := fun e => hx (by rw [← e, h])
      rw [if_pos h, GetBatchElementById_cons, GetBatchElementById_cons, if_neg hgx, if_neg hax]
    · rw [if_neg h, GetBatchElementById_cons, GetBatchElementById_cons, ih]

theorem UpdateBatch_eq_ok {g : Group} {s s1 : GroupsSingle} (h : UpdateBatch g s = .ok s1) :
    s.mu = false ∧ s1 = ⟨upsert s.listBatch g, upsert s.createBatch g, false, s.db⟩ := by
  cases hmu : s.mu with
  | true => simp [UpdateBatch, Lock, hmu, bind, Except.bind] at h
  | false =>
    rw [UpdateBatch_free g s hmu] at h
    exact ⟨rfl, (Except.ok.inj h).symm⟩

theorem id_mem_ids_upsert (l : List Group) (g : Group) : g.Id ∈ ids (upsert l g) := by
  rw [ids_upsert]
  split
  · assumption
  · simp

theorem ids_subset_upsert (l : List Group) (g : Group) :
    ∀ x ∈ ids l, x ∈ ids (upsert l g) := by
  intro x hx
  rw [ids_upsert]
  split
  · exact hx
  · exact List.mem_append_left _ hx

/-- What `UpdateBatch(g)` does to list and queue. -/
theorem UpdateBatch_queue {g : Group} {s s1 : GroupsSingle} (h : UpdateBatch g s = .ok s1) :
    (OneVersionPerId s → OneVersionPerId s1) ∧
      (OneVersionPerId s → Coherent s → Coherent s1) ∧
      (∀ x ∈ ids s.createBatch, x ∈ ids s1.createBatch) ∧
      g.Id ∈ ids s1.createBatch ∧
      (∀ x, x ≠ g.Id → GetBatchElementById s1 x = GetBatchElementById s x) ∧
      GetBatchElementById s1 g.Id = g := by
  obtain ⟨-, rfl⟩ := UpdateBatch_eq_ok h
  refine ⟨?_, ?_, ?_, ?_, ?_, ?_⟩
  · rintro ⟨h1, h2⟩
    exact ⟨nodup_ids_upsert h1 g, nodup_ids_upsert h2 g⟩
  · rintro ⟨h1, h2⟩ hcoh c hc
    simp only at hc ⊢
    rw [mem_upsert_iff h2]
    rcases (mem_upsert_iff h1 g c).1 hc with hc | ⟨hc, hne⟩
    · exact Or.inl hc
    · exact Or.inr ⟨hcoh c hc, hne⟩
  · exact ids_subset_upsert _ g
  · exact id_mem_ids_upsert _ g
  · intro x hx
    rw [GetBatchElementById_upsert_ne _ _ _ _ g hx]
    exact GetBatchElementById_congr _ _ rfl x
  · exact GetBatchElementById_upsert _ _ _ _ g

/-- An entry of the list that a run of `setGroupDepth` has changed has its id in the queue. -/
theorem QueueFrame.changed_enqueued {s s1 : GroupsSingle} (h : QueueFrame s s1)
    (hnd : (ids s.listBatch).Nodup) {x : UUID}
    (hx : GetBatchElementById s1 x ≠ GetBatchElementById s x) : x ∈ ids s1.createBatch := by
  obtain ⟨hids, -, hch, -, -⟩ := h
  by_cases hmem : x ∈ ids s.listBatch
  · obtain ⟨hg, hgid⟩ := GetBatchElementById_mem s hmem
    obtain ⟨i, hi⟩ := List.mem_iff_getElem?.1 hg
    rcases hch i _ hi with h1 | h1
    · exfalso
      apply hx
      have := GetBatchElementById_of_mem s1 (by rw [hids]; exact hnd) (List.getElem?_mem h1)
      rw [hgid] at this
      exact this
    · rw [hgid] at h1; exact h1
  · exfalso
    apply hx
    have h0 : ∀ g ∈ s.listBatch, g.Id ≠ x := fun g hg e => hmem (List.mem_map.2 ⟨g, hg, e⟩)
    have h1 : ∀ g ∈ s1.listBatch, g.Id ≠ x := fun g hg e =>
      hmem (by rw [← hids]; exact List.mem_map.2 ⟨g, hg, e⟩)
    rw [GetBatchElementById_absent s x h0, GetBatchElementById_absent s1 x h1]

theorem runCalls_append (fuel : Nat) (a b : List Call) (s : GroupsSingle) :
    runCalls fuel (a ++ b) s = runCalls fuel a s >>= runCalls fuel b := by
  induction a generalizing s with
  | nil => rfl
  | cons c a ih =>
    cases c with
    | update g =>
      simp only [List.cons_append, runCalls]
      cases UpdateBatch g s with
      | error e => rfl
      | ok s1 => simp only [ok_bind]; exact ih s1
    | recalc r =>
      simp only [List.cons_append, runCalls]
      cases RecalcGroupsDepth fuel r s with
      | error e => rfl
      | ok s1 => simp only [ok_bind]; exact ih s1

/-- The state of list and queue after a run of calls. -/
theorem runCalls_queue (fuel : Nat) :
    ∀ (calls : List Call) (s s' : GroupsSingle), runCalls fuel calls s = .ok s' →
      OneVersionPerId s →
      OneVersionPerId s' ∧ (Coherent s → Coherent s') ∧
        (∀ x ∈ ids s.createBatch, x ∈ ids s'.createBatch) ∧
        (∀ x, Touched fuel calls s x → x ∈ ids s'.createBatch) ∧
        (∀ x, ¬ Touched fuel calls s x →
          GetBatchElementById s' x = GetBatchElementById s x) := by
  intro calls
  induction calls with
  | nil =>
    intro s s' h hinv
    simp only [runCalls] at h
    cases h
    exact ⟨hinv, fun h => h, fun _ h => h, fun x hx => by simp [Touched] at hx, fun _ _ => rfl⟩
  | cons c cs ih =>
    intro s s' h hinv
    cases c with
    | update g =>
      simp only [runCalls] at h
      cases h1 : UpdateBatch g s with
      | error e => rw [h1] at h; cases h
      | ok s1 =>
        rw [h1, ok_bind] at h
        obtain ⟨u1, u2, u3, u4, u5, -⟩ := UpdateBatch_queue h1
        obtain ⟨r1, r2, r3, r4, r5⟩ := ih s1 s' h (u1 hinv)
        refine ⟨r1, fun hc => r2 (u2 hinv hc), fun x hx => r3 x (u3 x hx), ?_, ?_⟩
        · intro x hx
          simp only [Touched] at hx
          rcases hx with rfl | ⟨s1', hs1', hx⟩
          · exact r3 _ u4
          · rw [h1] at hs1'
            cases hs1'
            exact r4 x hx
        · intro x hx
          simp only [Touched, not_or, not_exists, not_and] at hx
          rw [r5 x (hx.2 s1 h1), u5 x hx.1]
    | recalc r =>
      simp only [runCalls] at h
      cases h1 : RecalcGroupsDepth fuel r s with
      | error e => rw [h1] at h; cases h
      | ok s1 =>
        rw [h1, ok_bind] at h
        have hq := RecalcGroupsDepth_queue h1
        obtain ⟨r1, r2, r3, r4, r5⟩ := ih s1 s' h (hq.2.2.2.1 hinv)
        refine ⟨r1, fun hc => r2 (hq.2.2.2.2 hinv hc), fun x hx => r3 x (hq.2.1 x hx), ?_, ?_⟩
        · intro x hx
          simp only [Touched] at hx
          obtain ⟨s1', hs1', hx⟩ := hx
          rw [h1] at hs1'
          cases hs1'
          rcases hx with hx | hx
          · exact r3 x (hq.changed_enqueued hinv.2 hx)
          · exact r4 x hx
        · intro x hx
          simp only [Touched, not_exists, not_and, not_or] at hx
          have := hx s1 h1
          rw [r5 x this.2]
          exact not_not.1 this.1

theorem mem_ids_upsert {l : List Group} {g : Group} {x : UUID} (h : x ∈ ids (upsert l g)) :
    x ∈ ids l ∨ x = g.Id := by
  rw [ids_upsert] at h
  split at h
  · exact Or.inl h
  · rcases List.mem_append.1 h with h | h
    · exact Or.inl h
    · exact Or.inr (List.mem_singleton.1 h)

/-- After a run of calls, an id of the queue was in the queue before or has been
touched by the run. -/
theorem runCalls_mem_touched (fuel : Nat) :
    ∀ (calls : List Call) (s s' : GroupsSingle), runCalls fuel calls s = .ok s' →
      OneVersionPerId s →
      ∀ x ∈ ids s'.createBatch, x ∈ ids s.createBatch ∨ Touched fuel calls s x := by
  intro calls
  induction calls with
  | nil =>
    intro s s' h _ x hx
    simp only [runCalls] at h
    cases h
    exact Or.inl hx
  | cons c cs ih =>
    intro s s' h hinv x hx
    cases c with
    | update g =>
      simp only [runCalls] at h
      cases h1 : UpdateBatch g s with
      | error e => rw [h1] at h; cases h
      | ok s1 =>
        rw [h1, ok_bind] at h
        rcases ih s1 s' h ((UpdateBatch_queue h1).1 hinv) x hx with hx1 | hx1
        · rw [(UpdateBatch_eq_ok h1).2] at hx1
          rcases mem_ids_upsert hx1 with h2 | h2
          · exact Or.inl h2
          · exact Or.inr (Or.inl h2)
        · exact Or.inr (Or.inr ⟨s1, h1, hx1⟩)
    | recalc r =>
      simp only [runCalls] at h
      cases h1 : RecalcGroupsDepth fuel r s with
      | error e => rw [h1] at h; cases h
      | ok s1 =>
        rw [h1, ok_bind] at h
        rcases ih s1 s' h ((RecalcGroupsDepth_queue h1).2.2.2.1 hinv) x hx with hx1 | hx1
        · rcases setGroupDepth_new_changed hinv.2 h1 x hx1 with h2 | h2
          · exact Or.inl h2
          · exact Or.inr ⟨s1, h1, Or.inl h2⟩
        · exact Or.inr ⟨s1, h1, Or.inr hx1⟩

/-! ## The pending queue under `DeleteById` and `ResetGroupsTable` -/

theorem DeleteById_createBatch {id : UUID} {dbDelete : Option GoError} {s s' : GroupsSingle}
    {r : Option GoError} (h : DeleteById id dbDelete s = .ok (r, s')) :
    s'.createBatch = s.createBatch := by
  unfold DeleteById at h
  cases hidx : IndexFunc s.listBatch (fun g => g.Id == id) with
  | none =>
    simp [hidx, pure, Except.pure] at h
    rw [← h.2]
  | some idx =>
    cases hmu : s.mu with
    | true => simp [hidx, Lock, hmu, bind, Except.bind] at h
    | false =>
      cases dbDelete with
      | some err =>
        simp [hidx, Lock, hmu, bind, Except.bind, pure, Except.pure] at h
        rw [← h.2]
      | none =>
        simp [hidx, Lock, Unlock, hmu, bind, Except.bind, pure, Except.pure] at h
        rw [← h.2]

theorem DeleteById_returns (id : UUID) (dbDelete : Option GoError) (s : GroupsSingle)
    (hmu : s.mu = false) : ∃ r s', DeleteById id dbDelete s = .ok (r, s') := by
  unfold DeleteById
  cases hidx : IndexFunc s.listBatch (fun g => g.Id == id) with
  | none => exact ⟨_, _, rfl⟩
  | some idx =>
    cases dbDelete with
    | some err =>
      exact ⟨some err, _, by simp [Lock, hmu, bind, Except.bind, pure, Except.pure]; rfl⟩
    | none =>
      exact ⟨none, _, by simp [Lock, Unlock, hmu, bind, Except.bind, pure, Except.pure]; rfl⟩

theorem ResetGroupsTable_createBatch {dbDelete : Option GoError} {s s' : GroupsSingle}
    {r : Option GoError} (h : ResetGroupsTable dbDelete s = .ok (r, s')) :
    s'.createBatch = s.createBatch := by
  unfold ResetGroupsTable at h
  cases hmu : s.mu with
  | true => simp [Lock, hmu, bind, Except.bind] at h
  | false =>
    cases dbDelete with
    | some err =>
      simp [Lock, hmu, bind, Except.bind, pure, Except.pure] at h
      rw [← h.2]
    | none =>
      simp only [Lock, hmu, bind, Except.bind, pure, Except.pure] at h
      cases hl : List.foldlM resetStep s.listBatch (List.range s.listBatch.length) with
      | error e => simp [hl, bind, Except.bind] at h
      | ok l =>
        simp [hl, Unlock, bind, Except.bind] at h
        rw [← h.2]

theorem ResetGroupsTable_error_returns (e : GoError) (s : GroupsSingle) (hmu : s.mu = false) :
    ResetGroupsTable (some e) s =
      .ok (some e, { s with mu := true, db := s.db ++ [DbCall.deleteNonMain] }) := by
  simp [ResetGroupsTable, Lock, hmu, bind, Except.bind, pure, Except.pure]

theorem mem_upsert_self (l : List Group) (g : Group) : g ∈ upsert l g := by
  induction l with
  | nil => simp [upsert_nil]
  | cons a t ih =>
    rw [upsert_cons]
    split
    · exact List.mem_cons_self _ _
    · exact List.mem_cons_of_mem _ ih


/-! ## The removal loop of `ResetGroupsTable` -/

theorem resetStep_error {l : List Group} {idx : Nat} {e : Fault}
    (h : resetStep l idx = .error e) : e = .indexOutOfRange := by
  unfold resetStep at h
  cases hg : l[idx]? with
  | none => simp [hg] at h; exact h.symm
  | some g => by_cases hm : g.Main = true <;> simp [hg, hm] at h

theorem resetStep_length {l l' : List Group} {idx : Nat} (h : resetStep l idx = .ok l') :
    l'.length ≤ l.length := by
  unfold resetStep at h
  cases hg : l[idx]? with
  | none => simp [hg] at h
  | some g =>
    by_cases hm : g.Main = true
    · simp [hg, hm] at h
      rw [← h]
    · simp [hg, hm] at h
      rw [← h]
      simp [removeAt]
      omega

theorem resetStep_main {l : List Group} {idx : Nat} {g : Group} (hg : l[idx]? = some g)
    (hm : g.Main = true) : resetStep l idx = .ok l := by
  simp [resetStep, hg, hm]

theorem resetStep_nonMain {l : List Group} {idx : Nat} {g : Group} (hg : l[idx]? = some g)
    (hm : g.Main = false) : resetStep l idx = .ok (removeAt l idx) := by
  simp [resetStep, hg, hm]

/-- Iterations over entries that are all main leave the list as it is. -/
theorem resetFold_prefix (l : List Group) (j : Nat) (hj : j ≤ l.length)
    (hmain : ∀ i g, i < j → l[i]? = some g → g.Main = true) :
    (List.range j).foldlM resetStep l = .ok l := by
  induction j with
  | zero => rfl
  | succ j ih =>
    rw [List.range_succ, List.foldlM_append, ih (by omega) (fun i g hi => hmain i g (by omega))]
    have hlt : j < l.length := by omega
    have hg : l[j]? = some l[j] := List.getElem?_eq_getElem hlt
    simp only [ok_bind, List.foldlM_cons, List.foldlM_nil]
    rw [resetStep_main hg (hmain j _ (by omega) hg)]
    rfl

/-- Once the list is shorter than an index still to come, the loop fails. -/
theorem resetFold_short (js : List Nat) (b : Nat) (m : List Group) (hm : m.length ≤ b) :
    (js ++ [b]).foldlM resetStep m = .error .indexOutOfRange := by
  induction js generalizing m with
  | nil =>
    have hnone : m[b]? = none := List.getElem?_eq_none (by omega)
    simp [resetStep, hnone, bind, Except.bind]
  | cons j js ih =>
    rw [List.cons_append, List.foldlM_cons]
    cases hs : resetStep m j with
    | error e =>
      rw [resetStep_error hs]
      rfl
    | ok m' =>
      rw [ok_bind]
      exact ih m' (le_trans (resetStep_length hs) hm)

/-- The loop fails as soon as one entry in front of the last index is not main. -/
theorem resetFold_fails (l : List Group) (i : Nat) (g : Group) (hi : i + 1 < l.length)
    (hg : l[i]? = some g) (hm : g.Main = false) :
    (List.range l.length).foldlM resetStep l = .error .indexOutOfRange := by
  classical
  have hex : ∃ i, i + 1 < l.length ∧ ∃ g, l[i]? = some g ∧ g.Main = false :=
    ⟨i, hi, g, hg, hm⟩
  obtain ⟨hi0, g0, hg0, hm0⟩ := Nat.find_spec hex
  have hmin : ∀ k c, k < Nat.find hex → l[k]? = some c → c.Main = true := by
    intro k c hk hc
    by_contra hcm
    exact Nat.find_min hex hk ⟨by omega, c, hc, by simpa using hcm⟩
  generalize Nat.find hex = i0 at hi0 hg0 hmin
  obtain ⟨d, hd⟩ : ∃ d, l.length = (i0 + 1) + (d + 1) := ⟨l.length - i0 - 2, by omega⟩
  rw [hd, List.range_add, List.foldlM_append, List.range_succ, List.foldlM_append,
    resetFold_prefix l i0 (by omega) hmin]
  simp only [ok_bind, List.foldlM_cons, List.foldlM_nil]
  rw [resetStep_nonMain hg0 hm0]
  simp only [ok_bind, pure, Except.pure]
  rw [List.range_succ, List.map_append, List.map_singleton]
  apply resetFold_short
  simp [removeAt]
  omega

/-- When every entry in front of the last index is main, the loop returns the
main entries. -/
theorem resetFold_ok (l : List Group)
    (hmain : ∀ i g, i + 1 < l.length → l[i]? = some g → g.Main = true) :
    (List.range l.length).foldlM resetStep l = .ok (l.filter (fun g => g.Main)) := by
  rcases List.eq_nil_or_concat l with rfl | ⟨init, last, rfl⟩
  · rfl
  · rw [List.concat_eq_append] at hmain ⊢
    have hinit : ∀ x ∈ init, x.Main = true := by
      intro x hx
      obtain ⟨i, hi, hix⟩ := List.getElem_of_mem hx
      refine hmain i x (by simp; omega) ?_
      rw [List.getElem?_append_left hi, List.getElem?_eq_getElem hi, hix]
    have hlen : (init ++ [last]).length = init.length + 1 := by simp
    rw [hlen, List.range_succ, List.foldlM_append,
      resetFold_prefix (init ++ [last]) init.length (by simp)
        (fun i g hi hg => hmain i g (by simp; omega) hg)]
    have hlast : (init ++ [last])[init.length]? = some last := by simp
    have hfi : init.filter (fun g => g.Main) = init := List.filter_eq_self.2 hinit
    simp only [ok_bind, List.foldlM_cons, List.foldlM_nil]
    cases hm : last.Main with
    | true =>
      rw [resetStep_main hlast hm]
      simp [List.filter_append, hfi, hm, pure, Except.pure, bind, Except.bind]
    | false =>
      rw [resetStep_nonMain hlast hm]
      simp [List.filter_append, hfi, hm, pure, Except.pure, removeAt, bind, Except.bind]

theorem ResetGroupsTable_fails (s : GroupsSingle) (hmu : s.mu = false) (i : Nat) (g : Group)
    (hi : i + 1 < s.listBatch.length) (hg : s.listBatch[i]? = some g) (hm : g.Main = false) :
    ResetGroupsTable none s = .error .indexOutOfRange := by
  simp only [ResetGroupsTable, Lock, hmu, bind, Except.bind, pure, Except.pure]
  have h := resetFold_fails s.listBatch i g hi hg hm
  simp only [Bool.false_eq_true, if_false]
  rw [h]

theorem ResetGroupsTable_ok (s : GroupsSingle) (hmu : s.mu = false)
    (hmain : ∀ i g, i + 1 < s.listBatch.length → s.listBatch[i]? = some g → g.Main = true) :
    ResetGroupsTable none s =
      .ok (none, ⟨s.listBatch.filter (fun g => g.Main), s.createBatch, false,
        s.db ++ [DbCall.deleteNonMain]⟩) := by
  simp only [ResetGroupsTable, Lock, hmu, bind, Except.bind, pure, Except.pure]
  have h := resetFold_ok s.listBatch hmain
  simp only [Bool.false_eq_true, if_false]
  rw [h]
  simp [Unlock]


/-! ## Sequences of `UpdateBatch` -/

theorem updateAll_free (gs : List Group) (s : GroupsSingle) (hmu : s.mu = false) :
    updateAll gs s =
      .ok ⟨gs.foldl upsert s.listBatch, gs.foldl upsert s.createBatch, false, s.db⟩ := by
  induction gs generalizing s with
  | nil =>
    cases s
    simp only at hmu
    subst hmu
    rfl
  | cons g gs ih =>
    rw [updateAll, UpdateBatch_free g s hmu, ok_bind, ih _ rfl]
    rfl

theorem nodup_ids_foldl_upsert (gs : List Group) {l : List Group} (hnd : (ids l).Nodup) :
    (ids (gs.foldl upsert l)).Nodup := by
  induction gs generalizing l with
  | nil => exact hnd
  | cons g gs ih => exact ih (nodup_ids_upsert hnd g)

theorem mem_ids_foldl_upsert (gs l : List Group) (x : UUID) :
    x ∈ ids (gs.foldl upsert l) ↔ x ∈ ids l ∨ x ∈ ids gs := by
  induction gs generalizing l with
  | nil => simp [ids]
  | cons g gs ih =>
    rw [List.foldl_cons, ih]
    constructor
    · rintro (h | h)
      · rcases mem_ids_upsert h with h | h
        · exact Or.inl h
        · exact Or.inr (by simp [ids, h])
      · exact Or.inr (by simp only [ids, List.map_cons, List.mem_cons]; exact Or.inr h)
    · rintro (h | h)
      · exact Or.inl (ids_subset_upsert l g x h)
      · simp only [ids, List.map_cons, List.mem_cons] at h
        rcases h with h | h
        · exact Or.inl (h ▸ id_mem_ids_upsert l g)
        · exact Or.inr h

theorem ids_foldl_upsert_prefix (gs l : List Group) :
    ∃ new, ids (gs.foldl upsert l) = ids l ++ new := by
  induction gs generalizing l with
  | nil => exact ⟨[], by simp⟩
  | cons g gs ih =>
    obtain ⟨new, hnew⟩ := ih (upsert l g)
    rw [List.foldl_cons, hnew, ids_upsert]
    split
    · exact ⟨new, rfl⟩
    · exact ⟨g.Id :: new, by simp⟩

theorem upsert_getElem?_ne {l : List Group} {i : Nat} {g c : Group} (h : l[i]? = some g)
    (hne : g.Id ≠ c.Id) : (upsert l c)[i]? = some g := by
  induction l generalizing i with
  | nil => simp at h
  | cons a t ih =>
    rw [upsert_cons]
    cases i with
    | zero =>
      simp at h
      subst h
      rw [if_neg hne]
      simp
    | succ i =>
      simp at h
      split
      · simpa using h
      · simpa using ih h

theorem foldl_upsert_getElem?_ne (gs : List Group) {l : List Group} {i : Nat} {g : Group}
    (h : l[i]? = some g) (hne : g.Id ∉ ids gs) : (gs.foldl upsert l)[i]? = some g := by
  induction gs generalizing l with
  | nil => exact h
  | cons c gs ih =>
    simp only [ids, List.map_cons, List.mem_cons, not_or] at hne
    exact ih (upsert_getElem?_ne h hne.1) hne.2

theorem GetBatchElementById_foldl_upsert_ne (post l c : List Group) (m : Bool)
    (d : List DbCall) (x : UUID) (hpost : ∀ y ∈ post, y.Id ≠ x) :
    GetBatchElementById ⟨post.foldl upsert l, c, m, d⟩ x = GetBatchElementById ⟨l, c, m, d⟩ x := by
  induction post generalizing l with
  | nil => rfl
  | cons y post ih =>
    rw [List.foldl_cons, ih _ (fun z hz => hpost z (List.mem_cons_of_mem _ hz))]
    exact GetBatchElementById_upsert_ne l c m d y (fun e => hpost y (List.mem_cons_self _ _) e.symm)

theorem exists_last_with_id (gs : List Group) (x : UUID) (hx : x ∈ ids gs) :
    ∃ pre gj post, gs = pre ++ gj :: post ∧ gj.Id = x ∧ ∀ y ∈ post, y.Id ≠ x := by
  induction gs with
  | nil => simp [ids] at hx
  | cons a t ih =>
    by_cases ht : x ∈ ids t
    · obtain ⟨pre, gj, post, hgs, hid, hpost⟩ := ih ht
      exact ⟨a :: pre, gj, post, by rw [hgs]; rfl, hid, hpost⟩
    · have ha : a.Id = x := by
        simp only [ids, List.map_cons, List.mem_cons] at hx
        rcases hx with h | h
        · exact h.symm
        · exact absurd h ht
      refine ⟨[], a, t, rfl, ha, ?_⟩
      intro y hy hyid
      exact ht (List.mem_map.2 ⟨y, hy, hyid⟩)

theorem length_foldl_upsert (gs : List Group) {l : List Group} (hnd : (ids l).Nodup) :
    (gs.foldl upsert l).length = (ids l ++ ids gs).dedup.length := by
  have h1 : (ids (gs.foldl upsert l)).Perm (ids l ++ ids gs).dedup := by
    rw [List.perm_ext_iff_of_nodup (nodup_ids_foldl_upsert gs hnd) (List.nodup_dedup _)]
    intro x
    rw [mem_ids_foldl_upsert, List.mem_dedup, List.mem_append]
  have h2 := h1.length_eq
  simpa [ids] using h2


/-! ## Termination: the child relation and the recursion depth -/

/-- With no cycle, every id is accessible for the relation "is a child of": the
ids on the way down from it are pairwise distinct ids of the list. -/
theorem child_acc_path (l : List Group) (hac : Acyclic l) :
    ∀ (n : Nat) (p : UUID) (path : List UUID), path.Nodup → (∀ a ∈ path, a ∈ ids l) →
      (∀ a ∈ path, ∃ k, DescAt l k p a) → l.length < n + path.length →
      Acc (fun c q => DescAt l 1 c q) p := by
  intro n
  induction n with
  | zero =>
    intro p path hnd hsub _ hlen
    have := path_length_le hnd hsub
    omega
  | succ n ih =>
    intro p path hnd hsub hanc hlen
    refine Acc.intro p ?_
    intro c hc1
    obtain ⟨g, hg, hgid, -⟩ := DescAt_one.1 hc1
    refine ih c (c :: path) ?_ ?_ ?_ ?_
    · refine List.nodup_cons.2 ⟨?_, hnd⟩
      intro hmem
      obtain ⟨k, hk⟩ := hanc _ hmem
      have := DescAt_add hc1 hk
      rw [Nat.add_comm] at this
      exact hac _ _ this
    · intro a ha
      rcases List.mem_cons.1 ha with rfl | ha
      · exact List.mem_map.2 ⟨g, hg, hgid⟩
      · exact hsub a ha
    · intro a ha
      rcases List.mem_cons.1 ha with rfl | ha
      · exact ⟨0, rfl⟩
      · obtain ⟨k, hk⟩ := hanc a ha
        exact ⟨1 + k, DescAt_add hc1 hk⟩
    · simp only [List.length_cons]; omega

theorem child_wellFounded (l : List Group) (hac : Acyclic l) :
    WellFounded (fun c q => DescAt l 1 c q) :=
  ⟨fun p => child_acc_path l hac (l.length + 1) p [] List.nodup_nil
    (fun _ h => by cases h) (fun _ h => by cases h) (by simp)⟩

theorem depthStep_mono
    {rec1 rec2 : UUID → Int → GroupsSingle → Except Fault GroupsSingle}
    (hrec : ∀ c d u u', rec1 c d u = .ok u' → rec2 c d u = .ok u')
    {p : UUID} {d : Int} {t t' : GroupsSingle} {j : Nat}
    (h : depthStep rec1 p d t j = .ok t') : depthStep rec2 p d t j = .ok t' := by
  unfold depthStep at h ⊢
  cases hg : t.listBatch[j]? with
  | none => simp [hg] at h
  | some g =>
    simp only [hg] at h ⊢
    by_cases hp : g.ParentId = p
    · simp only [hp, if_true] at h ⊢
      by_cases hd : g.DepthLevel ≠ d
      · simp only [hd, if_true, ne_eq, not_false_eq_true] at h ⊢
        cases hw : writeDepth t j g d with
        | error e => rw [hw] at h; cases h
        | ok u =>
          rw [hw] at h
          exact hrec _ _ _ _ h
      · simp only [hd, if_false] at h ⊢
        exact hrec _ _ _ _ h
    · simp only [hp, if_false] at h ⊢
      exact h

theorem depthFold_mono
    {rec1 rec2 : UUID → Int → GroupsSingle → Except Fault GroupsSingle}
    (hrec : ∀ c d u u', rec1 c d u = .ok u' → rec2 c d u = .ok u')
    (p : UUID) (d : Int) :
    ∀ (js : List Nat) (t t' : GroupsSingle), js.foldlM (depthStep rec1 p d) t = .ok t' →
      js.foldlM (depthStep rec2 p d) t = .ok t' := by
  intro js
  induction js with
  | nil => intro t t' h; exact h
  | cons j js ih =>
    intro t t' h
    rw [List.foldlM_cons] at h ⊢
    cases h1 : depthStep rec1 p d t j with
    | error e => rw [h1] at h; cases h
    | ok t1 =>
      rw [h1] at h
      rw [depthStep_mono hrec h1]
      exact ih t1 t' h

/-- A result of `setGroupDepth` does not depend on the recursion depth allowed,
once that is enough. -/
theorem setGroupDepth_mono_succ :
    ∀ (fuel : Nat) (p : UUID) (d : Int) (t t' : GroupsSingle),
      setGroupDepth fuel p d t = .ok t' → setGroupDepth (fuel + 1) p d t = .ok t' := by
  intro fuel
  induction fuel with
  | zero => intro p d t t' h; simp [setGroupDepth] at h
  | succ fuel ih =>
    intro p d t t' h
    rw [setGroupDepth_succ] at h ⊢
    exact depthFold_mono ih p d _ t t' h

theorem setGroupDepth_mono {fuel fuel' : Nat} (hle : fuel ≤ fuel') {p : UUID} {d : Int}
    {t t' : GroupsSingle} (h : setGroupDepth fuel p d t = .ok t') :
    setGroupDepth fuel' p d t = .ok t' := by
  induction hle with
  | refl => exact h
  | step _ ih => exact setGroupDepth_mono_succ _ p d t t' ih

theorem bottomFold_mono
    {rec1 rec2 : List TreeBottomElement → UUID → Except Fault (List TreeBottomElement)}
    (hrec : ∀ acc c acc', rec1 acc c = .ok acc' → rec2 acc c = .ok acc') :
    ∀ (gs : List Group) (acc acc' : List TreeBottomElement),
      gs.foldlM (bottomStep rec1) acc = .ok acc' → gs.foldlM (bottomStep rec2) acc = .ok acc' := by
  intro gs
  induction gs with
  | nil => intro acc acc' h; exact h
  | cons g gs ih =>
    intro acc acc' h
    rw [List.foldlM_cons] at h ⊢
    cases h1 : bottomStep rec1 acc g with
    | error e => rw [h1] at h; cases h
    | ok a1 =>
      rw [h1] at h
      have h2 : bottomStep rec2 acc g = .ok a1 := hrec _ _ _ h1
      rw [h2]
      exact ih a1 acc' h

theorem compileTreeBottomElements_mono_succ (s : GroupsSingle) :
    ∀ (fuel : Nat) (acc : List TreeBottomElement) (id : UUID) (acc' : List TreeBottomElement),
      compileTreeBottomElements fuel s acc id = .ok acc' →
      compileTreeBottomElements (fuel + 1) s acc id = .ok acc' := by
  intro fuel
  induction fuel with
  | zero => intro acc id acc' h; simp [compileTreeBottomElements] at h
  | succ fuel ih =>
    intro acc id acc' h
    rw [compileTreeBottomElements_succ] at h ⊢
    by_cases hid : id = uuidNil
    · simpa [hid] using h
    · simp only [hid, if_false] at h ⊢
      by_cases hl : (GetBatchElementsByParentId s id).length = 0
      · simpa [hl] using h
      · simp only [hl, if_false] at h ⊢
        exact bottomFold_mono ih _ acc acc' h

theorem getTreeBottomElements_mono {fuel fuel' : Nat} (hle : fuel ≤ fuel') {s : GroupsSingle}
    {id : UUID} {tb : List TreeBottomElement} (h : getTreeBottomElements fuel s id = .ok tb) :
    getTreeBottomElements fuel' s id = .ok tb := by
  induction hle with
  | refl => exact h
  | step _ ih =>
    unfold getTreeBottomElements at ih ⊢
    simp only at ih ⊢
    by_cases hl : (GetBatchElementsByParentId s id).length = 0
    · simpa [hl] using ih
    · simp only [hl, if_false] at ih ⊢
      exact bottomFold_mono (compileTreeBottomElements_mono_succ s _) _ [] tb ih

/-! ### The recursion depth, whatever the mutex -/

theorem writeDepth_error {s : GroupsSingle} {idx : Nat} {g : Group} {d : Int} {e : Fault}
    (h : writeDepth s idx g d = .error e) : e = .deadlock := by
  cases hmu : s.mu with
  | true =>
    simp [writeDepth, Lock, hmu, bind, Except.bind] at h
    exact h.symm
  | false => simp [writeDepth, Lock, hmu, bind, Except.bind, Unlock] at h

theorem depthStep_no_overflow {l0 : List Group}
    {recurse : UUID → Int → GroupsSingle → Except Fault GroupsSingle}
    {p : UUID} {d : Int} {t : GroupsSingle} {j : Nat}
    (hrec : ∀ c ∈ l0, c.ParentId = p → ∀ d' u, edges u.listBatch = edges l0 →
      recurse c.Id d' u ≠ .error .stackOverflow)
    (he : edges t.listBatch = edges l0) :
    depthStep recurse p d t j ≠ .error .stackOverflow := by
  unfold depthStep
  cases hg : t.listBatch[j]? with
  | none => simp
  | some g =>
    simp only
    by_cases hp : g.ParentId = p
    · simp only [hp, if_true]
      have hc1 : DescAt l0 1 g.Id p := by rw [← hp]; exact mem_edges_of_getElem? he hg
      obtain ⟨c, hc, hcid, hcp⟩ := DescAt_one.1 hc1
      by_cases hd : g.DepthLevel ≠ d
      · simp only [hd, if_true, ne_eq, not_false_eq_true]
        cases hw : writeDepth t j g d with
        | error e =>
          rw [writeDepth_error hw]
          simp [bind, Except.bind]
        | ok u =>
          have f1 := writeDepth_frame l0 hg hc1 hw
          have := hrec c hc hcp (add32 d 1) u (by rw [f1.edges_eq, he])
          rw [hcid] at this
          exact this
      · simp only [hd, if_false]
        have := hrec c hc hcp (add32 d 1) t he
        rw [hcid] at this
        exact this
    · simp [hp, pure, Except.pure]

theorem depthFold_no_overflow {l0 : List Group}
    {recurse : UUID → Int → GroupsSingle → Except Fault GroupsSingle}
    {p : UUID} {d : Int}
    (hrecF : ∀ c d' u u', edges u.listBatch = edges l0 → recurse c d' u = .ok u' →
      DepthFrame l0 c d' u u')
    (hrec : ∀ c ∈ l0, c.ParentId = p → ∀ d' u, edges u.listBatch = edges l0 →
      recurse c.Id d' u ≠ .error .stackOverflow) :
    ∀ (js : List Nat) (t : GroupsSingle), edges t.listBatch = edges l0 →
      js.foldlM (depthStep recurse p d) t ≠ .error .stackOverflow := by
  intro js
  induction js with
  | nil => intro t _; simp [pure, Except.pure]
  | cons j js ih =>
    intro t he
    rw [List.foldlM_cons]
    cases h1 : depthStep recurse p d t j with
    | error e =>
      have hne := depthStep_no_overflow (d := d) (j := j) hrec he
      rw [h1] at hne
      simpa [bind, Except.bind] using hne
    | ok t1 =>
      have hF1 := depthStep_frame hrecF he h1
      exact ih t1 (by rw [hF1.edges_eq, he])

/-- With no cycle, `setGroupDepth` never needs more nested calls than there are
groups not yet on the path from the root of the run, whatever the mutex. -/
theorem setGroupDepth_no_overflow_path (l0 : List Group) (hac : Acyclic l0) :
    ∀ (fuel : Nat) (p : UUID) (d : Int) (t : GroupsSingle) (path : List UUID),
      edges t.listBatch = edges l0 → path.Nodup →
      (∀ a ∈ path, a ∈ ids l0) → (∀ a ∈ path, ∃ k, DescAt l0 k p a) →
      l0.length < fuel + path.length → setGroupDepth fuel p d t ≠ .error .stackOverflow := by
  intro fuel
  induction fuel with
  | zero =>
    intro p d t path _ hnd hsub _ hlen
    have := path_length_le hnd hsub
    omega
  | succ fuel ih =>
    intro p d t path he hnd hsub hanc hlen
    rw [setGroupDepth_succ]
    refine depthFold_no_overflow (setGroupDepth_frame l0 fuel) ?_ _ t he
    intro c hc hcp d' u heu
    have hc1 : DescAt l0 1 c.Id p := DescAt_one.2 ⟨c, hc, rfl, hcp⟩
    refine ih c.Id d' u (c.Id :: path) heu ?_ ?_ ?_ ?_
    · refine List.nodup_cons.2 ⟨?_, hnd⟩
      intro hmem
      obtain ⟨k, hk⟩ := hanc _ hmem
      have := DescAt_add hc1 hk
      rw [Nat.add_comm] at this
      exact hac _ _ this
    · intro a ha
      rcases List.mem_cons.1 ha with rfl | ha
      · exact List.mem_map.2 ⟨c, hc, rfl⟩
      · exact hsub a ha
    · intro a ha
      rcases List.mem_cons.1 ha with rfl | ha
      · exact ⟨0, rfl⟩
      · obtain ⟨k, hk⟩ := hanc a ha
        exact ⟨1 + k, DescAt_add hc1 hk⟩
    · simp only [List.length_cons]; omega

theorem setGroupDepth_no_overflow (s : GroupsSingle) (hac : Acyclic s.listBatch) (fuel : Nat)
    (hfuel : s.listBatch.length < fuel) (p : UUID) (d : Int) :
    setGroupDepth fuel p d s ≠ .error .stackOverflow :=
  setGroupDepth_no_overflow_path s.listBatch hac fuel p d s [] rfl List.nodup_nil
    (fun _ h => by cases h) (fun _ h => by cases h) (by simpa using hfuel)

theorem compileTreeBottomElements_returns (s : GroupsSingle) (hac : Acyclic s.listBatch)
    (fuel : Nat) (hfuel : s.listBatch.length < fuel) (acc : List TreeBottomElement) (id : UUID) :
    ∃ acc', compileTreeBottomElements fuel s acc id = .ok acc' :=
  compileTreeBottomElements_returns_path s hac fuel acc id [] List.nodup_nil
    (fun _ h => by cases h) (fun _ h => by cases h) (by simpa using hfuel)


/-! ## What `RecalcGroupsDepth` leaves alone -/

/-- The id `RecalcGroupsDepth(rootId)` starts from: `rootId` when the list has an
entry with that id, `uuid.Nil` (the id of the zero `Group`) when it has none. -/
theorem RecalcGroupsDepth_start (s : GroupsSingle) (rootId : UUID) :
    (GetBatchElementById s rootId).Id = if rootId ∈ ids s.listBatch then rootId else uuidNil := by
  by_cases h : rootId ∈ ids s.listBatch
  · rw [if_pos h]
    exact (GetBatchElementById_mem s h).2
  · rw [if_neg h, GetBatchElementById_absent s rootId
      (fun g hg hid => h (List.mem_map.2 ⟨g, hg, hid⟩))]
    rfl

theorem RecalcGroupsDepth_frame {fuel : Nat} {s s' : GroupsSingle} {rootId : UUID}
    (h : RecalcGroupsDepth fuel rootId s = .ok s') :
    s'.mu = s.mu ∧ s'.db = s.db ∧ s'.listBatch.length = s.listBatch.length ∧
    ∀ (i : Nat) (g : Group), s.listBatch[i]? = some g →
      (∀ k, ¬ DescAt s.listBatch (k + 1) g.Id
        (if rootId ∈ ids s.listBatch then rootId else uuidNil)) →
      s'.listBatch[i]? = some g := by
  have hF := setGroupDepth_frame s.listBatch fuel _ _ s s' rfl h
  refine ⟨hF.1, hF.2.1, hF.2.2.1, ?_⟩
  intro i g hg hn
  rcases hF.2.2.2 i g hg with h' | ⟨k, hk, -⟩
  · exact h'
  · rw [RecalcGroupsDepth_start] at hk
    exact absurd hk (hn k)


/-! ## The depth a queue entry carries -/

theorem index_eq_of_id_eq {l : List Group} (hnd : (ids l).Nodup) {i j : Nat} {a b : Group}
    (ha : l[i]? = some a) (hb : l[j]? = some b) (h : a.Id = b.Id) : i = j := by
  obtain ⟨hi, hai⟩ := List.getElem?_eq_some_iff.1 ha
  obtain ⟨hj, hbj⟩ := List.getElem?_eq_some_iff.1 hb
  have hi' : i < (ids l).length := by simpa [ids] using hi
  have hj' : j < (ids l).length := by simpa [ids] using hj
  have : (ids l)[i] = (ids l)[j] := by
    simp only [ids, List.getElem_map, hai, hbj, h]
  exact (List.Nodup.getElem_inj_iff hnd).1 this

theorem mergeDepth_getElem? (cb : List Group) (g1 : Group) (d : Int) {i : Nat} {c : Group}
    (h : cb[i]? = some c) :
    ∃ dl, (mergeDepth cb g1 d)[i]? = some { c with DepthLevel := dl } := by
  induction cb generalizing i with
  | nil => simp at h
  | cons a t ih =>
    rw [mergeDepth_cons]
    cases i with
    | zero =>
      simp at h
      subst h
      split
      · exact ⟨d, by simp⟩
      · exact ⟨a.DepthLevel, by simp⟩
    | succ i =>
      simp at h
      split
      · exact ⟨c.DepthLevel, by simpa using h⟩
      · obtain ⟨dl, hdl⟩ := ih h
        exact ⟨dl, by simpa using hdl⟩

theorem QueueKeep.keep_refl (t : GroupsSingle) : QueueKeep t t :=
  fun _ c h => ⟨c.DepthLevel, h⟩

theorem QueueKeep.keep_trans {t t1 t2 : GroupsSingle} (h1 : QueueKeep t t1)
    (h2 : QueueKeep t1 t2) : QueueKeep t t2 := by
  intro i c hc
  obtain ⟨dl, hdl⟩ := h1 i c hc
  obtain ⟨dl2, hdl2⟩ := h2 i _ hdl
  exact ⟨dl2, hdl2⟩

theorem writeDepth_keep {s s' : GroupsSingle} {idx : Nat} {g : Group} {d : Int}
    (h : writeDepth s idx g d = .ok s') : QueueKeep s s' := by
  obtain ⟨-, -, -, -, hcb⟩ := writeDepth_eq_ok h
  intro i c hc
  rw [hcb]
  exact mergeDepth_getElem? _ _ _ hc

theorem depthStep_keep
    {recurse : UUID → Int → GroupsSingle → Except Fault GroupsSingle}
    (hrec : ∀ c d' u u', recurse c d' u = .ok u' → QueueKeep u u')
    {p : UUID} {d : Int} {t t' : GroupsSingle} {j : Nat}
    (h : depthStep recurse p d t j = .ok t') : QueueKeep t t' := by
  unfold depthStep at h
  cases hg : t.listBatch[j]? with
  | none => rw [hg] at h; cases h
  | some g =>
    rw [hg] at h
    simp only at h
    by_cases hp : g.ParentId = p
    · simp only [hp, if_true] at h
      by_cases hd : g.DepthLevel ≠ d
      · simp only [hd, if_true, ne_eq, not_false_eq_true] at h
        cases hw : writeDepth t j g d with
        | error e => rw [hw] at h; cases h
        | ok u =>
          rw [hw] at h
          exact (writeDepth_keep hw).keep_trans (hrec _ _ _ _ h)
      · simp only [hd, if_false] at h
        exact hrec _ _ _ _ h
    · simp only [hp, if_false, pure, Except.pure] at h
      cases h
      exact QueueKeep.keep_refl _

/-- A run of `setGroupDepth` that returns leaves the entries of the pending queue
where they were, with at most their depth changed. -/
theorem setGroupDepth_keep :
    ∀ (fuel : Nat) (p : UUID) (d : Int) (t t' : GroupsSingle),
      setGroupDepth fuel p d t = .ok t' → QueueKeep t t' := by
  intro fuel
  induction fuel with
  | zero => intro p d t t' h; cases h
  | succ fuel ih =>
    intro p d t t' h
    rw [setGroupDepth_succ] at h
    exact foldlM_ok_induction (depthStep (setGroupDepth fuel) p d) (fun u => QueueKeep t u)
      (fun a i b ha hab => ha.keep_trans (depthStep_keep (fun c d' u u' => ih c d' u u') hab))
      _ t t' (QueueKeep.keep_refl _) h

theorem QueueSync.sync_refl (t : GroupsSingle) : QueueSync t t :=
  fun _ hc _ hg _ => Or.inr ⟨hc, hg⟩

theorem writeDepth_sync (t0 : GroupsSingle) {s s' : GroupsSingle} {idx : Nat} {g : Group}
    {d : Int} (hone : OneVersionPerId s) (hsync : QueueSync t0 s)
    (hg : s.listBatch[idx]? = some g) (h : writeDepth s idx g d = .ok s') :
    QueueSync t0 s' := by
  obtain ⟨-, -, -, hl, hcb⟩ := writeDepth_eq_ok h
  obtain ⟨hq, hlst⟩ := hone
  have hlt : idx < s.listBatch.length := (List.getElem?_eq_some_iff.1 hg).1
  intro c hc g' hg' hid
  rw [hcb] at hc
  obtain ⟨i, hi⟩ := List.mem_iff_getElem?.1 hg'
  rw [hl] at hi
  by_cases hidx : idx = i
  · subst hidx
    rw [List.getElem?_set_self hlt] at hi
    cases hi
    left
    rcases mem_mergeDepth hq _ _ hc with ⟨-, h2⟩ | ⟨c0, -, -, h2⟩ | h1
    · exact absurd hid h2
    · rw [h2]
    · rw [h1]
  · rw [List.getElem?_set_ne hidx] at hi
    have hne : g'.Id ≠ g.Id := fun e => hidx (index_eq_of_id_eq hlst hg hi e.symm)
    rcases mem_mergeDepth hq _ _ hc with ⟨h1, -⟩ | ⟨c0, -, h1, h2⟩ | h1
    · exact hsync c h1 g' (List.getElem?_mem hi) hid
    · exfalso
      apply hne
      rw [← hid, h2]
      exact h1
    · exfalso
      apply hne
      rw [← hid, h1]

theorem depthStep_sync (t0 : GroupsSingle)
    {recurse : UUID → Int → GroupsSingle → Except Fault GroupsSingle}
    (hrec : ∀ c d' u u', OneVersionPerId u → QueueSync t0 u → recurse c d' u = .ok u' →
      QueueSync t0 u')
    {p : UUID} {d : Int} {t t' : GroupsSingle} {j : Nat}
    (hone : OneVersionPerId t) (hsync : QueueSync t0 t)
    (h : depthStep recurse p d t j = .ok t') : QueueSync t0 t' := by
  unfold depthStep at h
  cases hg : t.listBatch[j]? with
  | none => rw [hg] at h; cases h
  | some g =>
    rw [hg] at h
    simp only at h
    by_cases hp : g.ParentId = p
    · simp only [hp, if_true] at h
      by_cases hd : g.DepthLevel ≠ d
      · simp only [hd, if_true, ne_eq, not_false_eq_true] at h
        cases hw : writeDepth t j g d with
        | error e => rw [hw] at h; cases h
        | ok u =>
          rw [hw] at h
          exact hrec _ _ _ _ ((writeDepth_queue hg hw).2.2.2.1 hone)
            (writeDepth_sync t0 hone hsync hg hw) h
      · simp only [hd, if_false] at h
        exact hrec _ _ _ _ hone hsync h
    · simp only [hp, if_false, pure, Except.pure] at h
      cases h
      exact hsync

/-- A run of `setGroupDepth` that returns keeps queue and list in step: an entry
of the queue carries the depth of the entry of the list with its id, unless the
run has touched neither. -/
theorem setGroupDepth_sync (t0 : GroupsSingle) :
    ∀ (fuel : Nat) (p : UUID) (d : Int) (t t' : GroupsSingle),
      OneVersionPerId t → QueueSync t0 t → setGroupDepth fuel p d t = .ok t' →
      QueueSync t0 t' := by
  intro fuel
  induction fuel with
  | zero => intro p d t t' _ _ h; cases h
  | succ fuel ih =>
    intro p d t t' hone hsync h
    rw [setGroupDepth_succ] at h
    have := foldlM_ok_induction (depthStep (setGroupDepth fuel) p d)
      (fun u => OneVersionPerId u ∧ QueueSync t0 u)
      (fun a i b ha hab =>
        ⟨(depthStep_queue (fun c d' u u' => setGroupDepth_queue fuel c d' u u') hab).2.2.2.1 ha.1,
          depthStep_sync t0 (fun c d' u u' => ih c d' u u') ha.1 ha.2 hab⟩)
      _ t t' ⟨hone, hsync⟩ h
    exact this.2


/-! ## `GetTreeTop` and `CompileTreeTop` -/

theorem CompileTreeTop_succ (fuel : Nat) (s : GroupsSingle) (tree : List Tree) (pid : UUID) :
    CompileTreeTop (fuel + 1) s tree pid =
      if pid = uuidNil then .ok tree
      else if (GetBatchElementById s pid).Id = uuidNil then .ok tree
      else CompileTreeTop fuel s (treeOf (GetBatchElementById s pid) :: tree)
        (GetBatchElementById s pid).ParentId := rfl

/-- Along a chain of ancestors `CompileTreeTop` puts each ancestor in front of the
path, the nearest first, so the farthest ends up in front. -/
theorem CompileTreeTop_chain (s : GroupsSingle) (hnd : (ids s.listBatch).Nodup)
    {pid : UUID} {chain : List Group} (hc : AncestorChain s.listBatch pid chain) :
    ∀ (fuel : Nat) (tree : List Tree), chain.length < fuel →
      CompileTreeTop fuel s tree pid = .ok (chain.reverse.map treeOf ++ tree) := by
  induction hc with
  | stop pid h =>
    intro fuel tree hfuel
    obtain ⟨n, rfl⟩ : ∃ n, fuel = n + 1 := ⟨fuel - 1, by simp at hfuel; omega⟩
    rw [CompileTreeTop_succ]
    by_cases hp : pid = uuidNil
    · simp [hp]
    · rcases h with h | h
      · exact absurd h hp
      · rw [if_neg hp, GetBatchElementById_absent s pid h]
        simp [Group.zero]
  | step pid a rest hpid ha hid _ ih =>
    intro fuel tree hfuel
    obtain ⟨n, rfl⟩ : ∃ n, fuel = n + 1 := ⟨fuel - 1, by simp at hfuel; omega⟩
    have hget : GetBatchElementById s pid = a := by
      rw [← hid]; exact GetBatchElementById_of_mem s hnd ha
    have haid : ¬ a.Id = uuidNil := by rw [hid]; exact hpid
    rw [CompileTreeTop_succ, if_neg hpid, hget, if_neg haid,
      ih n (treeOf a :: tree) (by simp at hfuel; omega)]
    simp

/-- With distinct ids the chain of ancestors from a parent id is determined. -/
theorem AncestorChain_unique {l : List Group} (hnd : (ids l).Nodup) {pid : UUID}
    {c1 c2 : List Group} (h1 : AncestorChain l pid c1) (h2 : AncestorChain l pid c2) :
    c1 = c2 := by
  induction h1 generalizing c2 with
  | stop pid h =>
    cases h2 with
    | stop _ _ => rfl
    | step _ a rest hpid ha hid _ =>
      rcases h with h | h
      · exact absurd h hpid
      · exact absurd hid (h a ha)
  | step pid a rest hpid ha hid _ ih =>
    cases h2 with
    | stop _ h =>
      rcases h with h | h
      · exact absurd h hpid
      · exact absurd hid (h a ha)
    | step _ b rest2 _ hb hid2 hrest2 =>
      have hab : a = b := eq_of_mem_of_id_eq hnd ha hb (by rw [hid, hid2])
      subst hab
      rw [ih hrest2]

/-- With no cycle a chain of ancestors exists from every parent id, and it is no
longer than the list. -/
theorem AncestorChain_exists_path (l : List Group) (hac : Acyclic l) :
    ∀ (n : Nat) (pid : UUID) (path : List UUID), path.Nodup → (∀ a ∈ path, a ∈ ids l) →
      (∀ a ∈ path, ∃ k, DescAt l (k + 1) a pid) → l.length < n + path.length →
      ∃ chain, AncestorChain l pid chain ∧ chain.length < n := by
  intro n
  induction n with
  | zero =>
    intro pid path hnd hsub _ hlen
    have := path_length_le hnd hsub
    omega
  | succ n ih =>
    intro pid path hnd hsub hbelow hlen
    by_cases hstop : pid = uuidNil ∨ ∀ g ∈ l, g.Id ≠ pid
    · exact ⟨[], AncestorChain.stop pid hstop, by simp⟩
    · have hpid : pid ≠ uuidNil := fun h => hstop (Or.inl h)
      have hex : ∃ a ∈ l, a.Id = pid := by
        by_contra hno
        exact hstop (Or.inr (fun g hg hid => hno ⟨g, hg, hid⟩))
      obtain ⟨a, ha, hid⟩ := hex
      have h1 : DescAt l 1 pid a.ParentId := DescAt_one.2 ⟨a, ha, hid, rfl⟩
      obtain ⟨chain, hchain, hlen'⟩ := ih a.ParentId (pid :: path) (by
          refine List.nodup_cons.2 ⟨?_, hnd⟩
          intro hmem
          obtain ⟨k, hk⟩ := hbelow _ hmem
          exact hac _ _ hk) (by
          intro b hb
          rcases List.mem_cons.1 hb with rfl | hb
          · exact List.mem_map.2 ⟨a, ha, hid⟩
          · exact hsub b hb) (by
          intro b hb
          rcases List.mem_cons.1 hb with rfl | hb
          · exact ⟨0, h1⟩
          · obtain ⟨k, hk⟩ := hbelow b hb
            exact ⟨k + 1, DescAt_add hk h1⟩) (by simp only [List.length_cons]; omega)
      exact ⟨a :: chain, AncestorChain.step pid a chain hpid ha hid hchain, by simpa using hlen'⟩

theorem AncestorChain_exists (l : List Group) (hac : Acyclic l) (pid : UUID) :
    ∃ chain, AncestorChain l pid chain ∧ chain.length ≤ l.length := by
  obtain ⟨chain, h1, h2⟩ := AncestorChain_exists_path l hac (l.length + 1) pid []
    List.nodup_nil (fun _ h => by cases h) (fun _ h => by cases h) (by simp)
  exact ⟨chain, h1, by omega⟩


/-! ## `getTreeBottomElements` enumerates in pre-order -/

theorem preorder_succ (l : List Group) (n : Nat) (id : UUID) :
    preorder l (n + 1) id =
      (l.filter (fun g => g.ParentId == id)).flatMap (fun c => c.Id :: preorder l n c.Id) := rfl

/-- Every id of the enumeration is the id of a group one or more links below. -/
theorem preorder_sound (l : List Group) :
    ∀ (n : Nat) (id x : UUID), x ∈ preorder l n id → ∃ k, DescAt l (k + 1) x id := by
  intro n
  induction n with
  | zero => intro id x hx; simp [preorder] at hx
  | succ n ih =>
    intro id x hx
    rw [preorder_succ, List.mem_flatMap] at hx
    obtain ⟨c, hc, hxc⟩ := hx
    rw [List.mem_filter] at hc
    have hc1 : DescAt l 1 c.Id id := DescAt_one.2 ⟨c, hc.1, rfl, by simpa using hc.2⟩
    rcases List.mem_cons.1 hxc with rfl | hxc
    · exact ⟨0, hc1⟩
    · obtain ⟨k, hk⟩ := ih c.Id x hxc
      exact ⟨k + 1, DescAt_add hk hc1⟩

theorem preorder_nodup {l : List Group} (hnd : (ids l).Nodup) (hac : Acyclic l) :
    ∀ (n : Nat) (id : UUID), (preorder l n id).Nodup := by
  intro n
  induction n with
  | zero => intro id; simp [preorder]
  | succ n ih =>
    intro id
    rw [preorder_succ, List.nodup_flatMap]
    constructor
    · intro c _
      refine List.nodup_cons.2 ⟨?_, ih c.Id⟩
      intro hmem
      obtain ⟨k, hk⟩ := preorder_sound l n c.Id c.Id hmem
      exact hac _ _ hk
    · have hpw : List.Pairwise (fun a b : Group => a.Id ≠ b.Id) l := by
        have := hnd
        rw [ids, List.Nodup, List.pairwise_map] at this
        exact this
      have hpw' := List.Pairwise.filter (fun g : Group => g.ParentId == id) hpw
      have hch : ∀ c ∈ l.filter (fun g : Group => g.ParentId == id), DescAt l 1 c.Id id := by
        intro c hc
        rw [List.mem_filter] at hc
        exact DescAt_one.2 ⟨c, hc.1, rfl, by simpa using hc.2⟩
      have hdown : ∀ (c : Group) (x : UUID), x ∈ c.Id :: preorder l n c.Id →
          ∃ k, DescAt l k x c.Id := by
        intro c x hx
        rcases List.mem_cons.1 hx with rfl | hx
        · exact ⟨0, rfl⟩
        · obtain ⟨k, hk⟩ := preorder_sound l n c.Id x hx
          exact ⟨k + 1, hk⟩
      -- two children with distinct ids have disjoint subtrees
      have hdis : ∀ a ∈ l.filter (fun g : Group => g.ParentId == id),
          ∀ b ∈ l.filter (fun g : Group => g.ParentId == id), a.Id ≠ b.Id →
          List.Disjoint (a.Id :: preorder l n a.Id) (b.Id :: preorder l n b.Id) := by
        intro a ha b hb hab x hxa hxb
        obtain ⟨ka, hka⟩ := hdown a x hxa
        obtain ⟨kb, hkb⟩ := hdown b x hxb
        have h1 := DescAt_add hka (hch a ha)
        have h2 := DescAt_add hkb (hch b hb)
        have hk : ka + 1 = kb + 1 :=
          DescAt_distance_unique_below hnd (hac.below id) h1 h2
        have hk' : ka = kb := by omega
        subst hk'
        exact hab (DescAt_functional hnd hka hkb)
      generalize l.filter (fun g : Group => g.ParentId == id) = cs at hpw' hdis
      induction cs with
      | nil => exact List.Pairwise.nil
      | cons c cs ihc =>
        rw [List.pairwise_cons] at hpw' ⊢
        refine ⟨?_, ihc hpw'.2 (fun a ha b hb =>
          hdis a (List.mem_cons_of_mem _ ha) b (List.mem_cons_of_mem _ hb))⟩
        intro b hb
        exact hdis c (List.mem_cons_self _ _) b (List.mem_cons_of_mem _ hb) (hpw'.1 b hb)

theorem bottomFold_preorder {l : List Group} (hnn : NoNilId l) (n : Nat)
    {recurse : List TreeBottomElement → UUID → Except Fault (List TreeBottomElement)}
    (hrec : ∀ acc id acc', id ≠ uuidNil → recurse acc id = .ok acc' →
      acc' = acc ++ (preorder l n id).map TreeBottomElement.mk) :
    ∀ (gs : List Group) (acc acc' : List TreeBottomElement), (∀ g ∈ gs, g ∈ l) →
      gs.foldlM (bottomStep recurse) acc = .ok acc' →
      acc' = acc ++
        (gs.flatMap (fun c => c.Id :: preorder l n c.Id)).map TreeBottomElement.mk := by
  intro gs
  induction gs with
  | nil =>
    intro acc acc' _ h
    simp only [List.foldlM_nil, pure, Except.pure] at h
    cases h
    simp
  | cons g gs ih =>
    intro acc acc' hsub h
    rw [List.foldlM_cons] at h
    cases h1 : bottomStep recurse acc g with
    | error e => rw [h1] at h; cases h
    | ok a1 =>
      rw [h1] at h
      have hg : g.Id ≠ uuidNil := hnn g (hsub g (List.mem_cons_self _ _))
      have ha1 := hrec _ _ _ hg h1
      have := ih a1 acc' (fun x hx => hsub x (List.mem_cons_of_mem _ hx)) h
      rw [this, ha1, List.flatMap_cons]
      simp

/-- When no group has the id `uuid.Nil`, a returning `compileTreeBottomElements`
on an id other than `uuid.Nil` appends the pre-order enumeration below that id. -/
theorem compileTreeBottomElements_preorder (s : GroupsSingle) (hnn : NoNilId s.listBatch) :
    ∀ (fuel : Nat) (acc : List TreeBottomElement) (id : UUID) (acc' : List TreeBottomElement),
      id ≠ uuidNil → compileTreeBottomElements fuel s acc id = .ok acc' →
      acc' = acc ++ (preorder s.listBatch fuel id).map TreeBottomElement.mk := by
  intro fuel
  induction fuel with
  | zero => intro acc id acc' _ h; simp [compileTreeBottomElements] at h
  | succ fuel ih =>
    intro acc id acc' hid h
    rw [compileTreeBottomElements_succ, if_neg hid] at h
    rw [preorder_succ]
    by_cases hl : (GetBatchElementsByParentId s id).length = 0
    · rw [if_pos hl] at h
      cases h
      rw [List.length_eq_zero] at hl
      simp only [GetBatchElementsByParentId] at hl
      simp [hl]
    · rw [if_neg hl] at h
      exact bottomFold_preorder hnn fuel ih _ acc acc'
        (fun g hg => (mem_GetBatchElementsByParentId.1 hg).1) h

theorem getTreeBottomElements_preorder (s : GroupsSingle) (hnn : NoNilId s.listBatch)
    (fuel : Nat) (id : UUID) (tb : List TreeBottomElement)
    (h : getTreeBottomElements fuel s id = .ok tb) :
    tb = (preorder s.listBatch (fuel + 1) id).map TreeBottomElement.mk := by
  unfold getTreeBottomElements at h
  simp only at h
  rw [preorder_succ]
  by_cases hl : (GetBatchElementsByParentId s id).length = 0
  · rw [if_pos hl] at h
    cases h
    rw [List.length_eq_zero] at hl
    simp only [GetBatchElementsByParentId] at hl
    simp [hl]
  · rw [if_neg hl] at h
    have := bottomFold_preorder hnn fuel (compileTreeBottomElements_preorder s hnn fuel)
      _ [] tb (fun g hg => (mem_GetBatchElementsByParentId.1 hg).1) h
    simpa using this

theorem flatMap_congr_mem {α β : Type} (l : List α) (f g : α → List β)
    (h : ∀ a ∈ l, f a = g a) : l.flatMap f = l.flatMap g := by
  induction l with
  | nil => rfl
  | cons a t ih =>
    rw [List.flatMap_cons, List.flatMap_cons, h a (List.mem_cons_self _ _),
      ih (fun b hb => h b (List.mem_cons_of_mem _ hb))]

/-- With no cycle, the enumeration to `n` levels is complete as soon as `n` is the
number of groups not yet on the path from the start. -/
theorem preorder_stable_path (l : List Group) (hac : Acyclic l) :
    ∀ (n : Nat) (id : UUID) (path : List UUID), path.Nodup → (∀ a ∈ path, a ∈ ids l) →
      (∀ a ∈ path, ∃ k, DescAt l k id a) → l.length ≤ n + path.length →
      preorder l (n + 1) id = preorder l n id := by
  intro n
  induction n with
  | zero =>
    intro id path hnd hsub hanc hlen
    rw [preorder_succ]
    have hnil : l.filter (fun g => g.ParentId == id) = [] := by
      rw [List.filter_eq_nil_iff]
      intro c hc hcp
      have hc1 : DescAt l 1 c.Id id := DescAt_one.2 ⟨c, hc, rfl, by simpa using hcp⟩
      have hnd' : (c.Id :: path).Nodup := by
        refine List.nodup_cons.2 ⟨?_, hnd⟩
        intro hmem
        obtain ⟨k, hk⟩ := hanc _ hmem
        have := DescAt_add hc1 hk
        rw [Nat.add_comm] at this
        exact hac _ _ this
      have := path_length_le hnd' (by
        intro a ha
        rcases List.mem_cons.1 ha with rfl | ha
        · exact List.mem_map.2 ⟨c, hc, rfl⟩
        · exact hsub a ha)
      simp only [List.length_cons] at this
      omega
    rw [hnil]
    rfl
  | succ n ih =>
    intro id path hnd hsub hanc hlen
    rw [preorder_succ l (n + 1), preorder_succ l n]
    apply flatMap_congr_mem
    intro c hc
    rw [List.mem_filter] at hc
    have hc1 : DescAt l 1 c.Id id := DescAt_one.2 ⟨c, hc.1, rfl, by simpa using hc.2⟩
    rw [ih c.Id (c.Id :: path) ?_ ?_ ?_ ?_]
    · refine List.nodup_cons.2 ⟨?_, hnd⟩
      intro hmem
      obtain ⟨k, hk⟩ := hanc _ hmem
      have := DescAt_add hc1 hk
      rw [Nat.add_comm] at this
      exact hac _ _ this
    · intro a ha
      rcases List.mem_cons.1 ha with rfl | ha
      · exact List.mem_map.2 ⟨c, hc.1, rfl⟩
      · exact hsub a ha
    · intro a ha
      rcases List.mem_cons.1 ha with rfl | ha
      · exact ⟨0, rfl⟩
      · obtain ⟨k, hk⟩ := hanc a ha
        exact ⟨1 + k, DescAt_add hc1 hk⟩
    · simp only [List.length_cons]; omega

theorem preorder_stable (l : List Group) (hac : Acyclic l) (id : UUID) :
    ∀ n, l.length ≤ n → preorder l n id = preorder l l.length id := by
  intro n hn
  obtain ⟨k, rfl⟩ : ∃ k, n = l.length + k := ⟨n - l.length, by omega⟩
  clear hn
  induction k with
  | zero => rfl
  | succ k ih =>
    rw [← ih]
    exact preorder_stable_path l hac (l.length + k) id [] List.nodup_nil
      (fun _ h => by cases h) (fun _ h => by cases h) (by simp)

/-! ## The claims -/

/-- C1, amended: in a state with pairwise distinct ids, none of them `uuid.Nil`,
and no cycle, if `CheckParentId(n.Id, t, false)` returns the empty string for a
group `n` of the list, then whenever `UpdateBatch` of `n` with `ParentId` set to
`t` returns, it leaves a list of the same length with distinct ids in which no
group is its own ancestor; and it does return when the mutex is free. -/
theorem C1_validated_reparent_keeps_acyclic (fuel : Nat) (s : GroupsSingle) (n : Group)
    (t : UUID) (hnd : (ids s.listBatch).Nodup) (hac : Acyclic s.listBatch)
    (hnn : NoNilId s.listBatch) (hn : n ∈ s.listBatch)
    (hchk : CheckParentId fuel s n.Id t false = .ok "") :
    (∀ s', UpdateBatch { n with ParentId := t } s = .ok s' →
      s'.listBatch.length = s.listBatch.length ∧
      (ids s'.listBatch).Nodup ∧ Acyclic s'.listBatch) ∧
    (s.mu = false → ∃ s', UpdateBatch { n with ParentId := t } s = .ok s') := by
  obtain ⟨hne, -, hdesc⟩ := CheckParentId_accept_sound fuel s n.Id t hnn hchk
  refine ⟨?_, fun hmu => ⟨_, UpdateBatch_free _ s hmu⟩⟩
  intro s' h
  obtain ⟨-, rfl⟩ := UpdateBatch_eq_ok h
  refine ⟨length_upsert_of_mem (List.mem_map.2 ⟨n, hn, rfl⟩), nodup_ids_upsert hnd _, ?_⟩
  exact upsert_reparent_acyclic hnd hac rfl rfl hne hdesc

/-- C1, amended, on the chain `root`, `A`, `B`, `C`: moving `C` under `root` is
accepted and keeps the graph acyclic. -/
theorem C1_validated_reparent_keeps_acyclic_witness :
    ((ids (sampleState chainRABC).listBatch).Nodup ∧
      Acyclic (sampleState chainRABC).listBatch ∧
      NoNilId (sampleState chainRABC).listBatch ∧
      sampleGroup 4 3 3 false ∈ (sampleState chainRABC).listBatch ∧
      CheckParentId 5 (sampleState chainRABC) (sampleGroup 4 3 3 false).Id 1 false = .ok "") ∧
    UpdateBatch { sampleGroup 4 3 3 false with ParentId := 1 } (sampleState chainRABC) =
      .ok { listBatch := [sampleGroup 1 0 0 true, sampleGroup 2 1 2 false,
              sampleGroup 3 2 2 false, sampleGroup 4 1 3 false],
            createBatch := [sampleGroup 4 1 3 false], mu := false, db := [] } ∧
    ((∀ s', UpdateBatch { sampleGroup 4 3 3 false with ParentId := 1 }
          (sampleState chainRABC) = .ok s' →
        s'.listBatch.length = (sampleState chainRABC).listBatch.length ∧
        (ids s'.listBatch).Nodup ∧ Acyclic s'.listBatch) ∧
      ((sampleState chainRABC).mu = false →
        ∃ s', UpdateBatch { sampleGroup 4 3 3 false with ParentId := 1 }
          (sampleState chainRABC) = .ok s')) :=
  ⟨⟨by decide, Acyclic_of_rank (fun x => x) (by decide), by decide, by decide, by decide⟩,
    by decide,
    C1_validated_reparent_keeps_acyclic 5 (sampleState chainRABC) (sampleGroup 4 3 3 false) 1
      (by decide) (Acyclic_of_rank (fun x => x) (by decide)) (by decide) (by decide)
      (by decide)⟩

/-- C1 as stated fails when a group carries the id `uuid.Nil`: in the list `M`
(id 1, parent `uuid.Nil`), `Z` (id `uuid.Nil`, parent 2), `N` (id 2) the ids are
distinct and there is no cycle, `compileTreeBottomElements` stops at `Z`, so
`getTreeBottomElements(2)` is `[Z]` and `CheckParentId(2, 1, false)` accepts;
after `UpdateBatch` of `N` with `ParentId` 1 the group `N` is its own ancestor
(`N`, `M`, `Z`, `N`). -/
theorem C1_counterexample_nil_id :
    (ids (sampleState nilIdList).listBatch).Nodup ∧
      Acyclic (sampleState nilIdList).listBatch ∧
      sampleGroup 2 5 0 false ∈ (sampleState nilIdList).listBatch ∧
      (sampleState nilIdList).mu = false ∧
      getTreeBottomElements 4 (sampleState nilIdList) 2 = .ok [⟨0⟩] ∧
      CheckParentId 4 (sampleState nilIdList) (sampleGroup 2 5 0 false).Id 1 false = .ok "" ∧
      UpdateBatch { sampleGroup 2 5 0 false with ParentId := 1 } (sampleState nilIdList) =
        .ok { listBatch := [sampleGroup 1 0 2 false, sampleGroup 0 2 1 false,
                sampleGroup 2 1 0 false],
              createBatch := [sampleGroup 2 1 0 false], mu := false, db := [] } ∧
      ¬ Acyclic [sampleGroup 1 0 2 false, sampleGroup 0 2 1 false, sampleGroup 2 1 0 false] := by
  refine ⟨by decide, ?_, by decide, rfl, by decide, by decide, by decide, ?_⟩
  · exact Acyclic_of_rank (fun x => if x = 2 then 1 else if x = 0 then 2 else if x = 1 then 3 else 0)
      (by decide)
  · intro h
    refine h 2 2 ⟨sampleGroup 2 1 0 false, by decide, rfl, sampleGroup 1 0 2 false, by decide, rfl,
      sampleGroup 0 2 1 false, by decide, rfl, rfl⟩
/-- C2: on a list with no cycle, and with a recursion depth allowed of at least
the number of groups, `getTreeBottomElements(id)` and `CheckParentId(id,
idToCheck, forRelink)` return, and `CheckParentId` returns the empty string
exactly when (1) for a relink the list has a main group and `idToCheck` is not
its id, (2) `id != idToCheck`, (3) the list has an active group with id
`idToCheck` and (4) `idToCheck` is not among the ids `getTreeBottomElements(id)`
returns; in every other case it returns a non-empty reason.  With `forRelink`
false: a target among the enumerated descendants is rejected, `id == idToCheck`
is rejected, and any other existing active target is accepted.  When no group
has the id `uuid.Nil`, every id one or more parent links below `id` is among the
enumerated ones, hence rejected. -/
theorem C2_check_parent_id_accepts_iff (fuel : Nat) (s : GroupsSingle) (id t : UUID)
    (r : Bool) (hac : Acyclic s.listBatch) (hfuel : s.listBatch.length ≤ fuel) :
    ∃ tb, getTreeBottomElements fuel s id = .ok tb ∧
      (∃ msg, CheckParentId fuel s id t r = .ok msg) ∧
      (CheckParentId fuel s id t r = .ok "" ↔
        (r = true → NotMainTarget s.listBatch t) ∧ id ≠ t ∧ ActiveTarget s.listBatch t ∧
          ∀ e ∈ tb, e.Id ≠ t) ∧
      (¬ ((r = true → NotMainTarget s.listBatch t) ∧ id ≠ t ∧ ActiveTarget s.listBatch t ∧
          ∀ e ∈ tb, e.Id ≠ t) →
        ∃ msg, CheckParentId fuel s id t r = .ok msg ∧ msg ≠ "") ∧
      ((∃ e ∈ tb, e.Id = t) → ∃ msg, CheckParentId fuel s id t false = .ok msg ∧ msg ≠ "") ∧
      (id = t → ∃ msg, CheckParentId fuel s id t false = .ok msg ∧ msg ≠ "") ∧
      (id ≠ t → ActiveTarget s.listBatch t → (∀ e ∈ tb, e.Id ≠ t) →
        CheckParentId fuel s id t false = .ok "") ∧
      (NoNilId s.listBatch → (∃ k, DescAt s.listBatch (k + 1) t id) →
        ∃ msg, CheckParentId fuel s id t false = .ok msg ∧ msg ≠ "") := by
  have hall := fun r : Bool => CheckParentId_spec fuel s id t r
  obtain ⟨tb, htb⟩ := getTreeBottomElements_returns s hac fuel hfuel id
  refine ⟨tb, htb, CheckParentId_returns fuel s id t r hac hfuel, ⟨?_, ?_⟩,
    (hall r).2.2 tb htb, ?_, ?_, ?_, ?_⟩
  · intro h
    obtain ⟨h1, h2, h3, tb', htb', hfree⟩ := (hall r).1.1 h
    rw [htb] at htb'
    cases htb'
    exact ⟨h1, h2, h3, hfree⟩
  · rintro ⟨h1, h2, h3, hfree⟩
    exact (hall r).1.2 ⟨h1, h2, h3, tb, htb, hfree⟩
  · rintro ⟨e, he, het⟩
    exact (hall false).2.2 tb htb (fun h => h.2.2.2 e he het)
  · intro hid
    exact (hall false).2.1 (fun h => h.2.1 hid)
  · intro hid hact hfree
    exact (hall false).1.2 ⟨by simp, hid, hact, tb, htb, hfree⟩
  · rintro hnn ⟨k, hk⟩
    have hmem := getTreeBottomElements_complete s hnn fuel id tb htb t k hk
    exact (hall false).2.2 tb htb (fun h => h.2.2.2 _ hmem rfl)

/-- C2 on the chain `root`, `A`, `B`, `C`: `CheckParentId(A, C, false)` rejects
(`C` is below `A`), `CheckParentId(A, A, false)` rejects, `CheckParentId(C, root,
false)` accepts, and `CheckParentId(C, root, true)` rejects the main group. -/
theorem C2_check_parent_id_accepts_iff_witness :
    (Acyclic (sampleState chainRABC).listBatch ∧ (sampleState chainRABC).listBatch.length ≤ 4) ∧
    getTreeBottomElements 4 (sampleState chainRABC) 2 = .ok [⟨3⟩, ⟨4⟩] ∧
    CheckParentId 4 (sampleState chainRABC) 2 4 false =
      .ok "Ошибка изменения родительской группы (подгруппа изменяемой группы не может быть её родителем)" ∧
    CheckParentId 4 (sampleState chainRABC) 2 2 false =
      .ok "Ошибка изменения родительской группы (изменяемая группа не может быть собственным родителем)" ∧
    CheckParentId 4 (sampleState chainRABC) 4 1 false = .ok "" ∧
    CheckParentId 4 (sampleState chainRABC) 4 1 true =
      .ok "Ошибка переноса подгрупп, сети и устройств группы (перенос в главную группу невозможен)" ∧
    ∃ tb, getTreeBottomElements 4 (sampleState chainRABC) 4 = .ok tb ∧
      (∃ msg, CheckParentId 4 (sampleState chainRABC) 4 1 false = .ok msg) ∧
      (CheckParentId 4 (sampleState chainRABC) 4 1 false = .ok "" ↔
        (false = true → NotMainTarget (sampleState chainRABC).listBatch 1) ∧ (4 : UUID) ≠ 1 ∧
          ActiveTarget (sampleState chainRABC).listBatch 1 ∧ ∀ e ∈ tb, e.Id ≠ 1) :=
  ⟨⟨Acyclic_of_rank (fun x => x) (by decide), by decide⟩,
    by decide, by decide, by decide, by decide, by decide,
    (C2_check_parent_id_accepts_iff 4 (sampleState chainRABC) 4 1 false
      (Acyclic_of_rank (fun x => x) (by decide)) (by decide)).imp
      (fun _ h => ⟨h.1, h.2.1, h.2.2.1⟩)⟩

/-- C2 as first stated fails on a list with a cycle: in the list `1, 2, 3`, where
1 and 2 are each the parent of the other and 3 is active, `CheckParentId(1, 3,
false)` meets (1), (2) and (3), and nothing is enumerated that could hold 3; but
the enumeration below 1 goes from 1 to 2 and back without end, so for every
recursion depth allowed neither `getTreeBottomElements(1)` nor `CheckParentId(1,
3, false)` returns: the call neither accepts nor gives a reason. -/
theorem C2_counterexample_cycle :
    (1 : UUID) ≠ 3 ∧ ActiveTarget cycleAB 3 ∧ ¬ Acyclic cycleAB ∧
      (∀ fuel, getTreeBottomElements fuel (sampleState cycleAB) 1 = .error .stackOverflow) ∧
      (∀ fuel, CheckParentId fuel (sampleState cycleAB) 1 3 false = .error .stackOverflow) := by
  have hf1 : GetBatchElementsByParentId (sampleState cycleAB) 1 = [sampleGroup 2 1 0 false] := by
    decide
  have hf2 : GetBatchElementsByParentId (sampleState cycleAB) 2 = [sampleGroup 1 2 0 false] := by
    decide
  have hcomp : ∀ (fuel : Nat) (acc : List TreeBottomElement),
      compileTreeBottomElements fuel (sampleState cycleAB) acc 1 = .error .stackOverflow ∧
      compileTreeBottomElements fuel (sampleState cycleAB) acc 2 = .error .stackOverflow := by
    intro fuel
    induction fuel with
    | zero => intro acc; exact ⟨rfl, rfl⟩
    | succ n ih =>
      intro acc
      constructor
      · rw [compileTreeBottomElements_succ, if_neg (by decide), hf1, if_neg (by decide),
          List.foldlM_cons, bottomStep]
        have h : compileTreeBottomElements n (sampleState cycleAB)
            (acc ++ [⟨(sampleGroup 2 1 0 false).Id⟩]) (sampleGroup 2 1 0 false).Id =
            .error .stackOverflow := (ih _).2
        rw [h]
        rfl
      · rw [compileTreeBottomElements_succ, if_neg (by decide), hf2, if_neg (by decide),
          List.foldlM_cons, bottomStep]
        have h : compileTreeBottomElements n (sampleState cycleAB)
            (acc ++ [⟨(sampleGroup 1 2 0 false).Id⟩]) (sampleGroup 1 2 0 false).Id =
            .error .stackOverflow := (ih _).1
        rw [h]
        rfl
  have hget : ∀ fuel, getTreeBottomElements fuel (sampleState cycleAB) 1 =
      .error .stackOverflow := by
    intro fuel
    unfold getTreeBottomElements
    simp only
    rw [hf1, if_neg (by decide), List.foldlM_cons, bottomStep]
    have h : compileTreeBottomElements fuel (sampleState cycleAB)
        ([] ++ [⟨(sampleGroup 2 1 0 false).Id⟩]) (sampleGroup 2 1 0 false).Id =
        .error .stackOverflow := (hcomp fuel _).2
    rw [h]
    rfl
  have hact : ActiveTarget cycleAB 3 :=
    ⟨sampleGroup 3 0 0 true, by decide, rfl, rfl⟩
  refine ⟨by decide, hact, ?_, hget, ?_⟩
  · intro h
    exact h 1 1 ⟨sampleGroup 1 2 0 false, by decide, rfl, sampleGroup 2 1 0 false, by decide,
      rfl, rfl⟩
  · intro fuel
    exact ((CheckParentId_eval fuel (sampleState cycleAB) 1 3 false).2
      ⟨by simp, by decide, hact⟩).1 _ (hget fuel)

/-- C3, amended: in a state with pairwise distinct ids, none of them `uuid.Nil`,
no cycle and the depth invariant, if `CheckParentId(n.Id, t, false)` returns the
empty string for a group `n` of the list, then whenever `UpdateBatch` of `n` with
`ParentId := t` and `DepthLevel := depthLevel(t) + 1` followed by
`RecalcGroupsDepth(n.Id)` returns, every group whose parent is in the list again
lies one level below it, in `int32` arithmetic and so in the integers when that
sum fits `int32`; ids are still distinct and there is no cycle.  The two calls do
return when the mutex is free and the recursion depth allowed exceeds the number
of groups. -/
theorem C3_validated_reparent_keeps_depth (fuelC fuel : Nat) (s : GroupsSingle) (n : Group)
    (t : UUID) (hnd : (ids s.listBatch).Nodup) (hac : Acyclic s.listBatch)
    (hnn : NoNilId s.listBatch) (hinv : DepthInv s.listBatch) (hn : n ∈ s.listBatch)
    (hchk : CheckParentId fuelC s n.Id t false = .ok "") :
    (∀ s1 s2,
      UpdateBatch { n with
          ParentId := t,
          DepthLevel := add32 (GetBatchElementById s t).DepthLevel 1 } s = .ok s1 →
      RecalcGroupsDepth fuel n.Id s1 = .ok s2 →
      DepthInv s2.listBatch ∧
      (∀ g ∈ s2.listBatch, ∀ p ∈ s2.listBatch, g.ParentId = p.Id →
        -2147483648 ≤ p.DepthLevel → p.DepthLevel + 1 < 2147483648 →
        g.DepthLevel = p.DepthLevel + 1) ∧
      (ids s2.listBatch).Nodup ∧ Acyclic s2.listBatch) ∧
    (s.mu = false → s.listBatch.length < fuel →
      ∃ s1 s2,
        UpdateBatch { n with
            ParentId := t,
            DepthLevel := add32 (GetBatchElementById s t).DepthLevel 1 } s = .ok s1 ∧
        RecalcGroupsDepth fuel n.Id s1 = .ok s2) := by
  obtain ⟨hne, -, hdesc⟩ := CheckParentId_accept_sound fuelC s n.Id t hnn hchk
  generalize hn1 : ({ n with
      ParentId := t,
      DepthLevel := add32 (GetBatchElementById s t).DepthLevel 1 } : Group) = n1
  have hid : n1.Id = n.Id := by rw [← hn1]
  have hpar : n1.ParentId = t := by rw [← hn1]
  have hdep : n1.DepthLevel = add32 (GetBatchElementById s t).DepthLevel 1 := by rw [← hn1]
  have hnd1 : (ids (upsert s.listBatch n1)).Nodup := nodup_ids_upsert hnd _
  have hac1 : Acyclic (upsert s.listBatch n1) := upsert_reparent_acyclic hnd hac hid hpar hne hdesc
  have hlen1 : (upsert s.listBatch n1).length = s.listBatch.length :=
    length_upsert_of_mem (by rw [hid]; exact List.mem_map.2 ⟨n, hn, rfl⟩)
  have hmem1 : ∀ x, x ∈ upsert s.listBatch n1 ↔ x = n1 ∨ (x ∈ s.listBatch ∧ x.Id ≠ n.Id) := by
    intro x; rw [mem_upsert_iff hnd, hid]
  have hrun : ∀ s1 : GroupsSingle, s1.listBatch = upsert s.listBatch n1 →
      RecalcGroupsDepth fuel n.Id s1 = setGroupDepth fuel n.Id (add32 n1.DepthLevel 1) s1 := by
    intro s1 hl1
    have hroot : GetBatchElementById s1 n.Id = n1 := by
      rw [GetBatchElementById_congr s1 ⟨upsert s.listBatch n1, [], false, []⟩ hl1, ← hid]
      exact GetBatchElementById_upsert _ _ _ _ n1
    simp only [RecalcGroupsDepth, hroot, hid]
  refine ⟨?_, ?_⟩
  swap
  · intro hmu hfuel
    obtain ⟨s2, hs2⟩ := setGroupDepth_returns (upsert s.listBatch n1) hac1 fuel n.Id
      (add32 n1.DepthLevel 1) ⟨upsert s.listBatch n1, upsert s.createBatch n1, false, s.db⟩
      rfl rfl (by rw [hlen1]; exact hfuel)
    refine ⟨_, s2, UpdateBatch_free _ s hmu, ?_⟩
    rw [hrun _ rfl]
    exact hs2
  intro s1 s2 hupd hs2
  have hl1 : s1.listBatch = upsert s.listBatch n1 := by
    rw [(UpdateBatch_eq_ok hupd).2]
  rw [hrun s1 hl1] at hs2
  rw [← hl1] at hnd1 hac1
  have hF := setGroupDepth_frame s1.listBatch fuel _ _ s1 s2 rfl hs2
  have hC := setGroupDepth_complete s1.listBatch hnd1 fuel _ _ s1 s2 rfl hs2
  have he : edges s2.listBatch = edges s1.listBatch := hF.edges_eq
  have hnd2 : (ids s2.listBatch).Nodup := nodup_ids_of_edges he hnd1
  have hn1mem : n1 ∈ s1.listBatch := by rw [hl1]; exact (hmem1 n1).2 (Or.inl rfl)
  have hn1mem2 : n1 ∈ s2.listBatch :=
    hF.mem_of_not_desc hn1mem (fun k hk => hac1 _ _ (by rw [hid] at hk; exact hk))
  have hmain : DepthInv s2.listBatch := by
    intro g2 hg2 p2 hp2 hgp
    obtain ⟨g1, hg1, hg1id, hg1p, hg1c⟩ := hF.mem_back hg2
    obtain ⟨p1, hp1, hp1id, -, hp1c⟩ := hF.mem_back hp2
    by_cases hbelow : ∃ k, DescAt s1.listBatch (k + 1) g2.Id n.Id
    · -- `g2` lies below `n`: its depth and that of its parent were set by the run
      obtain ⟨k, hk⟩ := hbelow
      obtain ⟨i, hi⟩ := List.mem_iff_getElem?.1 hg2
      have hg2d := hC i g2 k hi hk
      obtain ⟨g, hg, hgid, hgd⟩ := hk
      have hgg : g = g1 := eq_of_mem_of_id_eq hnd1 hg hg1 (by rw [hgid, hg1id])
      rw [hgg, hg1p, hgp] at hgd
      cases k with
      | zero =>
        simp only [DescAt] at hgd
        have : p2 = n1 := eq_of_mem_of_id_eq hnd2 hp2 hn1mem2 (by rw [hgd, hid])
        rw [hg2d, this]; rfl
      | succ k =>
        obtain ⟨j, hj⟩ := List.mem_iff_getElem?.1 hp2
        rw [hg2d, hC j p2 k hj hgd]; rfl
    · -- `g2` is not below `n`: neither it nor its parent was touched by the run
      have hg21 : g2 = g1 := by
        rcases hg1c with h | ⟨k, hk, -⟩
        · exact h
        · exact absurd ⟨k, by rw [← hg1id]; exact hk⟩ hbelow
      have hg2l1 : g2 ∈ s1.listBatch := by rw [hg21]; exact hg1
      have hp21 : p2 = p1 := by
        rcases hp1c with h | ⟨k, hk, -⟩
        · exact h
        · exact absurd ⟨k + 1, g2, hg2l1, rfl, by rw [hgp, ← hp1id]; exact hk⟩ hbelow
      have hp2l1 : p2 ∈ s1.listBatch := by rw [hp21]; exact hp1
      have hp2n : p2.Id ≠ n.Id := by
        intro h
        exact hbelow ⟨0, g2, hg2l1, rfl, by rw [hgp, h]; rfl⟩
      rw [hl1] at hg2l1 hp2l1
      have hp2l : p2 ∈ s.listBatch := by
        rcases (hmem1 p2).1 hp2l1 with h | ⟨h, -⟩
        · rw [h, hid] at hp2n; exact absurd rfl hp2n
        · exact h
      rcases (hmem1 g2).1 hg2l1 with h | ⟨h, -⟩
      · have hpt : p2.Id = t := by rw [← hgp, h, hpar]
        rw [h, hdep, ← hpt, GetBatchElementById_of_mem s hnd hp2l]
      · exact hinv g2 h p2 hp2l hgp
  refine ⟨hmain, ?_, hnd2, (Acyclic_congr he).2 hac1⟩
  intro g hg p hp hgp hlo hhi
  rw [hmain g hg p hp hgp, add32]
  exact wrap32_of_range _ (by omega) hhi

/-- C3, amended, on the chain `root`, `A`, `B`, `C` with depths 0 to 3: moving `B`
under `root` puts `B` at depth 1 and `C` at depth 2. -/
theorem C3_validated_reparent_keeps_depth_witness :
    ((ids (sampleState chainDepths).listBatch).Nodup ∧
      Acyclic (sampleState chainDepths).listBatch ∧
      NoNilId (sampleState chainDepths).listBatch ∧
      DepthInv (sampleState chainDepths).listBatch ∧
      sampleGroup 3 2 2 false ∈ (sampleState chainDepths).listBatch ∧
      CheckParentId 5 (sampleState chainDepths) (sampleGroup 3 2 2 false).Id 1 false = .ok "") ∧
    UpdateBatch (sampleGroup 3 1 1 false) (sampleState chainDepths) =
      .ok { listBatch := [sampleGroup 1 0 0 true, sampleGroup 2 1 1 false,
              sampleGroup 3 1 1 false, sampleGroup 4 3 3 false],
            createBatch := [sampleGroup 3 1 1 false], mu := false, db := [] } ∧
    RecalcGroupsDepth 5 3
        { listBatch := [sampleGroup 1 0 0 true, sampleGroup 2 1 1 false,
            sampleGroup 3 1 1 false, sampleGroup 4 3 3 false],
          createBatch := [sampleGroup 3 1 1 false], mu := false, db := [] } =
      .ok { listBatch := [sampleGroup 1 0 0 true, sampleGroup 2 1 1 false,
              sampleGroup 3 1 1 false, sampleGroup 4 3 2 false],
            createBatch := [sampleGroup 3 1 1 false, sampleGroup 4 3 2 false],
            mu := false, db := [] } ∧
    ∃ s1 s2,
      UpdateBatch { sampleGroup 3 2 2 false with
          ParentId := 1,
          DepthLevel := add32 (GetBatchElementById (sampleState chainDepths) 1).DepthLevel 1 }
        (sampleState chainDepths) = .ok s1 ∧
      RecalcGroupsDepth 5 (sampleGroup 3 2 2 false).Id s1 = .ok s2 :=
  ⟨⟨by decide, Acyclic_of_rank (fun x => x) (by decide), by decide, by decide, by decide,
      by decide⟩,
    by decide, by decide,
    (C3_validated_reparent_keeps_depth 5 5 (sampleState chainDepths) (sampleGroup 3 2 2 false) 1
      (by decide) (Acyclic_of_rank (fun x => x) (by decide)) (by decide) (by decide) (by decide)
      (by decide)).2 rfl (by decide)⟩

/-- C3 as stated fails when a group carries the id `uuid.Nil`: the list `M` (id 1,
parent `uuid.Nil`, depth 2), `Z` (id `uuid.Nil`, parent 2, depth 1), `N` (id 2,
depth 0) has distinct ids, no cycle and the depth invariant, and
`CheckParentId(2, 1, false)` accepts; after `UpdateBatch` of `N` with parent 1 and
depth 3 the groups `N`, `M`, `Z` form a cycle and `RecalcGroupsDepth(2)` returns
for no recursion depth. -/
theorem C3_counterexample_nil_id :
    (ids (sampleState nilIdList).listBatch).Nodup ∧
      Acyclic (sampleState nilIdList).listBatch ∧
      DepthInv (sampleState nilIdList).listBatch ∧
      sampleGroup 2 5 0 false ∈ (sampleState nilIdList).listBatch ∧
      (sampleState nilIdList).mu = false ∧
      CheckParentId 4 (sampleState nilIdList) (sampleGroup 2 5 0 false).Id 1 false = .ok "" ∧
      UpdateBatch { sampleGroup 2 5 0 false with
            ParentId := 1,
            DepthLevel := add32 (GetBatchElementById (sampleState nilIdList) 1).DepthLevel 1 }
          (sampleState nilIdList) =
        .ok { listBatch := [sampleGroup 1 0 2 false, sampleGroup 0 2 1 false,
                sampleGroup 2 1 3 false],
              createBatch := [sampleGroup 2 1 3 false], mu := false, db := [] } ∧
      ∀ fuel s2, RecalcGroupsDepth fuel 2
          { listBatch := [sampleGroup 1 0 2 false, sampleGroup 0 2 1 false,
              sampleGroup 2 1 3 false],
            createBatch := [sampleGroup 2 1 3 false], mu := false, db := [] } ≠ .ok s2 := by
  refine ⟨by decide, ?_, by decide, by decide, rfl, by decide, by decide, ?_⟩
  · exact Acyclic_of_rank (fun x => if x = 2 then 1 else if x = 0 then 2 else if x = 1 then 3 else 0)
      (by decide)
  · intro fuel s2
    refine setGroupDepth_cycle
      [sampleGroup 1 0 2 false, sampleGroup 0 2 1 false, sampleGroup 2 1 3 false] fuel 2 _ _ s2
      rfl ⟨2, ?_⟩
    exact ⟨sampleGroup 2 1 3 false, by decide, rfl, sampleGroup 1 0 2 false, by decide, rfl,
      sampleGroup 0 2 1 false, by decide, rfl, rfl⟩
/-- C4: with pairwise distinct ids and no cycle, whenever `RecalcGroupsDepth(rootId)`
on an id of the list returns, it has left the parent links and the entry of
`rootId` as they were, and every group `k >= 1` parent links below `rootId` has
depth `depthLevel(rootId) + k` in `int32` arithmetic, which is that very sum when
it fits `int32`, and hence one more than the depth of its parent.  It does return
when the mutex is free and the recursion depth allowed exceeds the number of
groups. -/
theorem C4_recalc_sets_descendant_depths (fuel : Nat) (s : GroupsSingle) (rootId : UUID)
    (hnd : (ids s.listBatch).Nodup) (hac : Acyclic s.listBatch)
    (hroot : rootId ∈ ids s.listBatch) :
    (∀ s', RecalcGroupsDepth fuel rootId s = .ok s' →
      edges s'.listBatch = edges s.listBatch ∧
      GetBatchElementById s' rootId = GetBatchElementById s rootId ∧
      ∀ d ∈ s'.listBatch, ∀ k, 1 ≤ k → DescAt s.listBatch k d.Id rootId →
        d.DepthLevel = wrap32 ((GetBatchElementById s' rootId).DepthLevel + k) ∧
        (-2147483648 ≤ (GetBatchElementById s' rootId).DepthLevel →
          (GetBatchElementById s' rootId).DepthLevel + k < 2147483648 →
          d.DepthLevel = (GetBatchElementById s' rootId).DepthLevel + k) ∧
        ∀ p ∈ s'.listBatch, p.Id = d.ParentId → d.DepthLevel = add32 p.DepthLevel 1) ∧
      (s.mu = false → s.listBatch.length < fuel →
        ∃ s', RecalcGroupsDepth fuel rootId s = .ok s') := by
  obtain ⟨hr0mem, hr0id⟩ := GetBatchElementById_mem s hroot
  generalize hr0 : GetBatchElementById s rootId = r0 at hr0mem hr0id
  have hrun : RecalcGroupsDepth fuel rootId s =
      setGroupDepth fuel rootId (add32 r0.DepthLevel 1) s := by
    simp only [RecalcGroupsDepth, hr0, hr0id]
  refine ⟨?_, fun hmu hfuel => by
    rw [hrun]
    exact setGroupDepth_returns s.listBatch hac fuel rootId _ s rfl hmu hfuel⟩
  intro s' hs'
  rw [hrun] at hs'
  have hF := setGroupDepth_frame s.listBatch fuel _ _ s s' rfl hs'
  have hC := setGroupDepth_complete s.listBatch hnd fuel _ _ s s' rfl hs'
  have he : edges s'.listBatch = edges s.listBatch := hF.edges_eq
  have hnd' : (ids s'.listBatch).Nodup := nodup_ids_of_edges he hnd
  have hr0' : GetBatchElementById s' rootId = r0 := by
    have hmem : r0 ∈ s'.listBatch :=
      hF.mem_of_not_desc hr0mem (fun k hk => hac _ _ (by rw [hr0id] at hk; exact hk))
    have := GetBatchElementById_of_mem s' hnd' hmem
    rw [hr0id] at this
    exact this
  have hdepth : ∀ d ∈ s'.listBatch, ∀ k, DescAt s.listBatch (k + 1) d.Id rootId →
      d.DepthLevel = wrap32 (r0.DepthLevel + ((k + 1 : Nat) : Int)) := by
    intro d hd k hk
    obtain ⟨i, hi⟩ := List.mem_iff_getElem?.1 hd
    rw [hC i d k hi hk, depthAt_add32]
    push_cast
    rfl
  refine ⟨he, hr0', ?_⟩
  rw [hr0']
  intro d hd k hk1 hk
  obtain ⟨k, rfl⟩ : ∃ k', k = k' + 1 := ⟨k - 1, by omega⟩
  have h1 := hdepth d hd k hk
  refine ⟨h1, ?_, ?_⟩
  · intro hlo hhi
    rw [h1]
    exact wrap32_of_range _ (by push_cast at hhi ⊢; omega) hhi
  · intro p hp hpd
    obtain ⟨g, hg, hgid, hgd⟩ := hk
    have hgp : g.ParentId = d.ParentId := by
      have hmem : (d.Id, d.ParentId) ∈ edges s.listBatch := by
        rw [← he, mem_edges]; exact ⟨d, hd, rfl, rfl⟩
      obtain ⟨g0, hg0, hg0id, hg0p⟩ := mem_edges.1 hmem
      have : g = g0 := eq_of_mem_of_id_eq hnd hg hg0 (by rw [hgid, hg0id])
      rw [this, hg0p]
    rw [hgp, ← hpd] at hgd
    cases k with
    | zero =>
      simp only [DescAt] at hgd
      have hp0 : p = r0 := by
        have hmem : r0 ∈ s'.listBatch :=
          hF.mem_of_not_desc hr0mem (fun k hk => hac _ _ (by rw [hr0id] at hk; exact hk))
        exact eq_of_mem_of_id_eq hnd' hp hmem (by rw [hgd, hr0id])
      rw [h1, hp0, add32]
      push_cast
      rfl
    | succ k =>
      have h2 := hdepth p hp k hgd
      rw [h1, h2, add32, wrap32_add_wrap32]
      congr 1
      push_cast
      ring

/-- C4, the scenario of the specification: `root` (depth 0), `A` (depth set to
2), `B` (depth 2), `C` (depth 3); `RecalcGroupsDepth(A)` puts `B` at depth 3 and
`C` at depth 4 and leaves `root` and `A` alone. -/
theorem C4_recalc_sets_descendant_depths_witness :
    ((ids (sampleState chainRABC).listBatch).Nodup ∧
      Acyclic (sampleState chainRABC).listBatch ∧
      (2 : UUID) ∈ ids (sampleState chainRABC).listBatch) ∧
    RecalcGroupsDepth 5 2 (sampleState chainRABC) =
      .ok { listBatch := [sampleGroup 1 0 0 true, sampleGroup 2 1 2 false,
              sampleGroup 3 2 3 false, sampleGroup 4 3 4 false],
            createBatch := [sampleGroup 3 2 3 false, sampleGroup 4 3 4 false],
            mu := false, db := [] } ∧
    ((∀ s', RecalcGroupsDepth 5 2 (sampleState chainRABC) = .ok s' →
      edges s'.listBatch = edges (sampleState chainRABC).listBatch ∧
      GetBatchElementById s' 2 = GetBatchElementById (sampleState chainRABC) 2 ∧
      ∀ d ∈ s'.listBatch, ∀ k, 1 ≤ k → DescAt (sampleState chainRABC).listBatch k d.Id 2 →
        d.DepthLevel = wrap32 ((GetBatchElementById s' 2).DepthLevel + k) ∧
        (-2147483648 ≤ (GetBatchElementById s' 2).DepthLevel →
          (GetBatchElementById s' 2).DepthLevel + k < 2147483648 →
          d.DepthLevel = (GetBatchElementById s' 2).DepthLevel + k) ∧
        ∀ p ∈ s'.listBatch, p.Id = d.ParentId → d.DepthLevel = add32 p.DepthLevel 1) ∧
      ((sampleState chainRABC).mu = false → (sampleState chainRABC).listBatch.length < 5 →
        ∃ s', RecalcGroupsDepth 5 2 (sampleState chainRABC) = .ok s')) :=
  ⟨⟨by decide, Acyclic_of_rank (fun x => x) (by decide), by decide⟩,
    by decide,
    C4_recalc_sets_descendant_depths 5 (sampleState chainRABC) 2 (by decide)
      (Acyclic_of_rank (fun x => x) (by decide)) (by decide)⟩
/-- C5: whatever the list and the pending queue hold, whenever `UpdateBatch(g)`
returns, `GetBatchElementById(g.Id)` in the state it leaves is `g` itself; and
it does return when the mutex is free. -/
theorem C5_upsert_lookup_roundtrip (s : GroupsSingle) (g : Group) :
    (∀ s', UpdateBatch g s = .ok s' → GetBatchElementById s' g.Id = g) ∧
      (s.mu = false → ∃ s', UpdateBatch g s = .ok s' ∧ GetBatchElementById s' g.Id = g) := by
  have h1 : ∀ s', UpdateBatch g s = .ok s' → GetBatchElementById s' g.Id = g := by
    intro s' h
    obtain ⟨-, rfl⟩ := UpdateBatch_eq_ok h
    exact GetBatchElementById_upsert _ _ _ _ g
  exact ⟨h1, fun hmu => ⟨_, UpdateBatch_free g s hmu, h1 _ (UpdateBatch_free g s hmu)⟩⟩

/-- C5 on the list `[main, A, B]`: upserting a new version of `A` and looking it
up returns that version. -/
theorem C5_upsert_lookup_roundtrip_witness :
    (sampleState mainAB).mu = false ∧
      UpdateBatch (sampleGroup 2 3 7 false) (sampleState mainAB) =
        .ok { listBatch := [sampleGroup 1 0 0 true, sampleGroup 2 3 7 false,
                sampleGroup 3 1 1 false],
              createBatch := [sampleGroup 2 3 7 false], mu := false, db := [] } ∧
      ∃ s', UpdateBatch (sampleGroup 2 3 7 false) (sampleState mainAB) = .ok s' ∧
        GetBatchElementById s' (sampleGroup 2 3 7 false).Id = sampleGroup 2 3 7 false :=
  ⟨rfl, by decide,
    (C5_upsert_lookup_roundtrip (sampleState mainAB) (sampleGroup 2 3 7 false)).2 rfl⟩

/-- C6: with pairwise distinct ids, an id of the list and a successful storage
delete, whenever `DeleteById(id)` returns it returns `nil`; the list it leaves is
the old one with the single entry of that id cut out, the rest in place and in
order; the mutex is free and a later `GetBatchElementById(id)` yields the zero
`Group`, whose `Id` is `uuid.Nil`.  It does return when the mutex is free. -/
theorem C6_delete_existing (s : GroupsSingle) (id : UUID)
    (hnd : (ids s.listBatch).Nodup) (hin : id ∈ ids s.listBatch) :
    (∀ r s', DeleteById id none s = .ok (r, s') →
      r = none ∧
      (∃ pre g post, s.listBatch = pre ++ g :: post ∧ g.Id = id ∧
        s'.listBatch = pre ++ post) ∧
      s'.listBatch.length + 1 = s.listBatch.length ∧
      (∀ x, x ∈ s'.listBatch ↔ x ∈ s.listBatch ∧ x.Id ≠ id) ∧
      s'.mu = false ∧
      GetBatchElementById s' id = Group.zero ∧ (GetBatchElementById s' id).Id = uuidNil) ∧
    (s.mu = false → ∃ s', DeleteById id none s = .ok (none, s')) := by
  obtain ⟨g0, hg0, hid0⟩ := List.mem_map.1 hin
  obtain ⟨idx, hidx⟩ := (IndexFunc_isSome s.listBatch (fun g => g.Id == id)).2
    ⟨g0, hg0, by simpa using hid0⟩
  obtain ⟨pre, g, post, hl, hg, hpre, -, hrem⟩ := IndexFunc_split _ _ _ hidx
  have hgid : g.Id = id := by simpa using hg
  have hnd' : ((pre ++ g :: post).map (fun g => g.Id)).Nodup := by
    have := hnd; rw [ids, hl] at this; exact this
  have hother : ∀ x ∈ pre ++ post, x.Id ≠ id := by
    intro x hx
    rcases List.mem_append.1 hx with hx | hx
    · simpa using hpre x hx
    · intro hxid
      rw [List.map_append, List.map_cons] at hnd'
      have h2 := (List.nodup_append.1 hnd').2.1
      have h3 := (List.nodup_cons.1 h2).1
      exact h3 (List.mem_map.2 ⟨x, hx, by rw [hxid, hgid]⟩)
  have hfree : s.mu = false → DeleteById id none s =
      .ok (none, ⟨pre ++ post, s.createBatch, false, s.db ++ [DbCall.deleteById id]⟩) := by
    intro hmu
    simp [DeleteById, hidx, Lock, Unlock, hmu, bind, Except.bind, hrem, pure, Except.pure]
  refine ⟨?_, fun hmu => ⟨_, hfree hmu⟩⟩
  intro r s' h
  cases hmu : s.mu with
  | true => simp [DeleteById, hidx, Lock, hmu, bind, Except.bind] at h
  | false =>
    rw [hfree hmu] at h
    cases h
    refine ⟨rfl, ⟨pre, g, post, hl, hgid, rfl⟩, ?_, ?_, rfl, ?_, ?_⟩
    · simp [hl]; omega
    · intro x
      constructor
      · intro hx
        refine ⟨?_, hother x hx⟩
        rw [hl]
        rcases List.mem_append.1 hx with hx | hx
        · exact List.mem_append_left _ hx
        · exact List.mem_append_right _ (List.mem_cons_of_mem _ hx)
      · rintro ⟨hx, hxid⟩
        rw [hl] at hx
        rcases List.mem_append.1 hx with hx | hx
        · exact List.mem_append_left _ hx
        · rcases List.mem_cons.1 hx with rfl | hx
          · exact absurd hgid hxid
          · exact List.mem_append_right _ hx
    · exact GetBatchElementById_absent _ id hother
    · rw [GetBatchElementById_absent _ id hother]; rfl

/-- C6 on the list `[main, A, B]`: deleting `A` leaves `[main, B]`. -/
theorem C6_delete_existing_witness :
    ((ids (sampleState mainAB).listBatch).Nodup ∧
      (2 : UUID) ∈ ids (sampleState mainAB).listBatch) ∧
    DeleteById 2 none (sampleState mainAB) =
      .ok (none, { listBatch := [sampleGroup 1 0 0 true, sampleGroup 3 1 1 false],
                   createBatch := [], mu := false, db := [DbCall.deleteById 2] }) ∧
    ((∀ r s', DeleteById 2 none (sampleState mainAB) = .ok (r, s') →
      r = none ∧
      (∃ pre g post, (sampleState mainAB).listBatch = pre ++ g :: post ∧ g.Id = 2 ∧
        s'.listBatch = pre ++ post) ∧
      s'.listBatch.length + 1 = (sampleState mainAB).listBatch.length ∧
      (∀ x, x ∈ s'.listBatch ↔ x ∈ (sampleState mainAB).listBatch ∧ x.Id ≠ 2) ∧
      s'.mu = false ∧
      GetBatchElementById s' 2 = Group.zero ∧ (GetBatchElementById s' 2).Id = uuidNil) ∧
    ((sampleState mainAB).mu = false → ∃ s', DeleteById 2 none (sampleState mainAB) = .ok (none, s'))) :=
  ⟨⟨by decide, by decide⟩, by decide,
    C6_delete_existing (sampleState mainAB) 2 (by decide) (by decide)⟩

/-- C7: on the list `[main, A, B]` with a successful storage delete,
`ResetGroupsTable` does not return the filtered list `[main]`: the loop removes
`A` at index 1 and then reads index 2 of the list of length 2 it has left, which
is a run-time panic. The intended result, the entries with `Main == true`, is
`[main]`. -/
theorem C7_reset_panics_on_adjacent_non_main :
    ResetGroupsTable none (sampleState mainAB) = .error .indexOutOfRange ∧
      mainAB.filter (fun g => g.Main) = [sampleGroup 1 0 0 true] ∧
      resetStep mainAB 1 = .ok [sampleGroup 1 0 0 true, sampleGroup 3 1 1 false] ∧
      resetStep [sampleGroup 1 0 0 true, sampleGroup 3 1 1 false] 2 = .error .indexOutOfRange := by
  decide

/-- C8: `CreateFromBatch` on an empty pending queue and a free mutex returns
`nil`, issues no storage call and leaves both slices as they were, but it returns
with the mutex held, for either value of `optimize`; the next `UpdateBatch`
then blocks for ever. -/
theorem C8_flush_empty_returns_with_mutex_held :
    CreateFromBatch true none (.ok []) (sampleState mainAB) =
        .ok (none, { listBatch := mainAB, createBatch := [], mu := true, db := [] }) ∧
      CreateFromBatch false none (.ok []) (sampleState mainAB) =
        .ok (none, { listBatch := mainAB, createBatch := [], mu := true, db := [] }) ∧
      (sampleState mainAB).mu = false ∧
      UpdateBatch (sampleGroup 4 1 1 false)
        { listBatch := mainAB, createBatch := [], mu := true, db := [] } = .error .deadlock := by
  decide

/-- C9: with a non-empty pending queue, a bulk append that fails with `e` and an
ordered load that succeeds with `S`, whenever `CreateFromBatch` returns it
returns `e`, the list afterwards is `S` and the pending queue is empty; and it
does return when the mutex is free. -/
theorem C9_flush_failure_reloads (optimize : Bool) (s : GroupsSingle) (e : GoError)
    (S : List Group) (hq : s.createBatch ≠ []) :
    (∀ r s', CreateFromBatch optimize (some e) (.ok S) s = .ok (r, s') →
        r = some e ∧ s'.listBatch = S ∧ s'.createBatch = []) ∧
      (s.mu = false →
        ∃ s', CreateFromBatch optimize (some e) (.ok S) s = .ok (some e, s') ∧
          s'.listBatch = S ∧ s'.createBatch = []) := by
  have hlen : ¬ s.createBatch.length < 1 := by
    cases hc : s.createBatch with
    | nil => exact absurd hc hq
    | cons a t => simp
  have hfree : s.mu = false → CreateFromBatch optimize (some e) (.ok S) s =
      .ok (some e, ⟨S, [], true,
        s.db ++ [DbCall.create s.createBatch] ++ [DbCall.findOrdered]⟩) := by
    intro hmu
    simp [CreateFromBatch, Lock, hmu, hlen, bind, Except.bind, pure, Except.pure]
  refine ⟨?_, fun hmu => ⟨_, hfree hmu, rfl, rfl⟩⟩
  intro r s' h
  cases hmu : s.mu with
  | true => simp [CreateFromBatch, Lock, hmu, bind, Except.bind] at h
  | false =>
    rw [hfree hmu] at h
    cases h
    exact ⟨rfl, rfl, rfl⟩

/-- C9 with one pending entry: the append fails, the store holds only `main`. -/
theorem C9_flush_failure_reloads_witness :
    (⟨mainAB, [sampleGroup 3 1 1 false], false, []⟩ : GroupsSingle).createBatch ≠ [] ∧
    CreateFromBatch true (some "write failed") (.ok [sampleGroup 1 0 0 true])
        ⟨mainAB, [sampleGroup 3 1 1 false], false, []⟩ =
      .ok (some "write failed",
        { listBatch := [sampleGroup 1 0 0 true], createBatch := [], mu := true,
          db := [DbCall.create [sampleGroup 3 1 1 false], DbCall.findOrdered] }) ∧
    ∃ s', CreateFromBatch true (some "write failed") (.ok [sampleGroup 1 0 0 true])
        ⟨mainAB, [sampleGroup 3 1 1 false], false, []⟩ = .ok (some "write failed", s') ∧
      s'.listBatch = [sampleGroup 1 0 0 true] ∧ s'.createBatch = [] :=
  ⟨by decide, by decide,
    (C9_flush_failure_reloads true ⟨mainAB, [sampleGroup 3 1 1 false], false, []⟩ "write failed"
      [sampleGroup 1 0 0 true] (by decide)).2 rfl⟩

/-- C10: "the ids of the pending queue are pairwise distinct and the ids of the
list are pairwise distinct" is kept by `UpdateBatch`, which returns on a free
mutex, by `setGroupDepth` and by `RecalcGroupsDepth`, hence by every run of such
calls.  After a run that starts with an empty queue, the ids touched (passed to
`UpdateBatch`, or changed in the list by a `RecalcGroupsDepth`) are exactly the
ids with an entry in the queue, each with exactly one; every entry of the queue
is the version the list holds, and for a group `g` passed to `UpdateBatch` whose
id no later call touches the entry of that id is `g`. -/
theorem C10_one_version_per_id (fuel : Nat) (s : GroupsSingle) (hinv : OneVersionPerId s) :
    (∀ g, s.mu = false → ∃ s1, UpdateBatch g s = .ok s1 ∧ OneVersionPerId s1) ∧
      (∀ p d s1, setGroupDepth fuel p d s = .ok s1 → OneVersionPerId s1) ∧
      (∀ r s1, RecalcGroupsDepth fuel r s = .ok s1 → OneVersionPerId s1) ∧
      ∀ calls s', runCalls fuel calls s = .ok s' →
        OneVersionPerId s' ∧
        (s.createBatch = [] →
          (∀ x, Touched fuel calls s x ↔ ∃! c, c ∈ s'.createBatch ∧ c.Id = x) ∧
          (∀ c ∈ s'.createBatch, GetBatchElementById s' c.Id = c) ∧
          ∀ pre g post s1, calls = pre ++ Call.update g :: post →
            runCalls fuel (pre ++ [Call.update g]) s = .ok s1 →
            ¬ Touched fuel post s1 g.Id →
            g ∈ s'.createBatch ∧ ∀ c ∈ s'.createBatch, c.Id = g.Id → c = g) := by
  refine ⟨?_, ?_, ?_, ?_⟩
  · intro g hmu
    refine ⟨_, UpdateBatch_free g s hmu, ?_⟩
    exact (UpdateBatch_queue (UpdateBatch_free g s hmu)).1 hinv
  · intro p d s1 h
    exact (setGroupDepth_queue fuel p d s s1 h).2.2.2.1 hinv
  · intro r s1 h
    exact (RecalcGroupsDepth_queue h).2.2.2.1 hinv
  · intro calls s' hrun
    obtain ⟨hinv', hcoh, -, htouch, -⟩ := runCalls_queue fuel calls s s' hrun hinv
    refine ⟨hinv', fun hempty => ?_⟩
    have hcoh' : Coherent s' := hcoh (by intro c hc; rw [hempty] at hc; cases hc)
    have huniq : ∀ c ∈ s'.createBatch, ∀ c' ∈ s'.createBatch, c.Id = c'.Id → c = c' :=
      fun c hc c' hc' h => eq_of_mem_of_id_eq hinv'.1 hc hc' h
    have hlatest : ∀ c ∈ s'.createBatch, GetBatchElementById s' c.Id = c :=
      fun c hc => GetBatchElementById_of_mem s' hinv'.2 (hcoh' c hc)
    refine ⟨?_, hlatest, ?_⟩
    · intro x
      constructor
      · intro hx
        obtain ⟨c, hc, hcx⟩ := List.mem_map.1 (htouch x hx)
        refine ⟨c, ⟨hc, hcx⟩, ?_⟩
        rintro c' ⟨hc', hcx'⟩
        exact huniq c' hc' c hc (by rw [hcx, hcx'])
      · rintro ⟨c, ⟨hc, hcx⟩, -⟩
        rcases runCalls_mem_touched fuel calls s s' hrun hinv x
          (List.mem_map.2 ⟨c, hc, hcx⟩) with h | h
        · rw [hempty] at h; cases h
        · exact h
    · intro pre g post s1 hcalls hpre hnot
      have hsplit : runCalls fuel calls s = runCalls fuel (pre ++ [Call.update g]) s >>=
          runCalls fuel post := by
        rw [← runCalls_append, hcalls, List.append_assoc]; rfl
      rw [hpre, ok_bind, hrun] at hsplit
      -- the state `s1` is the one `UpdateBatch(g)` has left
      have hupd : ∃ s0, OneVersionPerId s0 ∧ UpdateBatch g s0 = .ok s1 := by
        rw [runCalls_append] at hpre
        cases h0 : runCalls fuel pre s with
        | error e => rw [h0] at hpre; cases hpre
        | ok s0 =>
          rw [h0, ok_bind] at hpre
          simp only [runCalls] at hpre
          refine ⟨s0, (runCalls_queue fuel pre s s0 h0 hinv).1, ?_⟩
          cases h1 : UpdateBatch g s0 with
          | error e => rw [h1] at hpre; cases hpre
          | ok s1' =>
            rw [h1, ok_bind] at hpre
            rw [hpre]
      obtain ⟨s0, hinv0, hupd⟩ := hupd
      obtain ⟨u1, -, -, u4, -, u6⟩ := UpdateBatch_queue hupd
      obtain ⟨-, -, r3, -, r5⟩ := runCalls_queue fuel post s1 s' hsplit.symm (u1 hinv0)
      obtain ⟨c, hc, hcx⟩ := List.mem_map.1 (r3 _ u4)
      have hcg : c = g := by
        rw [← hlatest c hc, hcx, r5 _ hnot, u6]
      rw [hcg] at hc
      exact ⟨hc, fun c' hc' h => huniq c' hc' g hc h⟩

/-- C10 on the chain `root`, `A` (depth set to 2), `B`, `C`: after
`UpdateBatch(A)`, `RecalcGroupsDepth(A)` and `UpdateBatch` of a new version of
`C`, the queue holds one entry for each of `A`, `B`, `C`, the one of `C` being that
new version. -/
theorem C10_one_version_per_id_witness :
    OneVersionPerId (sampleState chainRABC) ∧
    runCalls 5 [Call.update (sampleGroup 2 1 2 false), Call.recalc 2,
        Call.update (sampleGroup 4 3 9 false)] (sampleState chainRABC) =
      .ok { listBatch := [sampleGroup 1 0 0 true, sampleGroup 2 1 2 false,
              sampleGroup 3 2 3 false, sampleGroup 4 3 9 false],
            createBatch := [sampleGroup 2 1 2 false, sampleGroup 3 2 3 false,
              sampleGroup 4 3 9 false],
            mu := false, db := [] } ∧
    ((∀ g, (sampleState chainRABC).mu = false →
        ∃ s1, UpdateBatch g (sampleState chainRABC) = .ok s1 ∧ OneVersionPerId s1) ∧
      (∀ p d s1, setGroupDepth 5 p d (sampleState chainRABC) = .ok s1 → OneVersionPerId s1) ∧
      (∀ r s1, RecalcGroupsDepth 5 r (sampleState chainRABC) = .ok s1 → OneVersionPerId s1) ∧
      ∀ calls s', runCalls 5 calls (sampleState chainRABC) = .ok s' →
        OneVersionPerId s' ∧
        ((sampleState chainRABC).createBatch = [] →
          (∀ x, Touched 5 calls (sampleState chainRABC) x ↔
            ∃! c, c ∈ s'.createBatch ∧ c.Id = x) ∧
          (∀ c ∈ s'.createBatch, GetBatchElementById s' c.Id = c) ∧
          ∀ pre g post s1, calls = pre ++ Call.update g :: post →
            runCalls 5 (pre ++ [Call.update g]) (sampleState chainRABC) = .ok s1 →
            ¬ Touched 5 post s1 g.Id →
            g ∈ s'.createBatch ∧ ∀ c ∈ s'.createBatch, c.Id = g.Id → c = g)) :=
  ⟨⟨by decide, by decide⟩, by decide,
    C10_one_version_per_id 5 (sampleState chainRABC) ⟨by decide, by decide⟩⟩
/-- C11: from a free mutex and a list with pairwise distinct ids, `UpdateBatch`
applied to `g1..gk` one after another returns, and in the state it leaves: the
list has as many entries as there are distinct ids among the old list and
`g1..gk`, and its ids are still pairwise distinct; the ids of the old list stand
where they stood and the new ids follow them; an old entry whose id is not among
`g1..gk` is unchanged at its index, one whose id is among them is still at its
index with that id; for every `gi` the lookup of `gi.Id` is the last `gj` of the
sequence with that id.  From the empty list and `k` groups with pairwise distinct
ids, every order of the calls leaves `k` entries. -/
theorem C11_sequential_updates_keep_all (s : GroupsSingle) (gs : List Group)
    (hmu : s.mu = false) (hnd : (ids s.listBatch).Nodup) :
    ∃ s', updateAll gs s = .ok s' ∧
      s'.listBatch.length = (ids s.listBatch ++ ids gs).dedup.length ∧
      (ids s'.listBatch).Nodup ∧
      (∃ new, ids s'.listBatch = ids s.listBatch ++ new ∧
        ∀ x, x ∈ new ↔ x ∈ ids gs ∧ x ∉ ids s.listBatch) ∧
      (∀ (i : Nat) (g : Group), s.listBatch[i]? = some g → g.Id ∉ ids gs →
        s'.listBatch[i]? = some g) ∧
      (∀ (i : Nat) (g : Group), s.listBatch[i]? = some g → g.Id ∈ ids gs →
        ∃ gj, s'.listBatch[i]? = some gj ∧ gj.Id = g.Id) ∧
      (∀ gi ∈ gs, ∃ pre gj post, gs = pre ++ gj :: post ∧ gj.Id = gi.Id ∧
        (∀ x ∈ post, x.Id ≠ gi.Id) ∧ GetBatchElementById s' gi.Id = gj) ∧
      (s.listBatch = [] → (ids gs).Nodup → ∀ gs', gs'.Perm gs →
        ∃ s'', updateAll gs' s = .ok s'' ∧ s''.listBatch.length = gs.length) := by
  obtain ⟨new, hnew⟩ := ids_foldl_upsert_prefix gs s.listBatch
  have hndf := nodup_ids_foldl_upsert gs hnd
  refine ⟨_, updateAll_free gs s hmu, length_foldl_upsert gs hnd, hndf, ⟨new, hnew, ?_⟩,
    fun i g hg hne => foldl_upsert_getElem?_ne gs hg hne, ?_, ?_, ?_⟩
  · intro x
    have hmem := mem_ids_foldl_upsert gs s.listBatch x
    have hdisj : x ∈ new → x ∉ ids s.listBatch := by
      intro hx hxl
      have hnd2 := hndf
      rw [hnew] at hnd2
      exact (List.nodup_append.1 hnd2).2.2 hxl hx
    rw [hnew, List.mem_append] at hmem
    constructor
    · intro hx
      refine ⟨?_, hdisj hx⟩
      rcases hmem.1 (Or.inr hx) with h | h
      · exact absurd h (hdisj hx)
      · exact h
    · rintro ⟨hx, hxl⟩
      rcases hmem.2 (Or.inr hx) with h | h
      · exact absurd h hxl
      · exact h
  · intro i g hg _
    have hi : i < s.listBatch.length := (List.getElem?_eq_some_iff.1 hg).1
    have hidi : (ids s.listBatch)[i]? = some g.Id := by simp [ids, hg]
    have hfin : (ids (gs.foldl upsert s.listBatch))[i]? = some g.Id := by
      rw [hnew, List.getElem?_append_left (by simpa [ids] using hi)]
      exact hidi
    simp only [ids, List.getElem?_map, Option.map_eq_some'] at hfin
    exact hfin
  · intro gi hgi
    obtain ⟨pre, gj, post, hgs, hid, hpost⟩ :=
      exists_last_with_id gs gi.Id (List.mem_map.2 ⟨gi, hgi, rfl⟩)
    refine ⟨pre, gj, post, hgs, hid, hpost, ?_⟩
    show GetBatchElementById ⟨gs.foldl upsert s.listBatch, _, _, _⟩ gi.Id = gj
    rw [hgs, List.foldl_append, List.foldl_cons,
      GetBatchElementById_foldl_upsert_ne post _ _ _ _ gi.Id hpost, ← hid]
    exact GetBatchElementById_upsert _ _ _ _ gj
  · intro hl hndg gs' hperm
    refine ⟨_, updateAll_free gs' s hmu, ?_⟩
    have hnd' : (ids gs').Nodup := (hperm.map _).nodup_iff.2 hndg
    show (gs'.foldl upsert s.listBatch).length = gs.length
    rw [length_foldl_upsert gs' hnd, hl]
    have hd : (ids [] ++ ids gs').dedup = ids gs' := by
      rw [show ids [] ++ ids gs' = ids gs' from rfl]
      exact List.Nodup.dedup hnd'
    rw [hd, ids, List.length_map]
    exact hperm.length_eq

/-- C11 on the list `[main, A, B]` and the sequence "new 4, new version of A, new
version of 4": the list has four entries, `A` is replaced in place, 4 is appended
once and its second version wins. -/
theorem C11_sequential_updates_keep_all_witness :
    ((sampleState mainAB).mu = false ∧ (ids (sampleState mainAB).listBatch).Nodup) ∧
    updateAll [sampleGroup 4 1 1 false, sampleGroup 2 3 2 false, sampleGroup 4 2 2 false]
        (sampleState mainAB) =
      .ok { listBatch := [sampleGroup 1 0 0 true, sampleGroup 2 3 2 false,
              sampleGroup 3 1 1 false, sampleGroup 4 2 2 false],
            createBatch := [sampleGroup 4 2 2 false, sampleGroup 2 3 2 false],
            mu := false, db := [] } ∧
    ∃ s', updateAll [sampleGroup 4 1 1 false, sampleGroup 2 3 2 false, sampleGroup 4 2 2 false]
        (sampleState mainAB) = .ok s' ∧
      s'.listBatch.length = (ids (sampleState mainAB).listBatch ++
        ids [sampleGroup 4 1 1 false, sampleGroup 2 3 2 false,
          sampleGroup 4 2 2 false]).dedup.length ∧
      (ids s'.listBatch).Nodup :=
  ⟨⟨rfl, by decide⟩, by decide,
    (C11_sequential_updates_keep_all (sampleState mainAB)
      [sampleGroup 4 1 1 false, sampleGroup 2 3 2 false, sampleGroup 4 2 2 false] rfl
      (by decide)).imp (fun _ h => ⟨h.1, h.2.1, h.2.2.1⟩)⟩

/-- C12: `RecalcGroupsDepth` of an id the list does not hold changes groups that
are not below that id.  On the list `[main, A, B]` (distinct ids, no cycle) the id
7 is absent and `main`, whose `ParentId` is `uuid.Nil`, is not below 7; the lookup
yields the zero `Group`, the run is `setGroupDepth(uuid.Nil, 1)`, and it returns
with the depth of `main` changed from 0 to 1 and those of `A` and `B` from 1 to 2.
What every run leaves alone are the groups that are not below the id of the
looked-up group: `rootId` when it is in the list, `uuid.Nil` when it is not. -/
theorem C12_recalc_absent_root_rewrites_roots :
    ((ids mainAB).Nodup ∧ Acyclic mainAB ∧ (7 : UUID) ∉ ids mainAB ∧
      ∀ k, ¬ DescAt mainAB (k + 1) 1 7) ∧
    GetBatchElementById (sampleState mainAB) 7 = Group.zero ∧
    GetBatchElementById (sampleState mainAB) 1 = sampleGroup 1 0 0 true ∧
    RecalcGroupsDepth 4 7 (sampleState mainAB) =
      .ok { listBatch := [sampleGroup 1 0 1 true, sampleGroup 2 1 2 false,
              sampleGroup 3 1 2 false],
            createBatch := [sampleGroup 1 0 1 true, sampleGroup 2 1 2 false,
              sampleGroup 3 1 2 false],
            mu := false, db := [] } ∧
    (∀ (fuel : Nat) (s s' : GroupsSingle) (rootId : UUID),
      RecalcGroupsDepth fuel rootId s = .ok s' →
      ∀ (i : Nat) (g : Group), s.listBatch[i]? = some g →
        (∀ k, ¬ DescAt s.listBatch (k + 1) g.Id
          (if rootId ∈ ids s.listBatch then rootId else uuidNil)) →
        s'.listBatch[i]? = some g) := by
  refine ⟨⟨by decide, Acyclic_of_rank (fun x => x) (by decide), by decide, ?_⟩,
    by decide, by decide, by decide,
    fun fuel s s' rootId h => (RecalcGroupsDepth_frame h).2.2.2⟩
  intro k h
  cases k with
  | zero => simp [DescAt, mainAB, sampleGroup] at h
  | succ k =>
    cases k with
    | zero => simp [DescAt, mainAB, sampleGroup] at h
    | succ k => simp [DescAt, mainAB, sampleGroup] at h

/-- C13: three error returns leave the mutex held.  With a free mutex,
`CreateFromBatch` whose bulk append fails, `DeleteById` whose storage delete fails
and `ResetGroupsTable` whose storage delete fails each return the error in a
state with `mu = true`, and the next `UpdateBatch` blocks; the success paths of
`CreateFromBatch` and `DeleteById` and `UpdateBatch` itself release it. -/
theorem C13_error_returns_keep_mutex_held :
    CreateFromBatch false (some "append failed") (.ok [sampleGroup 1 0 0 true])
        ⟨mainAB, [sampleGroup 3 1 1 false], false, []⟩ =
      .ok (some "append failed",
        { listBatch := [sampleGroup 1 0 0 true], createBatch := [], mu := true,
          db := [DbCall.create [sampleGroup 3 1 1 false], DbCall.findOrdered] }) ∧
    DeleteById 2 (some "delete failed") (sampleState mainAB) =
      .ok (some "delete failed",
        { listBatch := mainAB, createBatch := [], mu := true,
          db := [DbCall.deleteById 2] }) ∧
    ResetGroupsTable (some "delete failed") (sampleState mainAB) =
      .ok (some "delete failed",
        { listBatch := mainAB, createBatch := [], mu := true,
          db := [DbCall.deleteNonMain] }) ∧
    UpdateBatch (sampleGroup 4 1 1 false)
        { listBatch := mainAB, createBatch := [], mu := true,
          db := [DbCall.deleteById 2] } = .error .deadlock ∧
    CreateFromBatch false none (.ok [])
        ⟨mainAB, [sampleGroup 3 1 1 false], false, []⟩ =
      .ok (none,
        { listBatch := mainAB, createBatch := [], mu := false,
          db := [DbCall.create [sampleGroup 3 1 1 false]] }) ∧
    DeleteById 2 none (sampleState mainAB) =
      .ok (none,
        { listBatch := [sampleGroup 1 0 0 true, sampleGroup 3 1 1 false], createBatch := [],
          mu := false, db := [DbCall.deleteById 2] }) ∧
    UpdateBatch (sampleGroup 4 1 1 false) (sampleState mainAB) =
      .ok { listBatch := mainAB ++ [sampleGroup 4 1 1 false],
            createBatch := [sampleGroup 4 1 1 false], mu := false, db := [] } := by
  decide

/-- C14: with pairwise distinct ids, no cycle and no group whose id is `uuid.Nil`,
`getTreeBottomElements(groupId)` returns within as many nested calls as there are
groups, for every `groupId`; the ids it returns are exactly the ids of the groups
one or more child links below `groupId`, each once, `groupId` not among them, in
depth-first pre-order: the children of `groupId` in list order, each immediately
followed by the enumeration of its own subtree. -/
theorem C14_descendant_set_exact (fuel : Nat) (s : GroupsSingle) (groupId : UUID)
    (hnd : (ids s.listBatch).Nodup) (hac : Acyclic s.listBatch)
    (hnn : NoNilId s.listBatch) (hfuel : s.listBatch.length ≤ fuel) :
    ∃ tb, getTreeBottomElements fuel s groupId = .ok tb ∧
      (∀ x, x ∈ tb.map (fun e => e.Id) ↔ ∃ k, DescAt s.listBatch (k + 1) x groupId) ∧
      (tb.map (fun e => e.Id)).Nodup ∧
      groupId ∉ tb.map (fun e => e.Id) ∧
      (∀ n, s.listBatch.length ≤ n → tb.map (fun e => e.Id) = preorder s.listBatch n groupId) ∧
      tb.map (fun e => e.Id) =
        (GetBatchElementsByParentId s groupId).flatMap
          (fun c => c.Id :: preorder s.listBatch s.listBatch.length c.Id) := by
  obtain ⟨tb, htb⟩ := getTreeBottomElements_returns s hac fuel hfuel groupId
  have hpre := getTreeBottomElements_preorder s hnn fuel groupId tb htb
  have hids : tb.map (fun e => e.Id) = preorder s.listBatch (fuel + 1) groupId := by
    rw [hpre, List.map_map]
    exact List.map_id _
  have hsound : ∀ x, x ∈ tb.map (fun e => e.Id) → ∃ k, DescAt s.listBatch (k + 1) x groupId := by
    intro x hx
    rw [hids] at hx
    exact preorder_sound _ _ _ _ hx
  have hstab : ∀ n, s.listBatch.length ≤ n →
      tb.map (fun e => e.Id) = preorder s.listBatch n groupId := by
    intro n hn
    rw [hids, preorder_stable _ hac groupId (fuel + 1) (by omega),
      preorder_stable _ hac groupId n hn]
  refine ⟨tb, htb, ?_, ?_, ?_, hstab, ?_⟩
  · intro x
    constructor
    · exact hsound x
    · rintro ⟨k, hk⟩
      have := getTreeBottomElements_complete s hnn fuel groupId tb htb x k hk
      exact List.mem_map.2 ⟨⟨x⟩, this, rfl⟩
  · rw [hids]
    exact preorder_nodup hnd hac _ _
  · intro hmem
    obtain ⟨k, hk⟩ := hsound _ hmem
    exact hac _ _ hk
  · rw [hstab (s.listBatch.length + 1) (by omega), preorder_succ]
    rfl

/-- C14 on the list `root, A, B, C, D` with `A` and `D` below `root`, `B` below
`A` and `C` below `B`: the enumeration from `root` is `A, B, C, D`. -/
theorem C14_descendant_set_exact_witness :
    ((ids (sampleState (chainRABC ++ [sampleGroup 5 1 1 false])).listBatch).Nodup ∧
      Acyclic (sampleState (chainRABC ++ [sampleGroup 5 1 1 false])).listBatch ∧
      NoNilId (sampleState (chainRABC ++ [sampleGroup 5 1 1 false])).listBatch ∧
      (sampleState (chainRABC ++ [sampleGroup 5 1 1 false])).listBatch.length ≤ 5) ∧
    getTreeBottomElements 5 (sampleState (chainRABC ++ [sampleGroup 5 1 1 false])) 1 =
      .ok [⟨2⟩, ⟨3⟩, ⟨4⟩, ⟨5⟩] ∧
    ∃ tb, getTreeBottomElements 5 (sampleState (chainRABC ++ [sampleGroup 5 1 1 false])) 1 =
        .ok tb ∧
      (tb.map (fun e => e.Id)).Nodup ∧ (1 : UUID) ∉ tb.map (fun e => e.Id) :=
  ⟨⟨by decide, Acyclic_of_rank (fun x => x) (by decide), by decide, by decide⟩, by decide,
    (C14_descendant_set_exact 5 (sampleState (chainRABC ++ [sampleGroup 5 1 1 false])) 1
      (by decide) (Acyclic_of_rank (fun x => x) (by decide)) (by decide) (by decide)).imp
      (fun _ h => ⟨h.1, h.2.2.1, h.2.2.2.1⟩)⟩

/-- C14 as first stated fails when a group carries the id `uuid.Nil`: in the list
`M, Z, N` (distinct ids, no cycle) `Z` has the id `uuid.Nil` and is a child of
`N`, and `M` is a child of `Z`; `getTreeBottomElements(N)` returns `Z` only,
though `M` is two child links below `N`. -/
theorem C14_counterexample_nil_id :
    (ids nilIdList).Nodup ∧ Acyclic nilIdList ∧ (2 : UUID) ≠ uuidNil ∧
      getTreeBottomElements 4 (sampleState nilIdList) 2 = .ok [⟨0⟩] ∧
      DescAt nilIdList 2 1 2 ∧
      (1 : UUID) ∉ ([⟨0⟩] : List TreeBottomElement).map (fun e => e.Id) := by
  refine ⟨by decide, ?_, by decide, by decide, ?_, by decide⟩
  · exact Acyclic_of_rank
      (fun x => if x = 2 then 1 else if x = 0 then 2 else if x = 1 then 3 else 0) (by decide)
  · exact ⟨sampleGroup 1 0 2 false, by decide, rfl, sampleGroup 0 2 1 false, by decide, rfl, rfl⟩

/-- C15: with pairwise distinct ids, no cycle and a recursion depth allowed that
exceeds the number of groups, `GetTreeTop(groupId, deviceId, deviceName,
deviceHost)` returns the empty sequence when `groupId` is not in the list or is
`uuid.Nil`; for any other `groupId` it returns
`[a_m, ..., a_1, (groupId, name of the group), (deviceId, deviceName + " (" +
deviceHost + ")")]`, where `a_1, ..., a_m` is the one chain of ancestors of the
group: `a_1` carries the group's `ParentId`, each next one the `ParentId` of the
one before, and the chain ends at the first ancestor whose `ParentId` is
`uuid.Nil` or is carried by no group; the length is `m + 2`. -/
theorem C15_tree_top_shape (fuel : Nat) (s : GroupsSingle) (groupId deviceId : UUID)
    (deviceName deviceHost : String) (hnd : (ids s.listBatch).Nodup)
    (hac : Acyclic s.listBatch) (hfuel : s.listBatch.length < fuel) :
    ((groupId ∉ ids s.listBatch ∨ groupId = uuidNil) →
      GetTreeTop fuel s groupId deviceId deviceName deviceHost = .ok []) ∧
    (groupId ∈ ids s.listBatch → groupId ≠ uuidNil →
      ∃ g chain, g ∈ s.listBatch ∧ g.Id = groupId ∧
        AncestorChain s.listBatch g.ParentId chain ∧
        (∀ chain', AncestorChain s.listBatch g.ParentId chain' → chain' = chain) ∧
        GetTreeTop fuel s groupId deviceId deviceName deviceHost =
          .ok (chain.reverse.map treeOf ++
            [{ Id := groupId, Name := g.Name },
              { Id := deviceId, Name := deviceName ++ " (" ++ deviceHost ++ ")" }]) ∧
        ∀ tree, GetTreeTop fuel s groupId deviceId deviceName deviceHost = .ok tree →
          tree.length = chain.length + 2) := by
  constructor
  · intro h
    have hid : (GetBatchElementById s groupId).Id = uuidNil := by
      by_cases hmem : groupId ∈ ids s.listBatch
      · rcases h with h | h
        · exact absurd hmem h
        · rw [(GetBatchElementById_mem s hmem).2]; exact h
      · rw [GetBatchElementById_absent s groupId
          (fun g hg hid => hmem (List.mem_map.2 ⟨g, hg, hid⟩))]
        rfl
    simp [GetTreeTop, hid]
  · intro hmem hne
    obtain ⟨hg, hgid⟩ := GetBatchElementById_mem s hmem
    obtain ⟨chain, hchain, hlen⟩ :=
      AncestorChain_exists s.listBatch hac (GetBatchElementById s groupId).ParentId
    have hid : ¬ (GetBatchElementById s groupId).Id = uuidNil := by rw [hgid]; exact hne
    have hrun : GetTreeTop fuel s groupId deviceId deviceName deviceHost =
        .ok (chain.reverse.map treeOf ++
          [{ Id := groupId, Name := (GetBatchElementById s groupId).Name },
            { Id := deviceId, Name := deviceName ++ " (" ++ deviceHost ++ ")" }]) := by
      simp only [GetTreeTop, hid, if_false]
      exact CompileTreeTop_chain s hnd hchain fuel _ (by omega)
    refine ⟨_, chain, hg, hgid, hchain, fun chain' h' => AncestorChain_unique hnd h' hchain,
      hrun, ?_⟩
    intro tree htree
    rw [hrun] at htree
    cases htree
    simp

/-- C15 on the chain `root, A, B, C`: the path of a device in `C` is
`root, A, B, C, device`. -/
theorem C15_tree_top_shape_witness :
    ((ids (sampleState chainRABC).listBatch).Nodup ∧ Acyclic (sampleState chainRABC).listBatch ∧
      (sampleState chainRABC).listBatch.length < 5) ∧
    GetTreeTop 5 (sampleState chainRABC) 4 9 "dev" "host" =
      .ok [⟨1, ""⟩, ⟨2, ""⟩, ⟨3, ""⟩, ⟨4, ""⟩, ⟨9, "dev (host)"⟩] ∧
    GetTreeTop 5 (sampleState chainRABC) 7 9 "dev" "host" = .ok [] :=
  ⟨⟨by decide, Acyclic_of_rank (fun x => x) (by decide), by decide⟩, by decide,
    (C15_tree_top_shape 5 (sampleState chainRABC) 7 9 "dev" "host" (by decide)
      (Acyclic_of_rank (fun x => x) (by decide)) (by decide)).1 (Or.inl (by decide))⟩

/-- C15 as first stated fails for the id `uuid.Nil` of a group of the list: in the
list `M, Z, N` (distinct ids, no cycle) the group `Z` carries `uuid.Nil`, and
`GetTreeTop(uuid.Nil, ...)` returns the empty sequence, not a path that ends in
`Z` and the device. -/
theorem C15_counterexample_nil_group :
    (ids nilIdList).Nodup ∧ Acyclic nilIdList ∧ uuidNil ∈ ids nilIdList ∧
      GetBatchElementById (sampleState nilIdList) uuidNil = sampleGroup 0 2 1 false ∧
      GetTreeTop 5 (sampleState nilIdList) uuidNil 9 "dev" "host" = .ok [] := by
  refine ⟨by decide, ?_, by decide, by decide, by decide⟩
  exact Acyclic_of_rank
    (fun x => if x = 2 then 1 else if x = 0 then 2 else if x = 1 then 3 else 0) (by decide)

/-- C16: when no entry of the list carries `id`, `DeleteById(id)` returns the
"not found" error and the state it was called in: nothing is deleted from
storage, the mutex is not acquired (the call returns even when it is held), and
list and pending queue are as before. -/
theorem C16_delete_absent (s : GroupsSingle) (id : UUID) (dbDelete : Option GoError)
    (habs : ∀ g ∈ s.listBatch, g.Id ≠ id) :
    DeleteById id dbDelete s = .ok (some "удаляемая группа не найдена", s) ∧
      ∃ e s', DeleteById id dbDelete s = .ok (some e, s') ∧ e ≠ "" ∧
        s'.db = s.db ∧ s'.mu = s.mu ∧ s'.listBatch = s.listBatch ∧
        s'.createBatch = s.createBatch := by
  have hidx : IndexFunc s.listBatch (fun g => g.Id == id) = none := by
    rw [IndexFunc_eq_none]
    intro a ha
    simpa using habs a ha
  have h : DeleteById id dbDelete s = .ok (some "удаляемая группа не найдена", s) := by
    simp [DeleteById, hidx, pure, Except.pure]
  exact ⟨h, _, s, h, by decide, rfl, rfl, rfl, rfl⟩

/-- C16 on the list `[main, A, B]` with the mutex held: deleting the absent id 9
returns the error and changes nothing. -/
theorem C16_delete_absent_witness :
    (∀ g ∈ (⟨mainAB, [sampleGroup 3 1 1 false], true, []⟩ : GroupsSingle).listBatch,
        g.Id ≠ 9) ∧
      DeleteById 9 none ⟨mainAB, [sampleGroup 3 1 1 false], true, []⟩ =
        .ok (some "удаляемая группа не найдена",
          ⟨mainAB, [sampleGroup 3 1 1 false], true, []⟩) :=
  ⟨by decide,
    (C16_delete_absent ⟨mainAB, [sampleGroup 3 1 1 false], true, []⟩ 9 none (by decide)).1⟩

/-- C17: on a list whose child relation has no cycle that relation is
well-founded, and from every starting id the recursions return within a depth
bounded by the length of the list: `setGroupDepth` and `RecalcGroupsDepth` never
exhaust a depth of one call more than there are groups (the first call and one
nested call per group at most), whatever the mutex, and return when it is free;
`getTreeBottomElements` returns within as many nested calls of
`compileTreeBottomElements` as there are groups.  What they return is the same
for every larger depth allowed. -/
theorem C17_recursions_terminate (s : GroupsSingle) (hac : Acyclic s.listBatch) (id : UUID)
    (d : Int) :
    WellFounded (fun c p => DescAt s.listBatch 1 c p) ∧
    (∀ fuel, s.listBatch.length < fuel →
      setGroupDepth fuel id d s ≠ .error .stackOverflow ∧
      RecalcGroupsDepth fuel id s ≠ .error .stackOverflow) ∧
    (s.mu = false → ∃ s1 s2,
      ∀ fuel, s.listBatch.length < fuel →
        setGroupDepth fuel id d s = .ok s1 ∧ RecalcGroupsDepth fuel id s = .ok s2) ∧
    (∃ tb, ∀ fuel, s.listBatch.length ≤ fuel → getTreeBottomElements fuel s id = .ok tb) ∧
    (∀ acc, ∃ acc', ∀ fuel, s.listBatch.length < fuel →
      compileTreeBottomElements fuel s acc id = .ok acc') := by
  refine ⟨child_wellFounded s.listBatch hac, ?_, ?_, ?_, ?_⟩
  · intro fuel hfuel
    exact ⟨setGroupDepth_no_overflow s hac fuel hfuel id d,
      setGroupDepth_no_overflow s hac fuel hfuel _ _⟩
  · intro hmu
    obtain ⟨s1, h1⟩ := setGroupDepth_returns s.listBatch hac (s.listBatch.length + 1) id d s
      rfl hmu (Nat.lt_succ_self _)
    obtain ⟨s2, h2⟩ := setGroupDepth_returns s.listBatch hac (s.listBatch.length + 1)
      (GetBatchElementById s id).Id (add32 (GetBatchElementById s id).DepthLevel 1) s
      rfl hmu (Nat.lt_succ_self _)
    exact ⟨s1, s2, fun fuel hfuel => ⟨setGroupDepth_mono hfuel h1, setGroupDepth_mono hfuel h2⟩⟩
  · obtain ⟨tb, htb⟩ := getTreeBottomElements_returns s hac s.listBatch.length (le_refl _) id
    exact ⟨tb, fun fuel hfuel => getTreeBottomElements_mono hfuel htb⟩
  · intro acc
    obtain ⟨acc', h⟩ := compileTreeBottomElements_returns s hac (s.listBatch.length + 1)
      (Nat.lt_succ_self _) acc id
    refine ⟨acc', fun fuel hfuel => ?_⟩
    obtain ⟨k, rfl⟩ : ∃ k, fuel = s.listBatch.length + 1 + k := ⟨fuel - (s.listBatch.length + 1), by omega⟩
    clear hfuel
    induction k with
    | zero => exact h
    | succ k ih => exact compileTreeBottomElements_mono_succ s _ acc id acc' ih

/-- C17 on the chain `root, A, B, C`: from `root`, `setGroupDepth` returns within
five nested calls and `getTreeBottomElements` within four. -/
theorem C17_recursions_terminate_witness :
    Acyclic (sampleState chainRABC).listBatch ∧
    setGroupDepth 5 1 1 (sampleState chainRABC) =
      .ok { listBatch := [sampleGroup 1 0 0 true, sampleGroup 2 1 1 false,
              sampleGroup 3 2 2 false, sampleGroup 4 3 3 false],
            createBatch := [sampleGroup 2 1 1 false], mu := false, db := [] } ∧
    getTreeBottomElements 4 (sampleState chainRABC) 1 = .ok [⟨2⟩, ⟨3⟩, ⟨4⟩] ∧
    (∃ tb, ∀ fuel, (sampleState chainRABC).listBatch.length ≤ fuel →
      getTreeBottomElements fuel (sampleState chainRABC) 1 = .ok tb) :=
  ⟨Acyclic_of_rank (fun x => x) (by decide), by decide, by decide,
    (C17_recursions_terminate (sampleState chainRABC)
      (Acyclic_of_rank (fun x => x) (by decide)) 1 1).2.2.2.1⟩

/-- C18: with pairwise distinct ids in the list and in the pending queue and no
cycle, whenever `RecalcGroupsDepth(rootId)` returns: the ids of the queue are
still pairwise distinct; for every entry of the list that the run has changed the
queue holds exactly one entry with its id, and that entry carries the new depth;
a group `k + 1` links below the group looked up for `rootId` whose depth already
was the depth of that group plus `k + 1` in `int32` arithmetic (one more than the
depth its parent has in the end) is unchanged and its id is in the queue only if
it was before; and an entry that was in the queue is still at its index with
every field but `DepthLevel` as it was.  The call returns when the mutex is free
and the recursion depth allowed exceeds the number of groups. -/
theorem C18_recalc_enqueues_what_it_changed (fuel : Nat) (s : GroupsSingle) (rootId : UUID)
    (hone : OneVersionPerId s) (hac : Acyclic s.listBatch) :
    (∀ s', RecalcGroupsDepth fuel rootId s = .ok s' →
      (ids s'.createBatch).Nodup ∧
      (∀ (i : Nat) (g g' : Group), s.listBatch[i]? = some g → s'.listBatch[i]? = some g' →
        g' ≠ g →
        g'.Id = g.Id ∧ (ids s'.createBatch).count g.Id = 1 ∧
        ∀ c ∈ s'.createBatch, c.Id = g.Id → c.DepthLevel = g'.DepthLevel) ∧
      (∀ (i : Nat) (g : Group) (k : Nat), s.listBatch[i]? = some g →
        DescAt s.listBatch (k + 1) g.Id (GetBatchElementById s rootId).Id →
        g.DepthLevel =
          wrap32 ((GetBatchElementById s rootId).DepthLevel + ((k + 1 : Nat) : Int)) →
        s'.listBatch[i]? = some g ∧
          (g.Id ∈ ids s'.createBatch → g.Id ∈ ids s.createBatch)) ∧
      (∀ (i : Nat) (c : Group), s.createBatch[i]? = some c →
        ∃ dl, s'.createBatch[i]? = some { c with DepthLevel := dl })) ∧
    (s.mu = false → s.listBatch.length < fuel →
      ∃ s', RecalcGroupsDepth fuel rootId s = .ok s') := by
  refine ⟨?_, fun hmu hfuel => setGroupDepth_returns s.listBatch hac fuel _ _ s rfl hmu hfuel⟩
  intro s' h
  have hF := setGroupDepth_frame s.listBatch fuel _ _ s s' rfl h
  have hQ := setGroupDepth_queue fuel _ _ s s' h
  have hN := setGroupDepth_fresh s.listBatch hone.2 fuel _ _ s s' rfl h
  have hK := setGroupDepth_keep fuel _ _ s s' h
  have hS := setGroupDepth_sync s fuel _ _ s s' hone (QueueSync.sync_refl s) h
  have hone' : OneVersionPerId s' := hQ.2.2.2.1 hone
  refine ⟨hone'.1, ?_, ?_, hK⟩
  · intro i g g' hg hg' hne
    obtain ⟨g0, hg0, hid, -⟩ := hF.getElem?_fwd hg
    rw [hg'] at hg0
    cases hg0
    have hin : g.Id ∈ ids s'.createBatch := by
      rcases hQ.2.2.1 i g hg with h1 | h1
      · rw [hg'] at h1
        cases h1
        exact absurd rfl hne
      · exact h1
    refine ⟨hid, List.count_eq_one_of_mem hone'.1 hin, ?_⟩
    intro c hc hcid
    rcases hS c hc g' (List.getElem?_mem hg') (by rw [hcid, hid]) with h1 | ⟨-, h1⟩
    · exact h1
    · exact absurd (eq_of_mem_of_id_eq hone.2 h1 (List.getElem?_mem hg) hid) hne
  · intro i g k hg hk hdepth
    have hk' : g.DepthLevel =
        depthAt (add32 (GetBatchElementById s rootId).DepthLevel 1) k := by
      rw [depthAt_add32, hdepth]
      push_cast
      rfl
    have hbelow := hac.below (GetBatchElementById s rootId).Id
    constructor
    · rcases hF.2.2.2 i g hg with h1 | ⟨k1, hk1, h1⟩
      · exact h1
      · have hkk : k1 + 1 = k + 1 := DescAt_distance_unique_below hone.2 hbelow hk1 hk
        have hkk' : k1 = k := by omega
        rw [h1, hkk', ← hk']
    · intro hin
      rcases hN g.Id hin with h1 | ⟨j, g1, k1, hg1, hid1, hk1, hne1⟩
      · exact h1
      · exfalso
        have hgg : g1 = g :=
          eq_of_mem_of_id_eq hone.2 (List.getElem?_mem hg1) (List.getElem?_mem hg) hid1
        have hkk : k1 + 1 = k + 1 := DescAt_distance_unique_below hone.2 hbelow hk1 hk
        have hkk' : k1 = k := by omega
        rw [hgg, hkk'] at hne1
        exact hne1 hk'

/-- C18 on the chain `root, A, B, C` with `C` and another version of `A` in the
queue: the run from `root` changes the depth of `A` only; the entry of `A` in the
queue receives the new depth and keeps its other fields, `B` does not enter the
queue. -/
theorem C18_recalc_enqueues_what_it_changed_witness :
    (OneVersionPerId ⟨chainRABC, [sampleGroup 4 3 3 false, sampleGroup 2 7 7 true], false, []⟩ ∧
      Acyclic chainRABC) ∧
    RecalcGroupsDepth 5 1
        ⟨chainRABC, [sampleGroup 4 3 3 false, sampleGroup 2 7 7 true], false, []⟩ =
      .ok { listBatch := [sampleGroup 1 0 0 true, sampleGroup 2 1 1 false,
              sampleGroup 3 2 2 false, sampleGroup 4 3 3 false],
            createBatch := [sampleGroup 4 3 3 false, sampleGroup 2 7 1 true],
            mu := false, db := [] } ∧
    ∃ s', RecalcGroupsDepth 5 1
        ⟨chainRABC, [sampleGroup 4 3 3 false, sampleGroup 2 7 7 true], false, []⟩ = .ok s' :=
  ⟨⟨⟨by decide, by decide⟩, Acyclic_of_rank (fun x => x) (by decide)⟩, by decide,
    (C18_recalc_enqueues_what_it_changed 5
      ⟨chainRABC, [sampleGroup 4 3 3 false, sampleGroup 2 7 7 true], false, []⟩ 1
      ⟨by decide, by decide⟩ (Acyclic_of_rank (fun x => x) (by decide))).2 rfl (by decide)⟩

/-- C19: the removal loop of `ResetGroupsTable` is index safe only on lists whose
entries in front of the last index are all main.  With a free mutex and a
successful storage delete the call fails with an out-of-range read exactly when
some entry in front of the last index is not main; otherwise it returns the main
entries.  So the reads are not within bounds for every list. -/
theorem C19_reset_out_of_range_iff (s : GroupsSingle) (hmu : s.mu = false) :
    (ResetGroupsTable none s = .error .indexOutOfRange ↔
      ∃ i g, i + 1 < s.listBatch.length ∧ s.listBatch[i]? = some g ∧ g.Main = false) ∧
    ((∀ i g, i + 1 < s.listBatch.length → s.listBatch[i]? = some g → g.Main = true) →
      ResetGroupsTable none s =
        .ok (none, ⟨s.listBatch.filter (fun g => g.Main), s.createBatch, false,
          s.db ++ [DbCall.deleteNonMain]⟩)) := by
  refine ⟨⟨?_, ?_⟩, ResetGroupsTable_ok s hmu⟩
  · intro herr
    by_contra hno
    have hmain : ∀ i g, i + 1 < s.listBatch.length → s.listBatch[i]? = some g →
        g.Main = true := by
      intro i g hi hg
      by_contra hm
      exact hno ⟨i, g, hi, hg, by simpa using hm⟩
    rw [ResetGroupsTable_ok s hmu hmain] at herr
    cases herr
  · rintro ⟨i, g, hi, hg, hm⟩
    exact ResetGroupsTable_fails s hmu i g hi hg hm

/-- C19 on the list `[A, main]`: the iteration at index 0 removes `A`, the
iteration at index 1 reads `listBatch[1]` of the list `[main]` of length 1, and
the call fails with the out-of-range read. -/
theorem C19_reset_out_of_range_iff_witness :
    (sampleState nonMainFirst).mu = false ∧
      resetStep nonMainFirst 0 = .ok [sampleGroup 1 0 0 true] ∧
      resetStep [sampleGroup 1 0 0 true] 1 = .error .indexOutOfRange ∧
      ResetGroupsTable none (sampleState nonMainFirst) = .error .indexOutOfRange :=
  ⟨rfl, by decide, by decide,
    (C19_reset_out_of_range_iff (sampleState nonMainFirst) rfl).1.2
      ⟨0, sampleGroup 2 1 1 false, by decide, by decide, rfl⟩⟩

/-- C20: `DeleteById` and `ResetGroupsTable` leave the pending queue as it is:
whenever either returns (with `nil`, with "not found" or with a storage error),
`createBatch` afterwards equals `createBatch` before.  With a free mutex
`DeleteById` returns, and `ResetGroupsTable` returns on a storage error.  Hence,
from a free mutex, `UpdateBatch(g)` followed by a successful `DeleteById(g.Id)`
and a successful `CreateFromBatch` all return, and the batch handed to the bulk
append still contains `g`. -/
theorem C20_delete_and_reset_keep_queue (s : GroupsSingle) (id : UUID)
    (dbDelete : Option GoError) (g : Group) (optimize : Bool)
    (dbFind : Except GoError (List Group)) :
    (∀ r s', DeleteById id dbDelete s = .ok (r, s') → s'.createBatch = s.createBatch) ∧
    (∀ r s', ResetGroupsTable dbDelete s = .ok (r, s') → s'.createBatch = s.createBatch) ∧
    (s.mu = false → ∃ r s', DeleteById id dbDelete s = .ok (r, s')) ∧
    (s.mu = false → ∀ e, ∃ s', ResetGroupsTable (some e) s = .ok (some e, s')) ∧
    (s.mu = false → ∃ s1 s2 s3 batch,
      UpdateBatch g s = .ok s1 ∧
      DeleteById g.Id none s1 = .ok (none, s2) ∧
      (∀ x ∈ s2.listBatch, x ∈ s1.listBatch) ∧
      s2.listBatch.length + 1 = s1.listBatch.length ∧
      CreateFromBatch optimize none dbFind s2 = .ok (none, s3) ∧
      g ∈ batch ∧
      s3.db = s2.db ++ DbCall.create batch :: (if optimize then [DbCall.optimize] else [])) := by
  refine ⟨fun r s' h => DeleteById_createBatch h, fun r s' h => ResetGroupsTable_createBatch h,
    DeleteById_returns id dbDelete s, fun hmu e => ⟨_, ResetGroupsTable_error_returns e s hmu⟩,
    ?_⟩
  intro hmu
  have h1 := UpdateBatch_free g s hmu
  have hin : ∃ a ∈ upsert s.listBatch g, (fun x : Group => x.Id == g.Id) a = true :=
    ⟨g, mem_upsert_self _ g, by simp⟩
  obtain ⟨idx, hidx⟩ := (IndexFunc_isSome (upsert s.listBatch g) (fun x => x.Id == g.Id)).2 hin
  obtain ⟨pre, c, post, hl, -, -, -, hrem⟩ := IndexFunc_split _ _ _ hidx
  have h2 : DeleteById g.Id none ⟨upsert s.listBatch g, upsert s.createBatch g, false, s.db⟩ =
      .ok (none, ⟨pre ++ post, upsert s.createBatch g, false,
        s.db ++ [DbCall.deleteById g.Id]⟩) := by
    simp [DeleteById, hidx, Lock, Unlock, bind, Except.bind, hrem, pure, Except.pure]
  have hne : ¬ (upsert s.createBatch g).length < 1 := by
    have := List.length_pos_of_mem (mem_upsert_self s.createBatch g)
    omega
  have h3 : CreateFromBatch optimize none dbFind
      ⟨pre ++ post, upsert s.createBatch g, false, s.db ++ [DbCall.deleteById g.Id]⟩ =
      .ok (none, ⟨pre ++ post, [], false,
        (s.db ++ [DbCall.deleteById g.Id]) ++ DbCall.create (upsert s.createBatch g) ::
          (if optimize then [DbCall.optimize] else [])⟩) := by
    cases optimize <;>
      simp [CreateFromBatch, Lock, Unlock, hne, bind, Except.bind, pure, Except.pure]
  refine ⟨_, _, _, upsert s.createBatch g, h1, h2, ?_, ?_, h3, mem_upsert_self _ g, rfl⟩
  · intro x hx
    show x ∈ upsert s.listBatch g
    rw [hl]
    rcases List.mem_append.1 hx with hx | hx
    · exact List.mem_append_left _ hx
    · exact List.mem_append_right _ (List.mem_cons_of_mem _ hx)
  · show (pre ++ post).length + 1 = (upsert s.listBatch g).length
    rw [hl]
    simp
    omega

/-- C20 on the list `[main, A, B]`: group 4 is added, deleted again, and the next
flush still appends it to storage. -/
theorem C20_delete_and_reset_keep_queue_witness :
    UpdateBatch (sampleGroup 4 1 1 false) (sampleState mainAB) =
      .ok ⟨mainAB ++ [sampleGroup 4 1 1 false], [sampleGroup 4 1 1 false], false, []⟩ ∧
    DeleteById 4 none ⟨mainAB ++ [sampleGroup 4 1 1 false], [sampleGroup 4 1 1 false], false, []⟩ =
      .ok (none, ⟨mainAB, [sampleGroup 4 1 1 false], false, [DbCall.deleteById 4]⟩) ∧
    CreateFromBatch false none (.ok [])
        ⟨mainAB, [sampleGroup 4 1 1 false], false, [DbCall.deleteById 4]⟩ =
      .ok (none, ⟨mainAB, [], false,
        [DbCall.deleteById 4, DbCall.create [sampleGroup 4 1 1 false]]⟩) ∧
    (∀ r s', DeleteById 4 (some "delete failed") (sampleState mainAB) = .ok (r, s') →
      s'.createBatch = (sampleState mainAB).createBatch) :=
  ⟨by decide, by decide, by decide,
    (C20_delete_and_reset_keep_queue (sampleState mainAB) 4 (some "delete failed")
      (sampleGroup 4 1 1 false) false (.ok [])).1⟩


end GroupCache
